import Mathlib

/-! # go-emitter: a streaming JSON emitter

Shallow embedding of the Go packages `states`, `appenders`, `json`, `values`
and of the root package's `Emitter`.

Conventions of the embedding:

* a Go `byte` is a natural number below 256 and a Go `string` or `[]byte` is a
  `List Nat` of bytes; a `rune` is an `Int`;
* a Go `uint` is a natural number below `2 ^ 64`, products are reduced modulo
  `2 ^ 64`;
* a method with a pointer receiver becomes a function that takes the receiver and
  returns the updated receiver;
* a method that can `panic` returns a `Result`: either `ret` with the updated
  receiver and the returned value, or `panic` with the receiver as the panic left
  it and the value the panic carries.
-/

namespace GoEmitter

/-! ## Go primitives used by the program -/

/-- Bytes of an ASCII string literal. -/
def ascii (s : String) : List Nat := s.toList.map Char.toNat

/-- The constant `utf8.RuneError`, U+FFFD. -/
def RuneError : Int := 0xFFFD

/-- Number of bytes announced by the first byte of a UTF-8 sequence (`utf8.first`):
1 for ASCII, 2 to 4 for a legal leading byte and 0 for a byte that cannot start a
sequence. -/
def utf8Size (s0 : Nat) : Nat :=
  if s0 < 0x80 then 1
  else if 0xC2 ≤ s0 ∧ s0 ≤ 0xDF then 2
  else if 0xE0 ≤ s0 ∧ s0 ≤ 0xEF then 3
  else if 0xF0 ≤ s0 ∧ s0 ≤ 0xF4 then 4
  else 0

/-- Lower bound of the second byte after leading byte `s0` (`utf8.acceptRanges`). -/
def acceptLo (s0 : Nat) : Nat :=
  if s0 = 0xE0 then 0xA0 else if s0 = 0xF0 then 0x90 else 0x80

/-- Upper bound of the second byte after leading byte `s0` (`utf8.acceptRanges`). -/
def acceptHi (s0 : Nat) : Nat :=
  if s0 = 0xED then 0x9F else if s0 = 0xF4 then 0x8F else 0xBF

/-- Continuation byte test: `locb <= b && b <= hicb`. -/
def isCont (b : Nat) : Bool := 0x80 ≤ b && b ≤ 0xBF

/-- The function `utf8.DecodeRuneInString`: the first code point of `s` and the
number of bytes it occupies; `(RuneError, 1)` for an invalid or truncated
sequence, `(RuneError, 0)` for the empty string. -/
def DecodeRuneInString (s : List Nat) : Int × Nat :=
  match s with
  | [] => (RuneError, 0)
  | s0 :: t =>
    let sz := utf8Size s0
    if sz = 1 then ((s0 : Int), 1)
    else if sz = 0 then (RuneError, 1)
    else if s.length < sz then (RuneError, 1)
    else
      let s1 := t.getD 0 0
      let s2 := t.getD 1 0
      let s3 := t.getD 2 0
      if s1 < acceptLo s0 ∨ acceptHi s0 < s1 then (RuneError, 1)
      else if sz = 2 then ((((s0 % 32) * 64 + s1 % 64 : Nat) : Int), 2)
      else if !isCont s2 then (RuneError, 1)
      else if sz = 3 then ((((s0 % 16) * 4096 + (s1 % 64) * 64 + s2 % 64 : Nat) : Int), 3)
      else if !isCont s3 then (RuneError, 1)
      else ((((s0 % 8) * 262144 + (s1 % 64) * 4096 + (s2 % 64) * 64 + s3 % 64 : Nat) : Int), 4)

/-- Loop `for _, ch := range s` over a string, with `skip` bytes of the current
code point still to step over: at each code point boundary the next code point is
decoded, an invalid byte yields U+FFFD and advances by one byte. -/
def rangeRunesFrom : Nat → List Nat → List Int
  | _, [] => []
  | skip + 1, _ :: t => rangeRunesFrom skip t
  | 0, s0 :: t => (DecodeRuneInString (s0 :: t)).1 :: rangeRunesFrom ((DecodeRuneInString (s0 :: t)).2 - 1) t

/-- The code points visited by `for _, ch := range s`. -/
def rangeRunes (s : List Nat) : List Int := rangeRunesFrom 0 s

/-- The conversion `string(ch)` of a rune: its UTF-8 encoding, and the encoding of
U+FFFD for a negative value, a surrogate or a value above U+10FFFF. -/
def runeToString (ch : Int) : List Nat :=
  let n := ch.toNat
  if ch < 0 then [0xEF, 0xBF, 0xBD]
  else if n < 0x80 then [n]
  else if n < 0x800 then [0xC0 + n / 64, 0x80 + n % 64]
  else if 0xD800 ≤ n ∧ n < 0xE000 then [0xEF, 0xBF, 0xBD]
  else if n < 0x10000 then [0xE0 + n / 4096, 0x80 + n / 64 % 64, 0x80 + n % 64]
  else if n < 0x110000 then [0xF0 + n / 262144, 0x80 + n / 4096 % 64, 0x80 + n / 64 % 64, 0x80 + n % 64]
  else [0xEF, 0xBF, 0xBD]

/-- Decimal digits of a natural number, as `strconv.AppendUint(nil, n, 10)`. -/
def decimal (n : Nat) : List Nat := (Nat.toDigits 10 n).map Char.toNat

/-- Decimal text of an integer, as `strconv.AppendInt(nil, i, 10)`. -/
def decimalInt (i : Int) : List Nat :=
  if i < 0 then 0x2D :: decimal i.natAbs else decimal i.toNat

/-- One lowercase hexadecimal digit. -/
def hexDigit (n : Nat) : Nat := if n < 10 then 0x30 + n else 0x57 + n

/-- Text of `fmt.Appendf(nil, "\\u%04x", ch)` for a rune `0 <= ch <= 0xFFFF`. -/
def appendfU04x (ch : Int) : List Nat :=
  let n := ch.toNat
  [0x5C, 0x75, hexDigit (n / 4096 % 16), hexDigit (n / 256 % 16), hexDigit (n / 16 % 16), hexDigit (n % 16)]

/-- One character of the standard base64 alphabet. -/
def base64Char (n : Nat) : Nat :=
  if n < 26 then 0x41 + n
  else if n < 52 then 0x61 + (n - 26)
  else if n < 62 then 0x30 + (n - 52)
  else if n = 62 then 0x2B
  else 0x2F

/-- The call `base64.StdEncoding.Encode(tmp[:], src)` for at most three source bytes
into the zeroed four-byte array `tmp`. -/
def base64Encode (src : List Nat) : List Nat :=
  match src with
  | [] => [0, 0, 0, 0]
  | [a] => [base64Char (a / 4), base64Char (a % 4 * 16), 0x3D, 0x3D]
  | [a, b] => [base64Char (a / 4), base64Char (a % 4 * 16 + b / 16), base64Char (b % 16 * 4), 0x3D]
  | a :: b :: c :: _ =>
    [base64Char (a / 4), base64Char (a % 4 * 16 + b / 16), base64Char (b % 16 * 4 + c / 64), base64Char (c % 64)]

/-- A `float64`, seen through the observations the program makes of it. -/
structure Float64 where
  /-- Result of `math.IsNaN(value)`. -/
  isNaN : Bool
  /-- Result of `math.IsInf(value, 0)`. -/
  isInf : Bool
  /-- Result of `value < 0`. -/
  isNeg : Bool
  /-- Result of `strconv.AppendFloat(nil, value, 0x67, -1, 64)`. -/
  text : List Nat

/-- A non-nil `*big.Float`, seen through its `Append` method. -/
structure BigFloat where
  /-- Result of `x.Append(nil, fmt, prec)`. -/
  Append : Nat → Int → List Nat

/-- The values carried by the panics of this program. -/
inductive PanicValue where
  /-- The error `unexpected state %v` of `State.Unexpected`. -/
  | unexpectedState (state : Nat)
  /-- The error `stack is empty` of `Machine.Pop`. -/
  | stackIsEmpty
  /-- The error `EmitReflected not implemented for %v`. -/
  | notImplemented
  /-- The error `io.Writer is nil`. -/
  | writerIsNil
  /-- The error `emitter.Generator is nil`. -/
  | generatorIsNil
  /-- A nil pointer dereference or a call on a nil interface. -/
  | nilDereference
  /-- The `*reflect.ValueError` of `reflect.Value.Type` called on the zero Value. -/
  | reflectValueError
  deriving DecidableEq, Repr

/-- Outcome of a call on a receiver of type `σ` that returns an `α`: the call
returns, or it panics and leaves the receiver as it was at the panic. -/
inductive Result (σ : Type) (α : Type) where
  | ret (s : σ) (a : α)
  | panic (s : σ) (p : PanicValue)

/-- The call panicked. -/
def Result.aborts {σ α : Type} : Result σ α → Bool
  | .ret _ _ => false
  | .panic _ _ => true

/-- The receiver after the call, whether it returned or panicked. -/
def Result.state {σ α : Type} : Result σ α → σ
  | .ret s _ => s
  | .panic s _ => s

/-- The returned value, if the call returned. -/
def Result.value? {σ α : Type} : Result σ α → Option α
  | .ret _ a => some a
  | .panic _ _ => none

/-! ## Package `states` -/

/-- The type `State byte`. -/
structure State where
  val : Nat
  deriving DecidableEq, Repr

namespace State

def Root : State := ⟨0⟩
def ObjectFirstKey : State := ⟨1⟩
def ObjectNextKey : State := ⟨2⟩
def ObjectFirstValue : State := ⟨3⟩
def ObjectNextValue : State := ⟨4⟩
def ArrayFirstValue : State := ⟨5⟩
def ArrayNextValue : State := ⟨6⟩
def End : State := ⟨7⟩

def stateSize : Nat := 8

/-- The value `^State(0)`, all bits of the byte set. -/
def allOnes : State := ⟨255⟩

def IsValid (state : State) : Bool := state.val < stateSize

def Unexpected (state : State) : PanicValue := .unexpectedState state.val

/-- The method `State.Next`; `Except.error` is the panic of the default branch. -/
def Next (state : State) : Except PanicValue State :=
  if state = Root then .ok End
  else if state = ObjectFirstKey then .ok ObjectFirstValue
  else if state = ObjectNextKey then .ok ObjectNextValue
  else if state = ObjectFirstValue then .ok ObjectNextKey
  else if state = ObjectNextValue then .ok ObjectNextKey
  else if state = ArrayFirstValue then .ok ArrayNextValue
  else if state = ArrayNextValue then .ok ArrayNextValue
  else .error state.Unexpected

def In (state : State) (oneOf : List State) : Bool :=
  match oneOf with
  | [] => false
  | x :: rest => if state = x then true else state.In rest

/-- The method `State.Expect`; `Except.error` is its panic. -/
def Expect (state : State) (oneOf : List State) : Except PanicValue Unit :=
  if !state.In oneOf then .error state.Unexpected else .ok ()

end State

/-- The struct `states.Machine`; the `scratch` array only backs `Stack`. -/
structure Machine where
  Stack : List State
  State : State
  deriving DecidableEq, Repr

namespace Machine

def Reset (_sm : Machine) : Machine := { Stack := [], State := ⟨0⟩ }

def Depth (sm : Machine) : Nat := sm.Stack.length

def Push (sm : Machine) (next : GoEmitter.State) : Machine :=
  { Stack := sm.Stack ++ [sm.State], State := next }

/-- The method `Machine.Pop`; the index `n` is in range where the stack is read, so
the default of `getD` is never used. -/
def Pop (sm : Machine) : Except PanicValue Machine :=
  let n := sm.Stack.length
  if n ≤ 0 then .error .stackIsEmpty
  else
    let n := n - 1
    .ok { State := sm.Stack.getD n ⟨0⟩, Stack := sm.Stack.take n }

def Next (sm : Machine) : Except PanicValue Machine :=
  match sm.State.Next with
  | .error p => .error p
  | .ok s => .ok { sm with State := s }

def Expect (sm : Machine) (oneOf : List GoEmitter.State) : Except PanicValue Unit :=
  sm.State.Expect oneOf

def ExpectRoot (sm : Machine) : Except PanicValue Unit :=
  sm.Expect [.Root]

def ExpectKey (sm : Machine) : Except PanicValue Unit :=
  sm.Expect [.ObjectFirstKey, .ObjectNextKey]

def ExpectValue (sm : Machine) : Except PanicValue Unit :=
  sm.Expect [.Root, .ObjectFirstValue, .ObjectNextValue, .ArrayFirstValue, .ArrayNextValue]

def ExpectArray (sm : Machine) : Except PanicValue Unit :=
  sm.Expect [.ArrayFirstValue, .ArrayNextValue]

def ExpectEnd (sm : Machine) : Except PanicValue Unit :=
  sm.Expect [.End]

end Machine

/-! ## Packages `appenders` and `json`: fragments -/

/-- The map `stringEscapes` of `json/appenders.go`. -/
def stringEscapes : List (Int × List Nat) :=
  [
    (0x22, ascii "\\\""),
    (0x5C, ascii "\\\\"),
    (0x00, ascii "\\u0000"),
    (0x01, ascii "\\u0001"),
    (0x02, ascii "\\u0002"),
    (0x03, ascii "\\u0003"),
    (0x04, ascii "\\u0004"),
    (0x05, ascii "\\u0005"),
    (0x06, ascii "\\u0006"),
    (0x07, ascii "\\u0007"),
    (0x08, ascii "\\b"),
    (0x09, ascii "\\t"),
    (0x0A, ascii "\\n"),
    (0x0B, ascii "\\u000b"),
    (0x0C, ascii "\\f"),
    (0x0D, ascii "\\r"),
    (0x0E, ascii "\\u000e"),
    (0x0F, ascii "\\u000f"),
    (0x10, ascii "\\u0010"),
    (0x11, ascii "\\u0011"),
    (0x12, ascii "\\u0012"),
    (0x13, ascii "\\u0013"),
    (0x14, ascii "\\u0014"),
    (0x15, ascii "\\u0015"),
    (0x16, ascii "\\u0016"),
    (0x17, ascii "\\u0017"),
    (0x18, ascii "\\u0018"),
    (0x19, ascii "\\u0019"),
    (0x1A, ascii "\\u001a"),
    (0x1B, ascii "\\u001b"),
    (0x1C, ascii "\\u001c"),
    (0x1D, ascii "\\u001d"),
    (0x1E, ascii "\\u001e"),
    (0x1F, ascii "\\u001f"),
    (0x7F, ascii "\\u007f"),
    (0x80, ascii "\\u0080"),
    (0x81, ascii "\\u0081"),
    (0x82, ascii "\\u0082"),
    (0x83, ascii "\\u0083"),
    (0x84, ascii "\\u0084"),
    (0x85, ascii "\\u0085"),
    (0x86, ascii "\\u0086"),
    (0x87, ascii "\\u0087"),
    (0x88, ascii "\\u0088"),
    (0x89, ascii "\\u0089"),
    (0x8A, ascii "\\u008a"),
    (0x8B, ascii "\\u008b"),
    (0x8C, ascii "\\u008c"),
    (0x8D, ascii "\\u008d"),
    (0x8E, ascii "\\u008e"),
    (0x8F, ascii "\\u008f"),
    (0x90, ascii "\\u0090"),
    (0x91, ascii "\\u0091"),
    (0x92, ascii "\\u0092"),
    (0x93, ascii "\\u0093"),
    (0x94, ascii "\\u0094"),
    (0x95, ascii "\\u0095"),
    (0x96, ascii "\\u0096"),
    (0x97, ascii "\\u0097"),
    (0x98, ascii "\\u0098"),
    (0x99, ascii "\\u0099"),
    (0x9A, ascii "\\u009a"),
    (0x9B, ascii "\\u009b"),
    (0x9C, ascii "\\u009c"),
    (0x9D, ascii "\\u009d"),
    (0x9E, ascii "\\u009e"),
    (0x9F, ascii "\\u009f")
  ]

/-- The map `stringEscapesHTML` of `json/appenders.go`. -/
def stringEscapesHTML : List (Int × List Nat) :=
  [
    (0x26, ascii "\\u0026"),
    (0x3C, ascii "\\u003c"),
    (0x3E, ascii "\\u003e")
  ]

/-- The struct `json.StringAppender`. -/
structure StringAppender where
  Value : List Nat
  EscapeHTML : Bool

/-- Body of the loop of `StringAppender.Append` for one code point `ch`. -/
def StringAppender.appendRune (a : StringAppender) (out : List Nat) (ch : Int) : List Nat :=
  match stringEscapes.lookup ch with
  | some esc => out ++ esc
  | none =>
    match (if a.EscapeHTML then stringEscapesHTML.lookup ch else none) with
    | some esc => out ++ esc
    | none =>
      if ch ≥ 0xd800 ∧ ch < 0xe000 then out ++ appendfU04x ch
      else out ++ runeToString ch

def StringAppender.Append (a : StringAppender) (out : List Nat) : List Nat :=
  (rangeRunes a.Value).foldl a.appendRune (out ++ [0x22]) ++ [0x22]

/-- The struct `json.BytesAppender`. -/
structure BytesAppender where
  Value : List Nat

/-- Loop of `BytesAppender.Append`: the value is cut into chunks of three bytes, the
last one possibly shorter, and each chunk is encoded into four characters. -/
def BytesAppender.chunks : List Nat → List Nat
  | [] => []
  | [a] => base64Encode [a]
  | [a, b] => base64Encode [a, b]
  | a :: b :: c :: rest => base64Encode [a, b, c] ++ BytesAppender.chunks rest

def BytesAppender.Append (a : BytesAppender) (out : List Nat) : List Nat :=
  out ++ [0x22] ++ BytesAppender.chunks a.Value ++ [0x22]

/-- The struct `appenders.BigFloatText`, with a non-nil `Pointer`. -/
structure BigFloatText where
  Pointer : BigFloat
  Format : Nat
  Prec : Int
  HasFormatAndPrec : Bool

def BigFloatText.Append (a : BigFloatText) (out : List Nat) : List Nat :=
  if a.HasFormatAndPrec then out ++ a.Pointer.Append a.Format a.Prec
  else out ++ a.Pointer.Append 0x67 (-1)

/-- The implementations of the interface `appenders.Appender`. A `BigIntText` holds
the number its non-nil `Pointer` points to. -/
inductive Appender where
  | LiteralBytes (a : List Nat)
  | LiteralString (a : List Nat)
  | IntText (a : Int)
  | UintText (a : Nat)
  | BigIntText (Pointer : Int)
  | FloatText (a : Float64)
  | BigFloatText (a : GoEmitter.BigFloatText)
  | StringAppender (a : GoEmitter.StringAppender)
  | BytesAppender (a : GoEmitter.BytesAppender)

/-- The method `Append` of each implementation. -/
def Appender.Append (a : Appender) (out : List Nat) : List Nat :=
  match a with
  | .LiteralBytes x => out ++ x
  | .LiteralString x => out ++ x
  | .IntText x => out ++ decimalInt x
  | .UintText x => out ++ decimal x
  | .BigIntText x => out ++ decimalInt x
  | .FloatText x => out ++ x.text
  | .BigFloatText x => x.Append out
  | .StringAppender x => x.Append out
  | .BytesAppender x => x.Append out

/-- Appending a list of fragments in order, as the loop of `Emitter.apply` does. -/
def appendAll (list : List Appender) (out : List Nat) : List Nat :=
  list.foldl (fun out a => a.Append out) out

/-- The struct `appenders.Builder`. -/
structure Builder where
  list : List Appender := []
  out : List Nat := []

namespace Builder

def flush (b : Builder) : Builder :=
  if b.out.length ≤ 0 then b
  else { list := b.list ++ [Appender.LiteralString b.out], out := [] }

def AddBytes (b : Builder) (buf : List Nat) : Builder :=
  { b with out := b.out ++ buf }

def AddString (b : Builder) (str : List Nat) : Builder :=
  { b with out := b.out ++ str }

def AddByte (b : Builder) (ch : Nat) : Builder :=
  { b with out := b.out ++ [ch] }

def AddRune (b : Builder) (ch : Int) : Builder :=
  { b with out := b.out ++ runeToString ch }

/-- The method `Builder.Add`; `none` is a nil interface value. -/
def Add (b : Builder) (a : Option Appender) : Builder :=
  match a with
  | none => b
  | some (.LiteralBytes x) => b.AddBytes x
  | some (.LiteralString x) => b.AddString x
  | some a => { b.flush with list := b.flush.list ++ [a] }

/-- The method `Builder.Indent`; `size` and `count` are of type `uint`. -/
def Indent (b : Builder) (tab : Bool) (size : Nat) (count : Nat) : Builder :=
  if count ≤ 0 then b
  else
    let unit := if tab then 0x09 else 0x20
    let defaultSize := if tab then 1 else 2
    let size := if size ≤ 0 then defaultSize else size
    let numUnits := count * size % 2 ^ 64
    { b with out := b.out ++ List.replicate numUnits unit }

/-- The method `Builder.Build`: the fragments, and the builder it leaves. -/
def Build (b : Builder) : List Appender × Builder :=
  (b.flush.list, { b.flush with list := [] })

end Builder

/-! ## Package `json`: formats and the generator -/

/-- The type `json.Format byte`. -/
structure Format where
  val : Nat
  deriving DecidableEq, Repr

namespace Format

def Compact : Format := ⟨0⟩
def OneLine : Format := ⟨1⟩
def MultiLine : Format := ⟨2⟩

def indent (f : Format) (b : Builder) (tabs : Bool) (size : Nat) (count : Nat) : Builder :=
  if f = MultiLine then (b.AddByte 0x0A).Indent tabs size count
  else b

def indentOrSpace (f : Format) (b : Builder) (tabs : Bool) (size : Nat) (count : Nat) : Builder :=
  if f = MultiLine then (b.AddByte 0x0A).Indent tabs size count
  else if f = OneLine then b.AddByte 0x20
  else b

def space (f : Format) (b : Builder) : Builder :=
  if f = MultiLine then b.AddByte 0x20
  else if f = OneLine then b.AddByte 0x20
  else b

def lineFeed (f : Format) (b : Builder) : Builder :=
  if f = MultiLine then b.AddByte 0x0A
  else if f = OneLine then b.AddByte 0x0A
  else b

end Format

/-- The struct `json.JSON`. -/
structure JSON where
  Format : Format := ⟨0⟩
  IndentSize : Nat := 0
  IndentWithTabs : Bool := false
  EscapeHTML : Bool := false
  TraceEnabled : Bool := false
  deriving DecidableEq, Repr

/-- The struct `json.Generator`. The calls of `trace` only print to standard error
and are left out. -/
structure Generator where
  json : JSON
  sm : Machine
  deriving DecidableEq, Repr

/-- Result of a generator call: the fragments it returns, or a panic. -/
abbrev GenResult := Result Generator (List Appender)

namespace Generator

def Reset (g : Generator) : Generator := { g with sm := g.sm.Reset }

def indent (g : Generator) (b : Builder) : Builder :=
  g.json.Format.indent b g.json.IndentWithTabs g.json.IndentSize g.sm.Depth

def indentOrSpace (g : Generator) (b : Builder) : Builder :=
  g.json.Format.indentOrSpace b g.json.IndentWithTabs g.json.IndentSize g.sm.Depth

def space (g : Generator) (b : Builder) : Builder := g.json.Format.space b

def lineFeed (g : Generator) (b : Builder) : Builder := g.json.Format.lineFeed b

def Begin (g : Generator) : GenResult :=
  match g.sm.ExpectRoot with
  | .error p => .panic g p
  | .ok _ => .ret g []

def End (g : Generator) : GenResult :=
  match g.sm.ExpectEnd with
  | .error p => .panic g p
  | .ok _ =>
    let g := { g with sm := { g.sm with State := State.allOnes } }
    let b : Builder := {}
    let b := g.lineFeed b
    .ret g b.Build.1

def StartObject (g : Generator) : GenResult :=
  match g.sm.ExpectValue with
  | .error p => .panic g p
  | .ok _ =>
    let g := { g with sm := g.sm.Push State.ObjectFirstKey }
    let b : Builder := {}
    let b := b.AddByte 0x7B
    .ret g b.Build.1

def EndObject (g : Generator) : GenResult :=
  match g.sm.ExpectKey with
  | .error p => .panic g p
  | .ok _ =>
    let needIndent := g.sm.State.In [State.ObjectNextKey]
    match g.sm.Pop with
    | .error p => .panic g p
    | .ok sm =>
      let g := { g with sm := sm }
      let b : Builder := {}
      let b := if needIndent then g.indent b else b
      let b := b.AddByte 0x7D
      match g.sm.Next with
      | .error p => .panic g p
      | .ok sm => .ret { g with sm := sm } b.Build.1

def StartArray (g : Generator) : GenResult :=
  match g.sm.ExpectValue with
  | .error p => .panic g p
  | .ok _ =>
    let g := { g with sm := g.sm.Push State.ArrayFirstValue }
    let b : Builder := {}
    let b := b.AddByte 0x5B
    .ret g b.Build.1

def EndArray (g : Generator) : GenResult :=
  match g.sm.ExpectArray with
  | .error p => .panic g p
  | .ok _ =>
    let needIndent := g.sm.State.In [State.ArrayNextValue]
    match g.sm.Pop with
    | .error p => .panic g p
    | .ok sm =>
      let g := { g with sm := sm }
      let b : Builder := {}
      let b := if needIndent then g.indent b else b
      let b := b.AddByte 0x5D
      match g.sm.Next with
      | .error p => .panic g p
      | .ok sm => .ret { g with sm := sm } b.Build.1

def Key (g : Generator) (key : List Nat) : GenResult :=
  match g.sm.ExpectKey with
  | .error p => .panic g p
  | .ok _ =>
    let b : Builder := {}
    let b := if g.sm.State.In [State.ObjectFirstKey] then g.indent b else b
    let b := if g.sm.State.In [State.ObjectNextKey] then g.indentOrSpace (b.AddByte 0x2C) else b
    let b := b.Add (some (.StringAppender { Value := key, EscapeHTML := g.json.EscapeHTML }))
    let b := b.AddByte 0x3A
    let b := g.space b
    match g.sm.Next with
    | .error p => .panic g p
    | .ok sm => .ret { g with sm := sm } b.Build.1

def value (g : Generator) (a : Appender) : GenResult :=
  match g.sm.ExpectValue with
  | .error p => .panic g p
  | .ok _ =>
    let b : Builder := {}
    let b := if g.sm.State.In [State.ArrayFirstValue] then g.indent b else b
    let b := if g.sm.State.In [State.ArrayNextValue] then g.indentOrSpace (b.AddByte 0x2C) else b
    let b := b.Add (some a)
    match g.sm.Next with
    | .error p => .panic g p
    | .ok sm => .ret { g with sm := sm } b.Build.1

def literal (g : Generator) (str : List Nat) : GenResult :=
  g.value (.LiteralString str)

def NullValue (g : Generator) : GenResult := g.literal (ascii "null")

def BoolValue (g : Generator) (value : Bool) : GenResult :=
  if value then g.literal (ascii "true") else g.literal (ascii "false")

def StringValue (g : Generator) (value : List Nat) : GenResult :=
  g.value (.StringAppender { Value := value, EscapeHTML := g.json.EscapeHTML })

def BytesValue (g : Generator) (value : List Nat) : GenResult :=
  g.value (.BytesAppender { Value := value })

def RuneValue (g : Generator) (value : Int) : GenResult :=
  g.StringValue (runeToString value)

def ByteValue (g : Generator) (value : Nat) : GenResult :=
  g.RuneValue (value : Int)

def IntValue (g : Generator) (value : Int) : GenResult := g.value (.IntText value)

def UintValue (g : Generator) (value : Nat) : GenResult := g.value (.UintText value)

def NaNValue (g : Generator) : GenResult := g.literal (ascii "\"NaN\"")

def InfValue (g : Generator) (isNeg : Bool) : GenResult :=
  if isNeg then g.literal (ascii "\"-Inf\"") else g.literal (ascii "\"+Inf\"")

def FloatValue (g : Generator) (value : Float64) : GenResult := g.value (.FloatText value)

/-- The method `Generator.BigIntValue`; `none` is the nil pointer. -/
def BigIntValue (g : Generator) (value : Option Int) : GenResult :=
  match value with
  | none => g.NullValue
  | some x => g.value (.BigIntText x)

/-- The method `Generator.BigFloatValue`; `none` is the nil pointer. -/
def BigFloatValue (g : Generator) (value : Option BigFloat) : GenResult :=
  match value with
  | none => g.NullValue
  | some x => g.value (.BigFloatText { Pointer := x, Format := 0, Prec := 0, HasFormatAndPrec := false })

end Generator

/-- The method `JSON.NewGenerator`. -/
def JSON.NewGenerator (json : JSON) : Generator :=
  Generator.Reset { json := json, sm := { Stack := [], State := ⟨0⟩ } }

/-! ## Root package: the emitter -/

/-- An error value returned by the sink. -/
structure IOError where
  code : Nat
  deriving DecidableEq, Repr

/-- A sink of type `io.Writer`: the buffers it has been handed so far, in call
order, and its behaviour, which maps the earlier buffers and the buffer of the
present call to the count and error that `Write` returns. -/
structure Writer where
  received : List (List Nat)
  respond : List (List Nat) → List Nat → Int × Option IOError

/-- The call `w.Write(p)`: the returned pair and the sink after the call. -/
def Writer.Write (w : Writer) (p : List Nat) : (Int × Option IOError) × Writer :=
  (w.respond w.received p, { w with received := w.received ++ [p] })

/-- A sink that accepts every buffer completely and never fails. -/
def Writer.reliable : Writer :=
  { received := [], respond := fun _ p => ((p.length : Int), none) }

def blockSize : Nat := 4096

/-- Conversion of an integer to `int64`, two's complement wrap-around. -/
def wrapInt64 (i : Int) : Int := (i + 2 ^ 63) % 2 ^ 64 - 2 ^ 63

/-- The struct `emitter.Emitter` after `New` or `Reset`, with the JSON generator as
its `Generator`; the `scratch` array only backs `out`. -/
structure Emitter where
  w : Writer
  g : Generator
  out : List Nat
  err : Option IOError
  n : Int

/-- A `float32`, seen through its conversion to `float64`. -/
structure Float32 where
  toFloat64 : Float64

namespace Emitter

def flush (e : Emitter) : Emitter :=
  let r := e.w.Write e.out
  { e with w := r.2, err := r.1.2, n := wrapInt64 (e.n + r.1.1), out := [] }

def apply (e : Emitter) (list : List Appender) : Emitter :=
  if e.err.isSome then e
  else
    let e := { e with out := appendAll list e.out }
    if e.out.length < blockSize then e
    else e.flush

/-- The pattern `e.apply(e.g.Call())`: a panic of the generator call leaves the
emitter untouched but for the generator, otherwise the fragments are applied. -/
def applyCall (e : Emitter) (call : Generator → GenResult) : Result Emitter Unit :=
  match call e.g with
  | .panic g p => .panic { e with g := g } p
  | .ret g list => .ret ({ e with g := g }.apply list) ()

/-- The method `Emitter.Reset`; `none` is a nil argument. -/
def Reset (e : Emitter) (w : Option Writer) (g : Option Generator) : Result Emitter Unit :=
  match w with
  | none => .panic e .writerIsNil
  | some w =>
    match g with
    | none => .panic e .generatorIsNil
    | some g =>
      let g := g.Reset
      let e : Emitter := { w := w, g := g, out := [], err := none, n := 0 }
      e.applyCall Generator.Begin

/-- The function `emitter.New`: the zero `Emitter` it allocates is overwritten by
`Reset`, so the steps of `Reset` are all that is left. -/
def New (w : Option Writer) (g : Option Generator) : Except PanicValue Emitter :=
  match w with
  | none => .error .writerIsNil
  | some w =>
    match g with
    | none => .error .generatorIsNil
    | some g =>
      let g := g.Reset
      let e : Emitter := { w := w, g := g, out := [], err := none, n := 0 }
      match e.applyCall Generator.Begin with
      | .panic _ p => .error p
      | .ret e _ => .ok e

def BytesWritten (e : Emitter) : Int := e.n

def StartObject (e : Emitter) : Result Emitter Unit := e.applyCall Generator.StartObject

def EndObject (e : Emitter) : Result Emitter Unit := e.applyCall Generator.EndObject

def StartArray (e : Emitter) : Result Emitter Unit := e.applyCall Generator.StartArray

def EndArray (e : Emitter) : Result Emitter Unit := e.applyCall Generator.EndArray

def EmitKey (e : Emitter) (key : List Nat) : Result Emitter Unit :=
  e.applyCall (fun g => g.Key key)

def EmitNull (e : Emitter) : Result Emitter Unit := e.applyCall Generator.NullValue

def EmitBool (e : Emitter) (value : Bool) : Result Emitter Unit :=
  e.applyCall (fun g => g.BoolValue value)

def EmitInt64 (e : Emitter) (value : Int) : Result Emitter Unit :=
  e.applyCall (fun g => g.IntValue value)

def EmitUint64 (e : Emitter) (value : Nat) : Result Emitter Unit :=
  e.applyCall (fun g => g.UintValue value)

def EmitBigInt (e : Emitter) (value : Option Int) : Result Emitter Unit :=
  e.applyCall (fun g => g.BigIntValue value)

def EmitFloat64 (e : Emitter) (value : Float64) : Result Emitter Unit :=
  if value.isNaN then e.applyCall Generator.NaNValue
  else if value.isInf then e.applyCall (fun g => g.InfValue value.isNeg)
  else e.applyCall (fun g => g.FloatValue value)

def EmitFloat32 (e : Emitter) (value : Float32) : Result Emitter Unit :=
  e.EmitFloat64 value.toFloat64

def EmitBigFloat (e : Emitter) (value : Option BigFloat) : Result Emitter Unit :=
  e.applyCall (fun g => g.BigFloatValue value)

def EmitString (e : Emitter) (value : List Nat) : Result Emitter Unit :=
  e.applyCall (fun g => g.StringValue value)

def EmitBytes (e : Emitter) (value : List Nat) : Result Emitter Unit :=
  e.applyCall (fun g => g.BytesValue value)

def EmitByte (e : Emitter) (value : Nat) : Result Emitter Unit :=
  e.applyCall (fun g => g.ByteValue value)

def EmitRune (e : Emitter) (value : Int) : Result Emitter Unit :=
  e.applyCall (fun g => g.RuneValue value)

/-- The method `Emitter.Flush`; the returned error is always nil. -/
def Flush (e : Emitter) : Emitter × Option IOError :=
  if e.err.isNone ∧ e.out.length > 0 then (e.flush, none) else (e, none)

def Close (e : Emitter) : Result Emitter (Option IOError) :=
  match e.applyCall Generator.End with
  | .panic e p => .panic e p
  | .ret e _ =>
    let e := if e.err.isNone then e.flush else e
    .ret e e.err

end Emitter

/-! ## Package `values` -/

/-- The implementations of `emitter.Value` in package `values`, apart from `Func`.
A child is never a nil interface. An `Object` is a list of fields, each a key and
a value. -/
inductive Value where
  | Null
  | Bool (v : Bool)
  | Int (v : Int)
  | Uint (v : Nat)
  | BigIntValue (Pointer : Option Int)
  | Float (v : Float64)
  | BigFloatValue (Pointer : Option BigFloat)
  | String (v : List Nat)
  | Bytes (v : List Nat)
  | Byte (v : Nat)
  | Rune (v : Int)
  | Array (items : List Value)
  | Object (fields : List (List Nat × Value))

mutual
/-- The method `EmitTo` of each implementation. -/
def Value.EmitTo : Value → Emitter → Result Emitter Unit
  | .Null, e => e.EmitNull
  | .Bool v, e => e.EmitBool v
  | .Int v, e => e.EmitInt64 v
  | .Uint v, e => e.EmitUint64 v
  | .BigIntValue p, e => e.EmitBigInt p
  | .Float v, e => e.EmitFloat64 v
  | .BigFloatValue p, e => e.EmitBigFloat p
  | .String v, e => e.EmitString v
  | .Bytes v, e => e.EmitBytes v
  | .Byte v, e => e.EmitByte v
  | .Rune v, e => e.EmitRune v
  | .Array items, e =>
    match e.StartArray with
    | .panic e p => .panic e p
    | .ret e _ =>
      match Value.emitItems items e with
      | .panic e p => .panic e p
      | .ret e _ => e.EndArray
  | .Object fields, e =>
    match e.StartObject with
    | .panic e p => .panic e p
    | .ret e _ =>
      match Value.emitFields fields e with
      | .panic e p => .panic e p
      | .ret e _ => e.EndObject
/-- The loop `for _, item := range v` of `Array.EmitTo`. -/
def Value.emitItems : List Value → Emitter → Result Emitter Unit
  | [], e => .ret e ()
  | item :: rest, e =>
    match item.EmitTo e with
    | .panic e p => .panic e p
    | .ret e _ => Value.emitItems rest e
/-- The loop `for _, item := range v` of `Object.EmitTo`. -/
def Value.emitFields : List (List Nat × Value) → Emitter → Result Emitter Unit
  | [], e => .ret e ()
  | (key, value) :: rest, e =>
    match e.EmitKey key with
    | .panic e p => .panic e p
    | .ret e _ =>
      match value.EmitTo e with
      | .panic e p => .panic e p
      | .ret e _ => Value.emitFields rest e
end

/-- The body of one case of `TestJSON`: a generator of the given configuration, an
emitter over a reliable sink, the value emitted and the emitter closed. The result
is the concatenation of everything the sink received, or `none` after a panic. -/
def emitDocument (json : JSON) (v : Value) : Option (List Nat) :=
  match Emitter.New (some Writer.reliable) (some json.NewGenerator) with
  | .error _ => none
  | .ok e =>
    match v.EmitTo e with
    | .panic _ _ => none
    | .ret e _ =>
      match e.Close with
      | .panic _ _ => none
      | .ret e _ => some e.w.received.flatten

/-! ## Calls as data

The calls of the generator and of the emitter as values, so that statements can
range over every call and over sequences of calls. -/

/-- One call on a `json.Generator`, with its arguments. -/
inductive Call where
  | Begin
  | End
  | StartObject
  | EndObject
  | StartArray
  | EndArray
  | Key (key : List Nat)
  | NullValue
  | BoolValue (value : Bool)
  | IntValue (value : Int)
  | UintValue (value : Nat)
  | BigIntValue (value : Option Int)
  | NaNValue
  | InfValue (isNeg : Bool)
  | FloatValue (value : Float64)
  | BigFloatValue (value : Option BigFloat)
  | StringValue (value : List Nat)
  | BytesValue (value : List Nat)
  | ByteValue (value : Nat)
  | RuneValue (value : Int)

/-- Performing a call on a generator. -/
def Call.run (c : Call) (g : Generator) : GenResult :=
  match c with
  | .Begin => g.Begin
  | .End => g.End
  | .StartObject => g.StartObject
  | .EndObject => g.EndObject
  | .StartArray => g.StartArray
  | .EndArray => g.EndArray
  | .Key key => g.Key key
  | .NullValue => g.NullValue
  | .BoolValue value => g.BoolValue value
  | .IntValue value => g.IntValue value
  | .UintValue value => g.UintValue value
  | .BigIntValue value => g.BigIntValue value
  | .NaNValue => g.NaNValue
  | .InfValue isNeg => g.InfValue isNeg
  | .FloatValue value => g.FloatValue value
  | .BigFloatValue value => g.BigFloatValue value
  | .StringValue value => g.StringValue value
  | .BytesValue value => g.BytesValue value
  | .ByteValue value => g.ByteValue value
  | .RuneValue value => g.RuneValue value

/-- The states in which a value may start: the set of `ExpectValue`. -/
def valueStates : List State :=
  [State.Root, State.ObjectFirstValue, State.ObjectNextValue, State.ArrayFirstValue, State.ArrayNextValue]

/-- The legal set of each call, as the specification gives it: `Key` and `EndObject`
need a key state, `EndArray` an array state, `End` the state `End`, `Begin` the state
`Root`, and `StartObject`, `StartArray` and every scalar call a value state. -/
def Call.legal (c : Call) : List State :=
  match c with
  | .Begin => [State.Root]
  | .End => [State.End]
  | .Key _ => [State.ObjectFirstKey, State.ObjectNextKey]
  | .EndObject => [State.ObjectFirstKey, State.ObjectNextKey]
  | .EndArray => [State.ArrayFirstValue, State.ArrayNextValue]
  | _ => valueStates

/-- The generator states reachable from `Reset` by calls that return. -/
inductive Reachable (json : JSON) : Generator → Prop where
  | fresh : Reachable json json.NewGenerator
  | reset (g : Generator) : Reachable json g → Reachable json g.Reset
  | step (g : Generator) (c : Call) (g1 : Generator) (list : List Appender) :
      Reachable json g → c.run g = .ret g1 list → Reachable json g1

/-- One structural or scalar call on an `Emitter`, with its arguments. -/
inductive EmitterCall where
  | StartObject
  | EndObject
  | StartArray
  | EndArray
  | EmitKey (key : List Nat)
  | EmitNull
  | EmitBool (value : Bool)
  | EmitInt64 (value : Int)
  | EmitUint64 (value : Nat)
  | EmitBigInt (value : Option Int)
  | EmitFloat32 (value : Float32)
  | EmitFloat64 (value : Float64)
  | EmitBigFloat (value : Option BigFloat)
  | EmitString (value : List Nat)
  | EmitBytes (value : List Nat)
  | EmitByte (value : Nat)
  | EmitRune (value : Int)

/-- Performing a call on an emitter. -/
def EmitterCall.run (c : EmitterCall) (e : Emitter) : Result Emitter Unit :=
  match c with
  | .StartObject => e.StartObject
  | .EndObject => e.EndObject
  | .StartArray => e.StartArray
  | .EndArray => e.EndArray
  | .EmitKey key => e.EmitKey key
  | .EmitNull => e.EmitNull
  | .EmitBool value => e.EmitBool value
  | .EmitInt64 value => e.EmitInt64 value
  | .EmitUint64 value => e.EmitUint64 value
  | .EmitBigInt value => e.EmitBigInt value
  | .EmitFloat32 value => e.EmitFloat32 value
  | .EmitFloat64 value => e.EmitFloat64 value
  | .EmitBigFloat value => e.EmitBigFloat value
  | .EmitString value => e.EmitString value
  | .EmitBytes value => e.EmitBytes value
  | .EmitByte value => e.EmitByte value
  | .EmitRune value => e.EmitRune value

/-- The generator call that an emitter call delegates to. -/
def EmitterCall.generatorCall (c : EmitterCall) : Call :=
  match c with
  | .StartObject => .StartObject
  | .EndObject => .EndObject
  | .StartArray => .StartArray
  | .EndArray => .EndArray
  | .EmitKey key => .Key key
  | .EmitNull => .NullValue
  | .EmitBool value => .BoolValue value
  | .EmitInt64 value => .IntValue value
  | .EmitUint64 value => .UintValue value
  | .EmitBigInt value => .BigIntValue value
  | .EmitFloat32 value =>
    if value.toFloat64.isNaN then .NaNValue
    else if value.toFloat64.isInf then .InfValue value.toFloat64.isNeg
    else .FloatValue value.toFloat64
  | .EmitFloat64 value =>
    if value.isNaN then .NaNValue
    else if value.isInf then .InfValue value.isNeg
    else .FloatValue value
  | .EmitBigFloat value => .BigFloatValue value
  | .EmitString value => .StringValue value
  | .EmitBytes value => .BytesValue value
  | .EmitByte value => .ByteValue value
  | .EmitRune value => .RuneValue value

/-- The states a generator is in while inside a container. -/
def containerStates : List State :=
  [State.ObjectFirstKey, State.ObjectNextKey, State.ObjectFirstValue, State.ObjectNextValue,
    State.ArrayFirstValue, State.ArrayNextValue]

/-- The value states other than `Root`. -/
def innerValueStates : List State :=
  [State.ObjectFirstValue, State.ObjectNextValue, State.ArrayFirstValue, State.ArrayNextValue]

/-- Invariant of the state machine: outside every container the stack is empty and
the state is `Root`, `End` or the closed state; inside a container the bottom of the
stack is `Root`, the entries above it are value states of enclosing containers and
the current state is a container state. -/
def Machine.WellNested (sm : Machine) : Prop :=
  (sm.Stack = [] ∧ sm.State ∈ [State.Root, State.End, State.allOnes]) ∨
  (∃ rest, sm.Stack = State.Root :: rest ∧ (∀ s ∈ rest, s ∈ innerValueStates) ∧
    sm.State ∈ containerStates)

/-! ## The serialization the specification describes -/

/-- Text of a scalar node: the bytes its fragment appends. For a node that is not
a scalar the text is empty. -/
def Value.scalarText (json : JSON) : Value → List Nat
  | .Null => ascii "null"
  | .Bool v => if v then ascii "true" else ascii "false"
  | .Int v => decimalInt v
  | .Uint v => decimal v
  | .BigIntValue none => ascii "null"
  | .BigIntValue (some x) => decimalInt x
  | .Float v =>
    if v.isNaN then ascii "\"NaN\""
    else if v.isInf then (if v.isNeg then ascii "\"-Inf\"" else ascii "\"+Inf\"")
    else v.text
  | .BigFloatValue none => ascii "null"
  | .BigFloatValue (some x) => x.Append 0x67 (-1)
  | .String v => StringAppender.Append { Value := v, EscapeHTML := json.EscapeHTML } []
  | .Bytes v => BytesAppender.Append { Value := v } []
  | .Byte v => StringAppender.Append { Value := runeToString (v : ℤ), EscapeHTML := json.EscapeHTML } []
  | .Rune v => StringAppender.Append { Value := runeToString v, EscapeHTML := json.EscapeHTML } []
  | .Array _ => []
  | .Object _ => []

mutual
/-- The serialization `ser` of the specification, with `sep` between the elements
or entries of a container and `colon` between a key and its value: an array is an
opening bracket, the serializations of its items joined by `sep`, and a closing
bracket; an object is an opening brace, its entries joined by `sep`, and a closing
brace, each entry being the quoted key, `colon` and the serialization of the value;
a scalar is its scalar text. -/
def Value.ser (json : JSON) (sep colon : List Nat) : Value → List Nat
  | .Array items => [0x5B] ++ Value.serItems json sep colon items ++ [0x5D]
  | .Object fields => [0x7B] ++ Value.serFields json sep colon fields ++ [0x7D]
  | .Null => Value.scalarText json .Null
  | .Bool v => Value.scalarText json (.Bool v)
  | .Int v => Value.scalarText json (.Int v)
  | .Uint v => Value.scalarText json (.Uint v)
  | .BigIntValue v => Value.scalarText json (.BigIntValue v)
  | .Float v => Value.scalarText json (.Float v)
  | .BigFloatValue v => Value.scalarText json (.BigFloatValue v)
  | .String v => Value.scalarText json (.String v)
  | .Bytes v => Value.scalarText json (.Bytes v)
  | .Byte v => Value.scalarText json (.Byte v)
  | .Rune v => Value.scalarText json (.Rune v)
/-- The items of an array joined by `sep`. -/
def Value.serItems (json : JSON) (sep colon : List Nat) : List Value → List Nat
  | [] => []
  | item :: rest =>
    Value.ser json sep colon item ++ (if rest.isEmpty then [] else sep) ++
      Value.serItems json sep colon rest
/-- The entries of an object joined by `sep`. -/
def Value.serFields (json : JSON) (sep colon : List Nat) : List (List Nat × Value) → List Nat
  | [] => []
  | (key, value) :: rest =>
    StringAppender.Append { Value := key, EscapeHTML := json.EscapeHTML } [] ++ colon ++
      Value.ser json sep colon value ++ (if rest.isEmpty then [] else sep) ++
      Value.serFields json sep colon rest
end

/-- The Compact serialization of the specification: `,` and `:` and nothing else. -/
def Value.serCompact (json : JSON) (v : Value) : List Nat := Value.ser json [0x2C] [0x3A] v

/-- The OneLine serialization of the specification: the Compact one with a space
after every separating comma and after every colon, and a final line feed. -/
def Value.serOneLine (json : JSON) (v : Value) : List Nat :=
  Value.ser json [0x2C, 0x20] [0x3A, 0x20] v ++ [0x0A]

/-- The indentation of the specification at depth `d`: `d * s` copies of the indent
unit, a tab or a space, where `s` is the indent size, or its default (1 for tabs, 2
for spaces) when the size is 0. -/
def indentText (json : JSON) (d : Nat) : List Nat :=
  List.replicate (d * (if json.IndentSize = 0 then (if json.IndentWithTabs then 1 else 2) else json.IndentSize))
    (if json.IndentWithTabs then 0x09 else 0x20)

mutual
/-- The MultiLine layout of the specification for a value whose container, if any,
is opened at depth `d`: every element or entry on a line of its own at depth `d`,
the closing delimiter of a non-empty container on a line of its own at depth `d - 1`,
an empty container as its two delimiters. -/
def Value.serMultiLine (json : JSON) : Value → Nat → List Nat
  | .Array items, d =>
    if items.isEmpty then [0x5B, 0x5D]
    else [0x5B] ++ serMultiLineItems json items d true ++ [0x0A] ++ indentText json (d - 1) ++ [0x5D]
  | .Object fields, d =>
    if fields.isEmpty then [0x7B, 0x7D]
    else [0x7B] ++ serMultiLineFields json fields d true ++ [0x0A] ++ indentText json (d - 1) ++ [0x7D]
  | .Null, _ => Value.scalarText json .Null
  | .Bool v, _ => Value.scalarText json (.Bool v)
  | .Int v, _ => Value.scalarText json (.Int v)
  | .Uint v, _ => Value.scalarText json (.Uint v)
  | .BigIntValue v, _ => Value.scalarText json (.BigIntValue v)
  | .Float v, _ => Value.scalarText json (.Float v)
  | .BigFloatValue v, _ => Value.scalarText json (.BigFloatValue v)
  | .String v, _ => Value.scalarText json (.String v)
  | .Bytes v, _ => Value.scalarText json (.Bytes v)
  | .Byte v, _ => Value.scalarText json (.Byte v)
  | .Rune v, _ => Value.scalarText json (.Rune v)
/-- The elements of an array at depth `d`, the first one without a comma. -/
def serMultiLineItems (json : JSON) : List Value → Nat → Bool → List Nat
  | [], _, _ => []
  | item :: rest, d, first =>
    (if first then [] else [0x2C]) ++ [0x0A] ++ indentText json d ++
      Value.serMultiLine json item (d + 1) ++ serMultiLineItems json rest d false
/-- The entries of an object at depth `d`, the first one without a comma. -/
def serMultiLineFields (json : JSON) : List (List Nat × Value) → Nat → Bool → List Nat
  | [], _, _ => []
  | (key, value) :: rest, d, first =>
    (if first then [] else [0x2C]) ++ [0x0A] ++ indentText json d ++
      StringAppender.Append { Value := key, EscapeHTML := json.EscapeHTML } [] ++ [0x3A, 0x20] ++
      Value.serMultiLine json value (d + 1) ++ serMultiLineFields json rest d false
end

/-- The MultiLine document of the specification: the layout of the root value, whose
elements are at depth 1, and a final line feed. -/
def Value.serMultiLineDocument (json : JSON) (v : Value) : List Nat :=
  Value.serMultiLine json v 1 ++ [0x0A]

/-- The value `kFancyValue` of `json_test.go`. -/
def kFancyValue : Value :=
  .Object [
    (ascii "@type", .String (ascii "Foo")),
    (ascii "emptyList", .Array []),
    (ascii "emptyObject", .Object []),
    (ascii "array", .Array [.Rune 0x61, .Rune 0x62, .Rune 0x63]),
    (ascii "object", .Object [(ascii "a", .Int 1), (ascii "b", .Int 2), (ascii "c", .Int 3)])]

/-! ## The escape map the specification describes -/

/-- The text `\u00XX` for a code point below 256, with two lowercase hex digits. -/
def escapeU00 (r : Int) : List Nat :=
  [0x5C, 0x75, 0x30, 0x30, hexDigit (r.toNat / 16 % 16), hexDigit (r.toNat % 16)]

/-- The fixed map of the specification on one code point: the double quote and the
backslash get a backslash in front, U+0008, U+0009, U+000A, U+000C and U+000D get
the short escapes, every other code point of U+0000..U+001F and every code point of
U+007F..U+009F becomes `\u00XX`, and every other code point is its own UTF-8
encoding. -/
def escapeImage (r : Int) : List Nat :=
  if r = 0x22 then [0x5C, 0x22]
  else if r = 0x5C then [0x5C, 0x5C]
  else if r = 0x08 then [0x5C, 0x62]
  else if r = 0x09 then [0x5C, 0x74]
  else if r = 0x0A then [0x5C, 0x6E]
  else if r = 0x0C then [0x5C, 0x66]
  else if r = 0x0D then [0x5C, 0x72]
  else if (0 ≤ r ∧ r ≤ 0x1F) ∨ (0x7F ≤ r ∧ r ≤ 0x9F) then escapeU00 r
  else runeToString r

/-- The map with the HTML flag taken into account: when the flag is set, the
ampersand and the two angle brackets become their `\u00XX` escapes; everything else
is as in the fixed map. -/
def escapeImageHTML (escapeHTML : Bool) (r : Int) : List Nat :=
  if escapeHTML = true ∧ (r = 0x26 ∨ r = 0x3C ∨ r = 0x3E) then escapeU00 r
  else escapeImage r

/-- A control character: a code point of U+0000..U+001F or of U+007F..U+009F. -/
def isControl (r : Int) : Bool := (0 ≤ r && r ≤ 0x1F) || (0x7F ≤ r && r ≤ 0x9F)

/-- Scanning a text from the left, where a backslash escapes the byte that follows
it: the text contains a double quote that no backslash escapes. -/
def hasBareQuote : List Nat → Bool
  | [] => false
  | b :: rest =>
    if b = 0x5C then
      match rest with
      | [] => false
      | _ :: rest2 => hasBareQuote rest2
    else if b = 0x22 then true
    else hasBareQuote rest

/-- A text in which the scan of `hasBareQuote` finds nothing and ends outside an
escape: either no byte is a double quote or a backslash, or the text is a
backslash, one escaped byte, and then bytes that are neither. -/
def escapedShape (img : List Nat) : Bool :=
  match img with
  | [] => true
  | b :: rest =>
    if b = 0x5C then
      match rest with
      | [] => false
      | _ :: tail => tail.all (fun x => x != 0x22 && x != 0x5C)
    else (b :: rest).all (fun x => x != 0x22 && x != 0x5C)

/-- A code point that `range` over a string can yield: a Unicode scalar value. -/
def isScalarValue (r : Int) : Prop := 0 ≤ r ∧ r < 0x110000 ∧ ¬ (0xD800 ≤ r ∧ r < 0xE000)

/-- The shape of the result of emitting one value: the call returns, the stack is
as before and the state has advanced along `Next`. -/
def Value.Matched (e : Emitter) (r : Result Emitter Unit) : Prop :=
  ∃ e1 s1, r = .ret e1 () ∧ e.g.sm.State.Next = .ok s1 ∧ e1.g.sm.State = s1 ∧
    e1.g.sm.Stack = e.g.sm.Stack ∧ e1.g.json = e.g.json

/-! ## Decoders of the specification -/

/-- A valid UTF-8 string: the concatenation of the UTF-8 encodings of Unicode scalar
values. -/
def ValidUTF8 (s : List Nat) : Prop :=
  ∃ runes : List Int, (∀ r ∈ runes, isScalarValue r) ∧ s = runes.flatMap runeToString

/-- Value of one hexadecimal digit, in either case. -/
def hexVal (c : Nat) : Option Nat :=
  if 0x30 ≤ c ∧ c ≤ 0x39 then some (c - 0x30)
  else if 0x61 ≤ c ∧ c ≤ 0x66 then some (c - 0x61 + 10)
  else if 0x41 ≤ c ∧ c ≤ 0x46 then some (c - 0x41 + 10)
  else none

/-- The character that the two-character escape `\c` of a JSON string stands for
(RFC 8259, section 7). -/
def simpleEscape (c : Nat) : Option Nat :=
  if c = 0x22 then some 0x22
  else if c = 0x5C then some 0x5C
  else if c = 0x2F then some 0x2F
  else if c = 0x62 then some 0x08
  else if c = 0x66 then some 0x0C
  else if c = 0x6E then some 0x0A
  else if c = 0x72 then some 0x0D
  else if c = 0x74 then some 0x09
  else none

/-- Decoding the inside of a JSON string literal by the rules of RFC 8259: a
two-character escape gives its character, `\uXXXX` gives the UTF-8 encoding of the
code point XXXX, every other byte stands for itself; a bare double quote, a bare
control character and a malformed escape are rejected. An escape of a surrogate,
which this program never writes, is rejected as well instead of being paired. -/
def jsonUnescape : List Nat → Option (List Nat)
  | [] => some []
  | b :: rest =>
    if b = 0x5C then
      match rest with
      | [] => none
      | c :: rest1 =>
        if c = 0x75 then
          match rest1 with
          | h1 :: h2 :: h3 :: h4 :: rest2 =>
            match hexVal h1, hexVal h2, hexVal h3, hexVal h4 with
            | some d1, some d2, some d3, some d4 =>
              if 0xD800 ≤ d1 * 4096 + d2 * 256 + d3 * 16 + d4 ∧
                  d1 * 4096 + d2 * 256 + d3 * 16 + d4 < 0xE000 then none
              else
                (jsonUnescape rest2).map
                  (fun t => runeToString ((d1 * 4096 + d2 * 256 + d3 * 16 + d4 : Nat) : ℤ) ++ t)
            | _, _, _, _ => none
          | _ => none
        else
          match simpleEscape c with
          | some x => (jsonUnescape rest1).map (fun t => x :: t)
          | none => none
    else if b = 0x22 ∨ b < 0x20 then none
    else (jsonUnescape rest).map (fun t => b :: t)

/-- Decoding a JSON string literal: the enclosing double quotes are stripped and the
inside is decoded. -/
def jsonStringDecode (lit : List Nat) : Option (List Nat) :=
  match lit with
  | [] => none
  | q :: t =>
    if q = 0x22 ∧ t.getLast? = some 0x22 then jsonUnescape t.dropLast else none

/-- The eight bits of a byte, most significant first. -/
def byteBits (b : Nat) : List Nat :=
  [b / 128 % 2, b / 64 % 2, b / 32 % 2, b / 16 % 2, b / 8 % 2, b / 4 % 2, b / 2 % 2, b % 2]

/-- The number that a group of bits, most significant first, stands for. -/
def bitsValue (bits : List Nat) : Nat := bits.foldl (fun acc bit => 2 * acc + bit) 0

/-- A bit string cut into groups of six bits, the last group filled up with zero
bits, each group read as a number (RFC 4648, section 4). -/
def sextets : List Nat → List Nat
  | [] => []
  | b0 :: b1 :: b2 :: b3 :: b4 :: b5 :: rest => bitsValue [b0, b1, b2, b3, b4, b5] :: sextets rest
  | short => [bitsValue (short ++ List.replicate (6 - short.length) 0)]

/-- The standard padded base64 encoding of a byte string taken in one piece (RFC
4648, section 4): the bits of the bytes, cut into groups of six, each group written
as a character of the alphabet, and `=` added until the length is a multiple of
four. -/
def base64Text (v : List Nat) : List Nat :=
  (sextets (v.flatMap byteBits)).map base64Char ++
    List.replicate ((4 - ((sextets (v.flatMap byteBits)).map base64Char).length % 4) % 4) 0x3D

/-- The number that a character of the base64 alphabet stands for. -/
def base64Val (c : Nat) : Option Nat :=
  if 0x41 ≤ c ∧ c ≤ 0x5A then some (c - 0x41)
  else if 0x61 ≤ c ∧ c ≤ 0x7A then some (c - 0x61 + 26)
  else if 0x30 ≤ c ∧ c ≤ 0x39 then some (c - 0x30 + 52)
  else if c = 0x2B then some 62
  else if c = 0x2F then some 63
  else none

/-- Decoding a standard padded base64 text: four characters give three bytes, and
a last group that ends in `=` or `==` gives two bytes or one byte. -/
def base64Decode : List Nat → Option (List Nat)
  | [] => some []
  | c0 :: c1 :: c2 :: c3 :: rest =>
    match base64Val c0, base64Val c1 with
    | some s0, some s1 =>
      if c2 = 0x3D ∧ c3 = 0x3D ∧ rest = [] then some [s0 * 4 + s1 / 16]
      else
        match base64Val c2 with
        | some s2 =>
          if c3 = 0x3D ∧ rest = [] then some [s0 * 4 + s1 / 16, s1 % 16 * 16 + s2 / 4]
          else
            match base64Val c3 with
            | some s3 =>
              (base64Decode rest).map
                (fun t => [s0 * 4 + s1 / 16, s1 % 16 * 16 + s2 / 4, s2 % 4 * 64 + s3] ++ t)
            | none => none
        | none => none
    | _, _ => none
  | _ => none

/-! ## Sequences of emitter calls -/

/-- One public call on an emitter: a structural or scalar call, `Flush` or `Close`. -/
inductive EmitterOp where
  | call (c : EmitterCall)
  | Flush
  | Close

/-- The emitter after one public call, whether the call returned or panicked. -/
def EmitterOp.run (op : EmitterOp) (e : Emitter) : Emitter :=
  match op with
  | .call c => (c.run e).state
  | .Flush => e.Flush.1
  | .Close => e.Close.state

/-- The emitter after a sequence of public calls. -/
def runOps (ops : List EmitterOp) (e : Emitter) : Emitter :=
  ops.foldl (fun e op => op.run e) e

/-! ## Root package: dispatch on the dynamic type -/

/-- A `reflect.Value`: the zero Value, which holds nothing and on which `Type()`
panics, or a valid one, seen through the name of the type that `Type()` reports. -/
inductive ReflectValue where
  | zero
  | valid (typeName : List Nat)

/-- An argument of type `any`, by its dynamic type. A `*big.Int` or a `*big.Float`
may be a nil pointer. The last two constructors stand for a `reflect.Value`, the
zero Value included, and for a value of any other dynamic type, with the name of
that type. -/
inductive Any where
  | nil
  | value (x : Value)
  | bool (x : Bool)
  | int64 (x : Int)
  | int32 (x : Int)
  | int16 (x : Int)
  | int8 (x : Int)
  | int (x : Int)
  | uint64 (x : Nat)
  | uint32 (x : Nat)
  | uint16 (x : Nat)
  | uint8 (x : Nat)
  | uint (x : Nat)
  | bigInt (x : Option Int)
  | float64 (x : Float64)
  | float32 (x : Float32)
  | bigFloat (x : Option BigFloat)
  | string (x : List Nat)
  | bytes (x : List Nat)
  | reflectValue (x : ReflectValue)
  | other (typeName : List Nat)

/-- The kinds the specification lists as supported by `Emit`: nil, `Value`, bool,
the signed and unsigned integer widths, `*big.Int`, the two float widths,
`*big.Float`, string and `[]byte`. -/
def Any.supported : Any → Bool
  | .reflectValue _ => false
  | .other _ => false
  | _ => true

namespace Emitter

/-- The conversion `int64(value)` of a narrower signed integer keeps the number. -/
def EmitInt (e : Emitter) (value : Int) : Result Emitter Unit := e.EmitInt64 value

def EmitInt8 (e : Emitter) (value : Int) : Result Emitter Unit := e.EmitInt64 value

def EmitInt16 (e : Emitter) (value : Int) : Result Emitter Unit := e.EmitInt64 value

def EmitInt32 (e : Emitter) (value : Int) : Result Emitter Unit := e.EmitInt64 value

/-- The conversion `uint64(value)` of a narrower unsigned integer keeps the number. -/
def EmitUint (e : Emitter) (value : Nat) : Result Emitter Unit := e.EmitUint64 value

def EmitUint8 (e : Emitter) (value : Nat) : Result Emitter Unit := e.EmitUint64 value

def EmitUint16 (e : Emitter) (value : Nat) : Result Emitter Unit := e.EmitUint64 value

def EmitUint32 (e : Emitter) (value : Nat) : Result Emitter Unit := e.EmitUint64 value

def EmitValue (e : Emitter) (value : Value) : Result Emitter Unit := value.EmitTo e

/-- The method `Emitter.EmitReflected`: its whole body is a panic whose argument
is built from `value.Type()`. On the zero Value that call panics first, with the
error of the `reflect` package; otherwise the panic carries the not-implemented
error. -/
def EmitReflected (e : Emitter) (value : ReflectValue) : Result Emitter Unit :=
  match value with
  | .zero => .panic e .reflectValueError
  | .valid _ => .panic e .notImplemented

/-- The method `Emitter.Emit`: a type switch over the dynamic type. -/
def Emit (e : Emitter) (value : Any) : Result Emitter Unit :=
  match value with
  | .nil => e.EmitNull
  | .value x => e.EmitValue x
  | .bool x => e.EmitBool x
  | .int64 x => e.EmitInt64 x
  | .int32 x => e.EmitInt32 x
  | .int16 x => e.EmitInt16 x
  | .int8 x => e.EmitInt8 x
  | .int x => e.EmitInt x
  | .uint64 x => e.EmitUint64 x
  | .uint32 x => e.EmitUint32 x
  | .uint16 x => e.EmitUint16 x
  | .uint8 x => e.EmitUint8 x
  | .uint x => e.EmitUint x
  | .bigInt x => e.EmitBigInt x
  | .float64 x => e.EmitFloat64 x
  | .float32 x => e.EmitFloat32 x
  | .bigFloat x => e.EmitBigFloat x
  | .string x => e.EmitString x
  | .bytes x => e.EmitBytes x
  | .reflectValue x => e.EmitReflected x
  | .other typeName => e.EmitReflected (.valid typeName)

/-- One document on a reused emitter: `Reset` with the given sink and generator,
the value emitted, the emitter closed. The result is the emitter after `Close`, or
`none` after a panic. -/
def resetAndEmit (e : Emitter) (w : Writer) (g : Generator) (v : Value) : Option Emitter :=
  match e.Reset (some w) (some g) with
  | .panic _ _ => none
  | .ret e _ =>
    match v.EmitTo e with
    | .panic _ _ => none
    | .ret e _ =>
      match e.Close with
      | .panic _ _ => none
      | .ret e _ => some e

end Emitter

/-- A sink whose every `Write` accepts nothing and fails with the given error. -/
def Writer.broken (err : IOError) : Writer :=
  { received := [], respond := fun _ _ => (0, some err) }

/-! ## Sequences of builder calls -/

/-- One call on a `Builder` other than `Build`, with its arguments; `none` is a nil
`Appender`. -/
inductive BuilderOp where
  | Add (a : Option Appender)
  | AddBytes (buf : List Nat)
  | AddString (str : List Nat)
  | AddByte (ch : Nat)
  | AddRune (ch : Int)
  | Indent (tab : Bool) (size : Nat) (count : Nat)

/-- The builder after one call. -/
def BuilderOp.run (op : BuilderOp) (b : Builder) : Builder :=
  match op with
  | .Add a => b.Add a
  | .AddBytes buf => b.AddBytes buf
  | .AddString str => b.AddString str
  | .AddByte ch => b.AddByte ch
  | .AddRune ch => b.AddRune ch
  | .Indent tab size count => b.Indent tab size count

/-- The builder after a sequence of calls. -/
def Builder.runOps (ops : List BuilderOp) (b : Builder) : Builder :=
  ops.foldl (fun b op => op.run b) b

/-- A literal fragment: a `LiteralBytes` or a `LiteralString`. -/
def Appender.isLiteral : Appender → Bool
  | .LiteralBytes _ => true
  | .LiteralString _ => true
  | _ => false

/-- A literal fragment of no bytes. -/
def Appender.isEmptyLiteral : Appender → Bool
  | .LiteralBytes x => x.isEmpty
  | .LiteralString x => x.isEmpty
  | _ => false

/-- The call adds a fragment that is neither nil nor a literal. -/
def BuilderOp.isTyped : BuilderOp → Bool
  | .Add (some a) => !a.isLiteral
  | _ => false

/-- The number of non-literal, non-nil fragments a sequence of calls adds. -/
def typedCount (ops : List BuilderOp) : Nat := (ops.filter BuilderOp.isTyped).length

/-- No two neighbours of the list are both literal fragments. -/
def noAdjacentLiterals : List Appender → Bool
  | a :: b :: rest => !(a.isLiteral && b.isLiteral) && noAdjacentLiterals (b :: rest)
  | _ => true

/-- The last fragment of the list is a literal. -/
def lastIsLiteral (l : List Appender) : Bool :=
  match l.getLast? with
  | some a => a.isLiteral
  | none => false

/-! ## Package `json`: names of the formats -/

def Format.formatSize : Nat := 3

def Format.formatNames : List (List Nat) :=
  [ascii "compact", ascii "oneLine", ascii "multiLine"]

def Format.IsValid (f : Format) : Bool := f.val < Format.formatSize

/-- The method `Format.String`: the name of a valid format, and for any other value
the text of `fmt.Sprintf("%%!ERR[invalid json.Format %d]", uint(f))`. -/
def Format.String (f : Format) : List Nat :=
  if f.IsValid then Format.formatNames.getD f.val []
  else ascii "%!ERR[invalid json.Format " ++ decimal f.val ++ ascii "]"

/-- The error that `Format.Parse` builds with `fmt.Errorf`, with the input its
message quotes. -/
structure FormatError where
  input : List Nat
  deriving DecidableEq, Repr

/-- The method `Format.MarshalText`: the text and a nil error. -/
def Format.MarshalText (f : Format) : List Nat × Option FormatError := (f.String, none)

/-- The method `Format.Parse` on a pointer receiver: the receiver after the call,
which is `^Format(0)`, and the returned error. -/
def Format.Parse (_f : Format) (input : List Nat) : Format × Option FormatError :=
  (⟨0xFF⟩, some ⟨input⟩)

/-- The method `Format.UnmarshalText`; the conversion `string(input)` keeps the bytes. -/
def Format.UnmarshalText (f : Format) (input : List Nat) : Format × Option FormatError :=
  f.Parse input

/-! ## Bytes of a run, call by call -/

/-- The fragments that the generator returns to the emitter in one public call:
those of the delegated generator call, those of `End` for `Close`, and none for
`Flush` or when the generator call panics. -/
def EmitterOp.fragments (op : EmitterOp) (g : Generator) : List Appender :=
  match op with
  | .call c =>
    match c.generatorCall.run g with
    | .ret _ list => list
    | .panic _ _ => []
  | .Flush => []
  | .Close =>
    match g.End with
    | .ret _ list => list
    | .panic _ _ => []

/-- The bytes of every fragment that the generator returns during a sequence of
public calls, in call order. -/
def generatedBytes : List EmitterOp → Emitter → List Nat
  | [], _ => []
  | op :: rest, e => appendAll (op.fragments e.g) [] ++ generatedBytes rest (op.run e)

/-- The bytes one builder call contributes: the output of a fragment's own `Append`
for `Add`, nothing for a nil fragment, the argument for the raw additions, the
conversion `string(ch)` for `AddRune`, and for `Indent` the units of the loop, their
number being the `uint` product of count and size. -/
def BuilderOp.bytes : BuilderOp → List Nat
  | .Add none => []
  | .Add (some a) => a.Append []
  | .AddBytes buf => buf
  | .AddString str => str
  | .AddByte ch => [ch]
  | .AddRune ch => runeToString ch
  | .Indent tab size count =>
    List.replicate (count * (if size = 0 then (if tab then 1 else 2) else size) % 2 ^ 64)
      (if tab then 0x09 else 0x20)

/-- The bytes begin with the UTF-8 encoding of a Unicode scalar value. -/
def BeginsEncoding (s : List Nat) : Prop :=
  ∃ (r : Int) (rest : List Nat), isScalarValue r ∧ s = runeToString r ++ rest

end GoEmitter

/-! # Theorems -/

namespace GoEmitter

/-- C1: `State.Next` follows the fixed table. Root goes to End, ObjectFirstKey to
ObjectFirstValue, ObjectNextKey to ObjectNextValue, both object value states to
ObjectNextKey, both array states to ArrayNextValue, and `Next` panics (with the
unexpected-state error) exactly on the remaining states: on End and on every byte
value from 8 upwards. -/
theorem State.next_table :
    State.Root.Next = .ok State.End ∧
    State.ObjectFirstKey.Next = .ok State.ObjectFirstValue ∧
    State.ObjectNextKey.Next = .ok State.ObjectNextValue ∧
    State.ObjectFirstValue.Next = .ok State.ObjectNextKey ∧
    State.ObjectNextValue.Next = .ok State.ObjectNextKey ∧
    State.ArrayFirstValue.Next = .ok State.ArrayNextValue ∧
    State.ArrayNextValue.Next = .ok State.ArrayNextValue ∧
    ∀ s : State, s.Next = .error (.unexpectedState s.val) ↔ (s = State.End ∨ 8 ≤ s.val) := by
  refine ⟨rfl, rfl, rfl, rfl, rfl, rfl, rfl, ?_⟩
  rintro ⟨n⟩
  simp only [State.Next, State.Root, State.ObjectFirstKey, State.ObjectNextKey,
    State.ObjectFirstValue, State.ObjectNextValue, State.ArrayFirstValue, State.ArrayNextValue,
    State.End, State.Unexpected, State.mk.injEq]
  constructor
  · intro h
    by_contra hc
    have hn : n < 7 := by omega
    interval_cases n <;> simp at h
  · intro h
    have h0 : n ≠ 0 := by omega
    have h1 : n ≠ 1 := by omega
    have h2 : n ≠ 2 := by omega
    have h3 : n ≠ 3 := by omega
    have h4 : n ≠ 4 := by omega
    have h5 : n ≠ 5 := by omega
    have h6 : n ≠ 6 := by omega
    simp [h0, h1, h2, h3, h4, h5, h6]


/-! ## The state machine -/

theorem State.in_iff (s : State) (l : List State) : s.In l = true ↔ s ∈ l := by
  induction l with
  | nil => simp [State.In]
  | cons x rest ih =>
    by_cases h : s = x
    · simp [State.In, h]
    · simp [State.In, h, ih]

theorem State.expect_of_mem (s : State) (l : List State) (h : s ∈ l) : s.Expect l = .ok () := by
  have := (State.in_iff s l).2 h
  simp [State.Expect, this]

theorem State.expect_of_not_mem (s : State) (l : List State) (h : s ∉ l) :
    s.Expect l = .error (.unexpectedState s.val) := by
  have : s.In l = false := by
    cases hb : s.In l with
    | false => rfl
    | true => exact absurd ((State.in_iff s l).1 hb) h
  simp [State.Expect, this, State.Unexpected]

theorem Machine.pop_concat (l : List GoEmitter.State) (x s : GoEmitter.State) :
    Machine.Pop { Stack := l ++ [x], State := s } = .ok { Stack := l, State := x } := by
  simp [Machine.Pop, List.getD_eq_getElem?_getD]

theorem Machine.pop_nil (s : GoEmitter.State) :
    Machine.Pop { Stack := [], State := s } = .error .stackIsEmpty := by
  simp [Machine.Pop]

/-! ## Calls outside their legal set -/

theorem Generator.value_illegal (g : Generator) (a : Appender) (h : g.sm.State ∉ valueStates) :
    g.value a = .panic g (.unexpectedState g.sm.State.val) := by
  have := State.expect_of_not_mem _ _ h
  simp only [valueStates] at this
  simp [Generator.value, Machine.ExpectValue, Machine.Expect, this]

theorem Call.run_illegal (c : Call) (g : Generator) (h : g.sm.State ∉ c.legal) :
    c.run g = .panic g (.unexpectedState g.sm.State.val) := by
  cases c with
  | Begin =>
    have := State.expect_of_not_mem _ _ h
    simp only [Call.legal] at this
    simp [Call.run, Generator.Begin, Machine.ExpectRoot, Machine.Expect, this]
  | End =>
    have := State.expect_of_not_mem _ _ h
    simp only [Call.legal] at this
    simp [Call.run, Generator.End, Machine.ExpectEnd, Machine.Expect, this]
  | StartObject =>
    have := State.expect_of_not_mem _ _ h
    simp only [Call.legal, valueStates] at this
    simp [Call.run, Generator.StartObject, Machine.ExpectValue, Machine.Expect, this]
  | StartArray =>
    have := State.expect_of_not_mem _ _ h
    simp only [Call.legal, valueStates] at this
    simp [Call.run, Generator.StartArray, Machine.ExpectValue, Machine.Expect, this]
  | EndObject =>
    have := State.expect_of_not_mem _ _ h
    simp only [Call.legal] at this
    simp [Call.run, Generator.EndObject, Machine.ExpectKey, Machine.Expect, this]
  | EndArray =>
    have := State.expect_of_not_mem _ _ h
    simp only [Call.legal] at this
    simp [Call.run, Generator.EndArray, Machine.ExpectArray, Machine.Expect, this]
  | Key key =>
    have := State.expect_of_not_mem _ _ h
    simp only [Call.legal] at this
    simp [Call.run, Generator.Key, Machine.ExpectKey, Machine.Expect, this]
  | BoolValue value =>
    cases value <;> exact Generator.value_illegal g _ h
  | InfValue isNeg =>
    cases isNeg <;> exact Generator.value_illegal g _ h
  | BigIntValue value =>
    cases value <;> exact Generator.value_illegal g _ h
  | BigFloatValue value =>
    cases value <;> exact Generator.value_illegal g _ h
  | _ => exact Generator.value_illegal g _ h

/-- C2: a call made while the current state is outside the call's legal set panics
with the unexpected-state error and leaves the generator as it was. This holds for
every generator state and every call: `Key` and `EndObject` outside the key states,
`StartObject`, `StartArray` and the scalar calls outside the value states, `EndArray`
outside the array states, `End` outside `End`, `Begin` outside `Root`. In particular
`EndArray` in any object state panics and `Key` in any value state panics. -/
theorem Generator.illegal_call_aborts (g : Generator) :
    (∀ c : Call, g.sm.State ∉ c.legal →
      (c.run g).aborts = true ∧ c.run g = .panic g (.unexpectedState g.sm.State.val)) ∧
    (g.sm.State ∈ [State.ObjectFirstKey, State.ObjectNextKey, State.ObjectFirstValue,
        State.ObjectNextValue] → g.EndArray.aborts = true) ∧
    (g.sm.State ∈ valueStates → ∀ key, (g.Key key).aborts = true) := by
  refine ⟨?_, ?_, ?_⟩
  · intro c h
    have := Call.run_illegal c g h
    exact ⟨by rw [this]; rfl, this⟩
  · intro h
    have hn : g.sm.State ∉ Call.EndArray.legal := by
      intro hc
      simp only [Call.legal, List.mem_cons, List.mem_singleton, List.not_mem_nil, or_false] at hc h
      rcases h with h | h | h | h <;> rcases hc with hc | hc <;> rw [h] at hc <;> exact absurd hc (by decide)
    have := Call.run_illegal .EndArray g hn
    simp only [Call.run] at this
    rw [this]; rfl
  · intro h key
    have hn : g.sm.State ∉ (Call.Key key).legal := by
      intro hc
      simp only [Call.legal, valueStates, List.mem_cons, List.mem_singleton, List.not_mem_nil,
        or_false] at hc h
      rcases h with h | h | h | h | h <;> rcases hc with hc | hc <;> rw [h] at hc <;>
        exact absurd hc (by decide)
    have := Call.run_illegal (.Key key) g hn
    simp only [Call.run] at this
    rw [this]; rfl

/-- Witness of C2: in state `ObjectFirstKey`, the call `EndArray` is outside its
legal set and panics. -/
theorem Generator.illegal_call_aborts_witness :
    (Call.EndArray.run { json := {}, sm := { Stack := [State.Root], State := State.ObjectFirstKey } }).aborts
      = true :=
  ((Generator.illegal_call_aborts
    { json := {}, sm := { Stack := [State.Root], State := State.ObjectFirstKey } }).1
    Call.EndArray (by decide)).1


/-! ## Calls inside their legal set -/

theorem State.next_of_inner (s : State) (h : s ∈ innerValueStates) :
    ∃ s1, s.Next = .ok s1 ∧ s1 ∈ containerStates := by
  simp only [innerValueStates, List.mem_cons, List.mem_singleton, List.not_mem_nil, or_false] at h
  rcases h with rfl | rfl | rfl | rfl <;> exact ⟨_, rfl, by decide⟩

theorem State.next_of_value (s : State) (h : s ∈ valueStates) : ∃ s1, s.Next = .ok s1 := by
  simp only [valueStates, List.mem_cons, List.mem_singleton, List.not_mem_nil, or_false] at h
  rcases h with rfl | rfl | rfl | rfl | rfl <;> exact ⟨_, rfl⟩

theorem State.next_of_key (s : State) (h : s ∈ [State.ObjectFirstKey, State.ObjectNextKey]) :
    ∃ s1, s.Next = .ok s1 ∧ s1 ∈ innerValueStates := by
  simp only [List.mem_cons, List.mem_singleton, List.not_mem_nil, or_false] at h
  rcases h with rfl | rfl <;> exact ⟨_, rfl, by decide⟩

theorem State.value_cases (s : State) (h : s ∈ valueStates) :
    s = State.Root ∨ s ∈ innerValueStates := by
  simp only [valueStates, innerValueStates, List.mem_cons, List.mem_singleton, List.not_mem_nil,
    or_false] at h ⊢
  exact h

theorem Generator.value_legal (g : Generator) (a : Appender) (s1 : State)
    (h : g.sm.State ∈ valueStates) (hn : g.sm.State.Next = .ok s1) :
    ∃ list, g.value a = .ret { g with sm := { g.sm with State := s1 } } list := by
  have he := State.expect_of_mem _ _ h
  simp only [valueStates] at he
  simp only [Generator.value, Machine.ExpectValue, Machine.Expect, he, Machine.Next, hn]
  exact ⟨_, rfl⟩

theorem Generator.key_legal (g : Generator) (key : List Nat) (s1 : State)
    (h : g.sm.State ∈ [State.ObjectFirstKey, State.ObjectNextKey])
    (hn : g.sm.State.Next = .ok s1) :
    ∃ list, g.Key key = .ret { g with sm := { g.sm with State := s1 } } list := by
  have he := State.expect_of_mem _ _ h
  simp only [Generator.Key, Machine.ExpectKey, Machine.Expect, he, Machine.Next, hn]
  exact ⟨_, rfl⟩

theorem Generator.startObject_legal (g : Generator) (h : g.sm.State ∈ valueStates) :
    g.StartObject = .ret { g with sm := g.sm.Push State.ObjectFirstKey }
      [Appender.LiteralString [0x7B]] := by
  have he := State.expect_of_mem _ _ h
  simp only [valueStates] at he
  simp only [Generator.StartObject, Machine.ExpectValue, Machine.Expect, he]
  rfl

theorem Generator.startArray_legal (g : Generator) (h : g.sm.State ∈ valueStates) :
    g.StartArray = .ret { g with sm := g.sm.Push State.ArrayFirstValue }
      [Appender.LiteralString [0x5B]] := by
  have he := State.expect_of_mem _ _ h
  simp only [valueStates] at he
  simp only [Generator.StartArray, Machine.ExpectValue, Machine.Expect, he]
  rfl

theorem Generator.endObject_legal (g : Generator) (l : List State) (x x1 : State)
    (h : g.sm.State ∈ [State.ObjectFirstKey, State.ObjectNextKey])
    (hs : g.sm.Stack = l ++ [x]) (hn : x.Next = .ok x1) :
    ∃ list, g.EndObject = .ret { g with sm := { Stack := l, State := x1 } } list := by
  have he := State.expect_of_mem _ _ h
  obtain ⟨json, ⟨stack, st⟩⟩ := g
  simp only at hs h he
  subst hs
  simp only [Generator.EndObject, Machine.ExpectKey, Machine.Expect, he, Machine.pop_concat,
    Machine.Next, hn]
  exact ⟨_, rfl⟩

theorem Generator.endArray_legal (g : Generator) (l : List State) (x x1 : State)
    (h : g.sm.State ∈ [State.ArrayFirstValue, State.ArrayNextValue])
    (hs : g.sm.Stack = l ++ [x]) (hn : x.Next = .ok x1) :
    ∃ list, g.EndArray = .ret { g with sm := { Stack := l, State := x1 } } list := by
  have he := State.expect_of_mem _ _ h
  obtain ⟨json, ⟨stack, st⟩⟩ := g
  simp only at hs h he
  subst hs
  simp only [Generator.EndArray, Machine.ExpectArray, Machine.Expect, he, Machine.pop_concat,
    Machine.Next, hn]
  exact ⟨_, rfl⟩

theorem Generator.begin_legal (g : Generator) (h : g.sm.State ∈ [State.Root]) :
    g.Begin = .ret g [] := by
  have he := State.expect_of_mem _ _ h
  simp only [Generator.Begin, Machine.ExpectRoot, Machine.Expect, he]

theorem Generator.end_legal (g : Generator) (h : g.sm.State ∈ [State.End]) :
    ∃ list, g.End = .ret { g with sm := { g.sm with State := State.allOnes } } list := by
  have he := State.expect_of_mem _ _ h
  simp only [Generator.End, Machine.ExpectEnd, Machine.Expect, he]
  exact ⟨_, rfl⟩

/-- Inside a container the stack of a well nested machine is not empty, `Next`
accepts its top entry, and popping and advancing gives a well nested machine. -/
theorem Machine.wellNested_pop (sm : Machine) (hw : sm.WellNested)
    (hcs : sm.State ∈ containerStates) :
    ∃ l x x1, sm.Stack = l ++ [x] ∧ x.Next = .ok x1 ∧
      Machine.WellNested { Stack := l, State := x1 } := by
  rcases hw with ⟨_, hm⟩ | ⟨rest, hs, hr, _⟩
  · exfalso
    simp only [containerStates, List.mem_cons, List.mem_singleton, List.not_mem_nil, or_false] at hm hcs
    rcases hm with hm | hm | hm <;> rw [hm] at hcs <;> revert hcs <;> decide
  · rcases List.eq_nil_or_concat rest with hnil | ⟨r, x, hrx⟩
    · refine ⟨[], GoEmitter.State.Root, GoEmitter.State.End, by simp [hs, hnil], rfl, ?_⟩
      left
      exact ⟨rfl, (by decide : GoEmitter.State.End ∈
        [GoEmitter.State.Root, GoEmitter.State.End, GoEmitter.State.allOnes])⟩
    · have hx : x ∈ innerValueStates := hr x (by simp [hrx])
      obtain ⟨x1, hx1, hx1c⟩ := State.next_of_inner x hx
      refine ⟨GoEmitter.State.Root :: r, x, x1, by simp [hs, hrx], hx1, ?_⟩
      right
      exact ⟨r, rfl, fun s hsr => hr s (by simp [hrx, hsr]), hx1c⟩

/-- Every scalar call is `Generator.value` of some fragment. -/
theorem Call.scalar_is_value (c : Call) (g : Generator) (hc : c.legal = valueStates)
    (hso : c ≠ .StartObject) (hsa : c ≠ .StartArray) : ∃ a, c.run g = g.value a := by
  cases c with
  | Begin => exact absurd hc (by decide)
  | End => exact absurd hc (by decide)
  | StartObject => exact absurd rfl hso
  | StartArray => exact absurd rfl hsa
  | EndObject => exact absurd hc (by decide)
  | EndArray => exact absurd hc (by decide)
  | Key key => exact absurd hc (by simp [Call.legal, valueStates])
  | BoolValue value => cases value <;> exact ⟨_, rfl⟩
  | InfValue isNeg => cases isNeg <;> exact ⟨_, rfl⟩
  | BigIntValue value => cases value <;> exact ⟨_, rfl⟩
  | BigFloatValue value => cases value <;> exact ⟨_, rfl⟩
  | _ => exact ⟨_, rfl⟩

/-- What a call does to the state machine when it is made in its legal set on a
well nested machine: it returns, and the new machine is again well nested. -/
theorem Call.run_legal (c : Call) (g : Generator) (hw : g.sm.WellNested)
    (h : g.sm.State ∈ c.legal) :
    ∃ g1 list, c.run g = .ret g1 list ∧ g1.sm.WellNested ∧ g1.json = g.json := by
  -- the three shapes of call: advance, push, pop
  have advance : ∀ s1, g.sm.State.Next = .ok s1 →
      (g.sm.State = State.Root ∨ g.sm.State ∈ containerStates) →
      (g.sm.State = State.Root → s1 = State.End) → (g.sm.State ∈ containerStates → s1 ∈ containerStates) →
      Machine.WellNested { g.sm with State := s1 } := by
    intro s1 _ hcase hroot hcont
    rcases hw with ⟨hs, hm⟩ | ⟨rest, hs, hr, hm⟩
    · left
      refine ⟨hs, ?_⟩
      rcases hcase with h0 | h0
      · rw [hroot h0]
        exact (by decide : State.End ∈ [State.Root, State.End, State.allOnes])
      · exfalso
        simp only [containerStates, List.mem_cons, List.mem_singleton, List.not_mem_nil, or_false] at hm h0
        rcases hm with hm | hm | hm <;> rw [hm] at h0 <;> revert h0 <;> decide
    · right
      exact ⟨rest, hs, hr, hcont hm⟩
  have push : ∀ next, next ∈ containerStates → g.sm.State ∈ valueStates →
      Machine.WellNested (g.sm.Push next) := by
    intro next hnext hv
    right
    rcases hw with ⟨hs, hm⟩ | ⟨rest, hs, hr, hm⟩
    · refine ⟨[], ?_, by simp, hnext⟩
      rcases State.value_cases _ hv with h0 | h0
      · simp [Machine.Push, hs, h0]
      · exfalso
        simp only [innerValueStates, List.mem_cons, List.mem_singleton, List.not_mem_nil, or_false] at hm h0
        rcases hm with hm | hm | hm <;> rw [hm] at h0 <;> revert h0 <;> decide
    · refine ⟨rest ++ [g.sm.State], by simp [Machine.Push, hs], ?_, hnext⟩
      intro s hsm
      rcases List.mem_append.1 hsm with h1 | h1
      · exact hr s h1
      · rw [List.mem_singleton.1 h1]
        rcases State.value_cases _ hv with h0 | h0
        · exfalso
          rw [h0] at hm
          revert hm; decide
        · exact h0
  have pop : g.sm.State ∈ containerStates → g.sm.State ≠ State.ObjectFirstValue →
      g.sm.State ≠ State.ObjectNextValue →
      ∃ l x x1, g.sm.Stack = l ++ [x] ∧ x.Next = .ok x1 ∧
        Machine.WellNested { Stack := l, State := x1 } :=
    fun hcs _ _ => Machine.wellNested_pop g.sm hw hcs
  have keyStates_sub : ∀ s : State, s ∈ [State.ObjectFirstKey, State.ObjectNextKey] →
      s ∈ containerStates ∧ s ≠ State.Root ∧ s ≠ State.ObjectFirstValue ∧ s ≠ State.ObjectNextValue := by
    intro s hs
    simp only [List.mem_cons, List.mem_singleton, List.not_mem_nil, or_false] at hs
    rcases hs with rfl | rfl <;> decide
  have arrayStates_sub : ∀ s : State, s ∈ [State.ArrayFirstValue, State.ArrayNextValue] →
      s ∈ containerStates ∧ s ≠ State.Root ∧ s ≠ State.ObjectFirstValue ∧ s ≠ State.ObjectNextValue := by
    intro s hs
    simp only [List.mem_cons, List.mem_singleton, List.not_mem_nil, or_false] at hs
    rcases hs with rfl | rfl <;> decide
  have valueAdvance : ∀ a, g.sm.State ∈ valueStates →
      ∃ g1 list, g.value a = .ret g1 list ∧ g1.sm.WellNested ∧ g1.json = g.json := by
    intro a hv
    obtain ⟨s1, hs1⟩ := State.next_of_value _ hv
    obtain ⟨list, hl⟩ := Generator.value_legal g a s1 hv hs1
    refine ⟨_, list, hl, ?_, rfl⟩
    apply advance s1 hs1
    · rcases State.value_cases _ hv with h0 | h0
      · exact Or.inl h0
      · right
        simp only [innerValueStates, containerStates, List.mem_cons, List.mem_singleton,
          List.not_mem_nil, or_false] at h0 ⊢
        tauto
    · intro h0; rw [h0] at hs1; cases hs1; rfl
    · intro hcs
      simp only [valueStates, List.mem_cons, List.mem_singleton, List.not_mem_nil, or_false] at hv
      rcases hv with h0 | h0 | h0 | h0 | h0 <;> rw [h0] at hs1 hcs <;> cases hs1 <;>
        first | decide | (exfalso; revert hcs; decide)
  by_cases hso : c = .StartObject
  · subst hso
    exact ⟨_, _, Generator.startObject_legal g h, push _ (by decide) h, rfl⟩
  by_cases hsa : c = .StartArray
  · subst hsa
    exact ⟨_, _, Generator.startArray_legal g h, push _ (by decide) h, rfl⟩
  by_cases hcv : c.legal = valueStates
  · obtain ⟨a, ha⟩ := Call.scalar_is_value c g hcv hso hsa
    rw [hcv] at h
    rw [ha]
    exact valueAdvance a h
  cases c with
  | Begin =>
    exact ⟨g, [], Generator.begin_legal g h, hw, rfl⟩
  | End =>
    obtain ⟨list, hl⟩ := Generator.end_legal g h
    refine ⟨_, list, hl, ?_, rfl⟩
    rcases hw with ⟨hs, _⟩ | ⟨rest, _, _, hm⟩
    · left; exact ⟨hs, (by decide : State.allOnes ∈ [State.Root, State.End, State.allOnes])⟩
    · exfalso
      simp only [Call.legal, List.mem_singleton] at h
      rw [h] at hm
      revert hm; decide
  | EndObject =>
    obtain ⟨hc1, _, hc2, hc3⟩ := keyStates_sub _ h
    obtain ⟨l, x, x1, hs, hx, hwn⟩ := pop hc1 hc2 hc3
    obtain ⟨list, hl⟩ := Generator.endObject_legal g l x x1 h hs hx
    exact ⟨_, list, hl, hwn, rfl⟩
  | EndArray =>
    obtain ⟨hc1, _, hc2, hc3⟩ := arrayStates_sub _ h
    obtain ⟨l, x, x1, hs, hx, hwn⟩ := pop hc1 hc2 hc3
    obtain ⟨list, hl⟩ := Generator.endArray_legal g l x x1 h hs hx
    exact ⟨_, list, hl, hwn, rfl⟩
  | Key key =>
    obtain ⟨s1, hs1, hs1i⟩ := State.next_of_key _ h
    obtain ⟨list, hl⟩ := Generator.key_legal g key s1 h hs1
    refine ⟨_, list, hl, ?_, rfl⟩
    obtain ⟨hc1, hc0, _, _⟩ := keyStates_sub _ h
    apply advance s1 hs1 (Or.inr hc1)
    · intro h0; exact absurd h0 hc0
    · intro _
      simp only [innerValueStates, containerStates, List.mem_cons, List.mem_singleton,
        List.not_mem_nil, or_false] at hs1i ⊢
      tauto
  | _ => exact absurd rfl hcv


theorem Reachable.wellNested (json : JSON) (g : Generator) (h : Reachable json g) :
    g.sm.WellNested ∧ g.json = json := by
  induction h with
  | fresh =>
    refine ⟨Or.inl ⟨rfl, ?_⟩, rfl⟩
    exact (by decide : State.Root ∈ [State.Root, State.End, State.allOnes])
  | reset g _ ih =>
    refine ⟨Or.inl ⟨rfl, ?_⟩, ih.2⟩
    exact (by decide : State.Root ∈ [State.Root, State.End, State.allOnes])
  | step g c g1 list _ hrun ih =>
    by_cases hl : g.sm.State ∈ c.legal
    · obtain ⟨g2, list2, h2, hw2, hj2⟩ := Call.run_legal c g ih.1 hl
      rw [h2] at hrun
      cases hrun
      exact ⟨hw2, hj2.trans ih.2⟩
    · rw [Call.run_illegal c g hl] at hrun
      cases hrun

/-- C3: in every generator state reachable from `Reset` by calls that return, a
call panics if and only if the current state is outside its legal set, that is, if
and only if its Expect check fails. When the check of `EndObject` or `EndArray`
passes, the stack is not empty, `Pop` succeeds and the `Next` that follows returns
a state; when the check of `Key` or of a value call passes, `Next` returns a state. -/
theorem Reachable.aborts_iff_illegal (json : JSON) (g : Generator) (h : Reachable json g)
    (c : Call) :
    ((c.run g).aborts = true ↔ g.sm.State ∉ c.legal) ∧
    (g.sm.State ∈ [State.ObjectFirstKey, State.ObjectNextKey, State.ArrayFirstValue,
        State.ArrayNextValue] →
      g.sm.Stack ≠ [] ∧ ∃ sm sm1, g.sm.Pop = .ok sm ∧ sm.Next = .ok sm1) ∧
    (g.sm.State ∈ [State.ObjectFirstKey, State.ObjectNextKey] ∨ g.sm.State ∈ valueStates →
      ∃ sm1, g.sm.Next = .ok sm1) := by
  have hw := (Reachable.wellNested json g h).1
  refine ⟨⟨?_, ?_⟩, ?_, ?_⟩
  · intro ha hl
    obtain ⟨g1, list, h1, _, _⟩ := Call.run_legal c g hw hl
    rw [h1] at ha
    cases ha
  · intro hl
    rw [Call.run_illegal c g hl]
    rfl
  · intro hs
    have hcs : g.sm.State ∈ containerStates := by
      simp only [containerStates, List.mem_cons, List.mem_singleton, List.not_mem_nil,
        or_false] at hs ⊢
      tauto
    obtain ⟨l, x, x1, hst, hx, _⟩ := Machine.wellNested_pop g.sm hw hcs
    refine ⟨by simp [hst], { Stack := l, State := x }, { Stack := l, State := x1 }, ?_, ?_⟩
    · have := Machine.pop_concat l x g.sm.State
      rw [← hst] at this
      exact this
    · simp [Machine.Next, hx]
  · intro hs
    rcases hs with hs | hs
    · obtain ⟨s1, hs1, _⟩ := State.next_of_key _ hs
      exact ⟨_, by simp [Machine.Next, hs1]; rfl⟩
    · obtain ⟨s1, hs1⟩ := State.next_of_value _ hs
      exact ⟨_, by simp [Machine.Next, hs1]; rfl⟩

/-- Witness of C3: the generator after `Reset` and `StartObject` is reachable. -/
theorem Reachable.aborts_iff_illegal_witness :
    ((Call.EndObject.run { json := {}, sm := { Stack := [State.Root], State := State.ObjectFirstKey } }).aborts = true ↔
      State.ObjectFirstKey ∉ Call.EndObject.legal) :=
  (Reachable.aborts_iff_illegal {} { json := {}, sm := { Stack := [State.Root], State := State.ObjectFirstKey } }
    (Reachable.step _ Call.StartObject _ _ Reachable.fresh rfl) Call.EndObject).1


/-! ## The emitter delegates to the generator -/

theorem EmitterCall.run_eq (c : EmitterCall) (e : Emitter) :
    c.run e = e.applyCall c.generatorCall.run := by
  cases c with
  | EmitFloat32 value =>
    simp only [EmitterCall.run, Emitter.EmitFloat32, Emitter.EmitFloat64, EmitterCall.generatorCall]
    split
    · rfl
    · split <;> rfl
  | EmitFloat64 value =>
    simp only [EmitterCall.run, Emitter.EmitFloat64, EmitterCall.generatorCall]
    split
    · rfl
    · split <;> rfl
  | _ => rfl

theorem Emitter.apply_g (e : Emitter) (list : List Appender) : (e.apply list).g = e.g := by
  unfold Emitter.apply
  split
  · rfl
  · simp only
    split <;> rfl

/-- C4: a protocol violation is detected before the call has any effect. In a
reachable generator state, a generator call that panics leaves the generator (JSON
configuration, current state and stack) exactly as before and returns no fragment;
an emitter call that panics leaves the whole emitter as before, so nothing is
appended to the pending buffer and the sink receives nothing. -/
theorem Reachable.abort_has_no_effect (json : JSON) (e : Emitter) (h : Reachable json e.g) :
    (∀ (c : Call) (g1 : Generator) (p : PanicValue), c.run e.g = .panic g1 p →
      g1 = e.g ∧ (c.run e.g).value? = none) ∧
    (∀ (c : EmitterCall) (e1 : Emitter) (p : PanicValue), c.run e = .panic e1 p →
      e1 = e ∧ e1.out = e.out ∧ e1.w.received = e.w.received) := by
  have hw := (Reachable.wellNested json e.g h).1
  have gen : ∀ (c : Call) (g1 : Generator) (p : PanicValue), c.run e.g = .panic g1 p →
      g1 = e.g ∧ (c.run e.g).value? = none := by
    intro c g1 p hp
    by_cases hl : e.g.sm.State ∈ c.legal
    · obtain ⟨g2, list, h2, _, _⟩ := Call.run_legal c e.g hw hl
      rw [h2] at hp
      cases hp
    · have hi := Call.run_illegal c e.g hl
      rw [hi] at hp
      cases hp
      exact ⟨rfl, by rw [hi]; rfl⟩
  refine ⟨gen, ?_⟩
  intro c e1 p hp
  rw [EmitterCall.run_eq] at hp
  unfold Emitter.applyCall at hp
  cases hr : c.generatorCall.run e.g with
  | ret g1 list =>
    rw [hr] at hp
    cases hp
  | panic g1 p1 =>
    rw [hr] at hp
    have hg := (gen _ g1 p1 hr).1
    subst hg
    cases hp
    exact ⟨rfl, rfl, rfl⟩

/-- Witness of C4: `EndObject` on a fresh emitter whose buffer holds one byte. -/
theorem Reachable.abort_has_no_effect_witness :
    (Result.state (EmitterCall.EndObject.run
      { w := Writer.reliable, g := JSON.NewGenerator {}, out := [0x20], err := none, n := 0 })).out
      = [0x20] := by
  have h := (Reachable.abort_has_no_effect {}
    { w := Writer.reliable, g := JSON.NewGenerator {}, out := [0x20], err := none, n := 0 }
    Reachable.fresh).2 EmitterCall.EndObject
    { w := Writer.reliable, g := JSON.NewGenerator {}, out := [0x20], err := none, n := 0 }
    (.unexpectedState 0) rfl
  exact h.2.1


/-! ## Emitting a value tree -/

theorem Emitter.applyCall_ret (e : Emitter) (call : Generator → GenResult) (g1 : Generator)
    (list : List Appender) (h : call e.g = .ret g1 list) :
    e.applyCall call = .ret ({ e with g := g1 }.apply list) () ∧
      (({ e with g := g1 } : Emitter).apply list).g = g1 := by
  refine ⟨by simp [Emitter.applyCall, h], ?_⟩
  rw [Emitter.apply_g]

/-- A scalar call of the emitter made in a value state returns and advances the
state along `Next`, leaving stack and configuration alone. -/
theorem Emitter.scalar_call (e : Emitter) (c : EmitterCall)
    (hc : c.generatorCall.legal = valueStates) (hso : c.generatorCall ≠ .StartObject)
    (hsa : c.generatorCall ≠ .StartArray) (h : e.g.sm.State ∈ valueStates) :
    ∃ e1 s1, c.run e = .ret e1 () ∧ e.g.sm.State.Next = .ok s1 ∧
      e1.g = { e.g with sm := { e.g.sm with State := s1 } } := by
  obtain ⟨a, ha⟩ := Call.scalar_is_value c.generatorCall e.g hc hso hsa
  obtain ⟨s1, hs1⟩ := State.next_of_value _ h
  obtain ⟨list, hl⟩ := Generator.value_legal e.g a s1 h hs1
  rw [← ha] at hl
  obtain ⟨h1, h2⟩ := Emitter.applyCall_ret e _ _ _ hl
  rw [← EmitterCall.run_eq] at h1
  exact ⟨_, s1, h1, hs1, h2⟩

theorem EmitterCall.float_is_scalar (value : Float64) :
    (EmitterCall.EmitFloat64 value).generatorCall.legal = valueStates ∧
    (EmitterCall.EmitFloat64 value).generatorCall ≠ .StartObject ∧
    (EmitterCall.EmitFloat64 value).generatorCall ≠ .StartArray := by
  simp only [EmitterCall.generatorCall]
  split
  · exact ⟨rfl, by simp, by simp⟩
  · split
    · exact ⟨rfl, by simp, by simp⟩
    · exact ⟨rfl, by simp, by simp⟩



theorem Value.matched_scalar (e : Emitter) (c : EmitterCall)
    (hc : c.generatorCall.legal = valueStates) (hso : c.generatorCall ≠ .StartObject)
    (hsa : c.generatorCall ≠ .StartArray) (h : e.g.sm.State ∈ valueStates) :
    Value.Matched e (c.run e) := by
  obtain ⟨e1, s1, h1, h2, h3⟩ := Emitter.scalar_call e c hc hso hsa h
  exact ⟨e1, s1, h1, h2, by rw [h3], by rw [h3], by rw [h3]⟩

theorem Emitter.startArray_ok (e : Emitter) (h : e.g.sm.State ∈ valueStates) :
    ∃ e1, e.StartArray = .ret e1 () ∧ e1.g = { e.g with sm := e.g.sm.Push State.ArrayFirstValue } := by
  obtain ⟨h1, h2⟩ := Emitter.applyCall_ret e Generator.StartArray _ _ (Generator.startArray_legal e.g h)
  exact ⟨_, h1, h2⟩

theorem Emitter.startObject_ok (e : Emitter) (h : e.g.sm.State ∈ valueStates) :
    ∃ e1, e.StartObject = .ret e1 () ∧ e1.g = { e.g with sm := e.g.sm.Push State.ObjectFirstKey } := by
  obtain ⟨h1, h2⟩ := Emitter.applyCall_ret e Generator.StartObject _ _ (Generator.startObject_legal e.g h)
  exact ⟨_, h1, h2⟩

theorem Emitter.endArray_ok (e : Emitter) (l : List State) (x x1 : State)
    (h : e.g.sm.State ∈ [State.ArrayFirstValue, State.ArrayNextValue])
    (hs : e.g.sm.Stack = l ++ [x]) (hn : x.Next = .ok x1) :
    ∃ e1, e.EndArray = .ret e1 () ∧ e1.g = { e.g with sm := { Stack := l, State := x1 } } := by
  obtain ⟨list, hl⟩ := Generator.endArray_legal e.g l x x1 h hs hn
  obtain ⟨h1, h2⟩ := Emitter.applyCall_ret e Generator.EndArray _ _ hl
  exact ⟨_, h1, h2⟩

theorem Emitter.endObject_ok (e : Emitter) (l : List State) (x x1 : State)
    (h : e.g.sm.State ∈ [State.ObjectFirstKey, State.ObjectNextKey])
    (hs : e.g.sm.Stack = l ++ [x]) (hn : x.Next = .ok x1) :
    ∃ e1, e.EndObject = .ret e1 () ∧ e1.g = { e.g with sm := { Stack := l, State := x1 } } := by
  obtain ⟨list, hl⟩ := Generator.endObject_legal e.g l x x1 h hs hn
  obtain ⟨h1, h2⟩ := Emitter.applyCall_ret e Generator.EndObject _ _ hl
  exact ⟨_, h1, h2⟩

theorem State.next_of_key_object (s : State)
    (h : s ∈ [State.ObjectFirstKey, State.ObjectNextKey]) :
    ∃ s1, s.Next = .ok s1 ∧ (s1 = State.ObjectFirstValue ∨ s1 = State.ObjectNextValue) := by
  simp only [List.mem_cons, List.mem_singleton, List.not_mem_nil, or_false] at h
  rcases h with rfl | rfl
  · exact ⟨_, rfl, Or.inl rfl⟩
  · exact ⟨_, rfl, Or.inr rfl⟩

theorem Emitter.emitKey_ok (e : Emitter) (key : List Nat)
    (h : e.g.sm.State ∈ [State.ObjectFirstKey, State.ObjectNextKey]) :
    ∃ e1 s1, e.EmitKey key = .ret e1 () ∧
      (s1 = State.ObjectFirstValue ∨ s1 = State.ObjectNextValue) ∧
      e1.g = { e.g with sm := { e.g.sm with State := s1 } } := by
  obtain ⟨s1, hs1, hs1i⟩ := State.next_of_key_object _ h
  obtain ⟨list, hl⟩ := Generator.key_legal e.g key s1 h hs1
  obtain ⟨h1, h2⟩ := Emitter.applyCall_ret e (fun g => g.Key key) _ _ hl
  exact ⟨_, s1, h1, hs1i, h2⟩

theorem State.array_next (s s1 : State) (h : s ∈ [State.ArrayFirstValue, State.ArrayNextValue])
    (hn : s.Next = .ok s1) : s1 ∈ [State.ArrayFirstValue, State.ArrayNextValue] := by
  simp only [List.mem_cons, List.mem_singleton, List.not_mem_nil, or_false] at h
  rcases h with rfl | rfl <;> cases hn <;> decide

theorem State.object_next (s s1 : State)
    (hk : s = State.ObjectFirstValue ∨ s = State.ObjectNextValue)
    (hn : s.Next = .ok s1) : s1 ∈ [State.ObjectFirstKey, State.ObjectNextKey] := by
  rcases hk with rfl | rfl <;> cases hn <;> decide

mutual
theorem Value.emitTo_matched : ∀ (v : Value) (e : Emitter), e.g.sm.State ∈ valueStates →
    Value.Matched e (v.EmitTo e)
  | .Null, e, h => Value.matched_scalar e .EmitNull rfl (by simp [EmitterCall.generatorCall])
      (by simp [EmitterCall.generatorCall]) h
  | .Bool v, e, h => Value.matched_scalar e (.EmitBool v) rfl (by simp [EmitterCall.generatorCall])
      (by simp [EmitterCall.generatorCall]) h
  | .Int v, e, h => Value.matched_scalar e (.EmitInt64 v) rfl (by simp [EmitterCall.generatorCall])
      (by simp [EmitterCall.generatorCall]) h
  | .Uint v, e, h => Value.matched_scalar e (.EmitUint64 v) rfl (by simp [EmitterCall.generatorCall])
      (by simp [EmitterCall.generatorCall]) h
  | .BigIntValue v, e, h => Value.matched_scalar e (.EmitBigInt v) rfl (by simp [EmitterCall.generatorCall])
      (by simp [EmitterCall.generatorCall]) h
  | .Float v, e, h => Value.matched_scalar e (.EmitFloat64 v) (EmitterCall.float_is_scalar v).1
      (EmitterCall.float_is_scalar v).2.1 (EmitterCall.float_is_scalar v).2.2 h
  | .BigFloatValue v, e, h => Value.matched_scalar e (.EmitBigFloat v) rfl (by simp [EmitterCall.generatorCall])
      (by simp [EmitterCall.generatorCall]) h
  | .String v, e, h => Value.matched_scalar e (.EmitString v) rfl (by simp [EmitterCall.generatorCall])
      (by simp [EmitterCall.generatorCall]) h
  | .Bytes v, e, h => Value.matched_scalar e (.EmitBytes v) rfl (by simp [EmitterCall.generatorCall])
      (by simp [EmitterCall.generatorCall]) h
  | .Byte v, e, h => Value.matched_scalar e (.EmitByte v) rfl (by simp [EmitterCall.generatorCall])
      (by simp [EmitterCall.generatorCall]) h
  | .Rune v, e, h => Value.matched_scalar e (.EmitRune v) rfl (by simp [EmitterCall.generatorCall])
      (by simp [EmitterCall.generatorCall]) h
  | .Array items, e, h => by
    obtain ⟨e1, h1, hg1⟩ := Emitter.startArray_ok e h
    have hst1 : e1.g.sm.State ∈ [State.ArrayFirstValue, State.ArrayNextValue] := by
      rw [hg1]; simp [Machine.Push]
    obtain ⟨e2, h2, hstack2, hjson2, hst2⟩ := Value.emitItems_matched items e1 hst1
    obtain ⟨s1, hs1⟩ := State.next_of_value _ h
    have hstack : e2.g.sm.Stack = e.g.sm.Stack ++ [e.g.sm.State] := by
      rw [hstack2, hg1]; rfl
    obtain ⟨e3, h3, hg3⟩ := Emitter.endArray_ok e2 _ _ s1 hst2 hstack hs1
    refine ⟨e3, s1, ?_, hs1, by rw [hg3], by rw [hg3], ?_⟩
    · simp only [Value.EmitTo, h1, h2, h3]
    · rw [hg3]; simp only; rw [hjson2, hg1]
  | .Object fields, e, h => by
    obtain ⟨e1, h1, hg1⟩ := Emitter.startObject_ok e h
    have hst1 : e1.g.sm.State ∈ [State.ObjectFirstKey, State.ObjectNextKey] := by
      rw [hg1]; simp [Machine.Push]
    obtain ⟨e2, h2, hstack2, hjson2, hst2⟩ := Value.emitFields_matched fields e1 hst1
    obtain ⟨s1, hs1⟩ := State.next_of_value _ h
    have hstack : e2.g.sm.Stack = e.g.sm.Stack ++ [e.g.sm.State] := by
      rw [hstack2, hg1]; rfl
    obtain ⟨e3, h3, hg3⟩ := Emitter.endObject_ok e2 _ _ s1 hst2 hstack hs1
    refine ⟨e3, s1, ?_, hs1, by rw [hg3], by rw [hg3], ?_⟩
    · simp only [Value.EmitTo, h1, h2, h3]
    · rw [hg3]; simp only; rw [hjson2, hg1]
theorem Value.emitItems_matched : ∀ (items : List Value) (e : Emitter),
    e.g.sm.State ∈ [State.ArrayFirstValue, State.ArrayNextValue] →
    ∃ e1, Value.emitItems items e = .ret e1 () ∧ e1.g.sm.Stack = e.g.sm.Stack ∧
      e1.g.json = e.g.json ∧ e1.g.sm.State ∈ [State.ArrayFirstValue, State.ArrayNextValue]
  | [], e, h => ⟨e, by simp [Value.emitItems], rfl, rfl, h⟩
  | item :: rest, e, h => by
    have hv : e.g.sm.State ∈ valueStates := by
      simp only [valueStates, List.mem_cons, List.mem_singleton, List.not_mem_nil, or_false] at h ⊢
      tauto
    obtain ⟨e1, s1, h1, hn, hs1, hstack1, hjson1⟩ := Value.emitTo_matched item e hv
    have hst1 : e1.g.sm.State ∈ [State.ArrayFirstValue, State.ArrayNextValue] := by
      rw [hs1]; exact State.array_next _ _ h hn
    obtain ⟨e2, h2, hstack2, hjson2, hst2⟩ := Value.emitItems_matched rest e1 hst1
    refine ⟨e2, ?_, hstack2.trans hstack1, hjson2.trans hjson1, hst2⟩
    simp only [Value.emitItems, h1, h2]
theorem Value.emitFields_matched : ∀ (fields : List (List Nat × Value)) (e : Emitter),
    e.g.sm.State ∈ [State.ObjectFirstKey, State.ObjectNextKey] →
    ∃ e1, Value.emitFields fields e = .ret e1 () ∧ e1.g.sm.Stack = e.g.sm.Stack ∧
      e1.g.json = e.g.json ∧ e1.g.sm.State ∈ [State.ObjectFirstKey, State.ObjectNextKey]
  | [], e, h => ⟨e, by simp [Value.emitFields], rfl, rfl, h⟩
  | (key, value) :: rest, e, h => by
    obtain ⟨e0, s0, h0, hs0, hg0⟩ := Emitter.emitKey_ok e key h
    have hv : e0.g.sm.State ∈ valueStates := by
      rw [hg0]
      simp only [valueStates, List.mem_cons, List.mem_singleton, List.not_mem_nil, or_false]
      tauto
    obtain ⟨e1, s1, h1, hn, hs1, hstack1, hjson1⟩ := Value.emitTo_matched value e0 hv
    have hst1 : e1.g.sm.State ∈ [State.ObjectFirstKey, State.ObjectNextKey] := by
      rw [hs1]
      rw [hg0] at hn
      exact State.object_next s0 s1 hs0 hn
    obtain ⟨e2, h2, hstack2, hjson2, hst2⟩ := Value.emitFields_matched rest e1 hst1
    refine ⟨e2, ?_, ?_, ?_, hst2⟩
    · simp only [Value.emitFields, h0, h1, h2]
    · rw [hstack2, hstack1, hg0]
    · rw [hjson2, hjson1, hg0]
end


theorem Emitter.reset_ok (e0 : Emitter) (w : Writer) (g : Generator) :
    e0.Reset (some w) (some g) =
      .ret { w := w, g := g.Reset, out := [], err := none, n := 0 } () := rfl

theorem Emitter.close_ok (e : Emitter) (h : e.g.sm.State = State.End) :
    ∃ e2 err, e.Close = .ret e2 err := by
  obtain ⟨list, hl⟩ := Generator.end_legal e.g (by rw [h]; exact List.mem_singleton.2 rfl)
  obtain ⟨h1, _⟩ := Emitter.applyCall_ret e Generator.End _ _ hl
  simp only [Emitter.Close, h1]
  exact ⟨_, _, rfl⟩

/-- C5: for every value tree and every emitter whose generator is in a state in
which a value is legal, `EmitTo` returns (no call of its sequence panics), leaves
the state stack exactly as it was and leaves the current state equal to `Next` of
the state before the call. Hence on a freshly reset emitter the tree ends in state
`End` with an empty stack, and the `Close` that follows returns. -/
theorem Value.emitTo_returns (v : Value) :
    (∀ e : Emitter, e.g.sm.State ∈ valueStates →
      ∃ e1 s1, v.EmitTo e = .ret e1 () ∧ e1.g.sm.Stack = e.g.sm.Stack ∧
        e.g.sm.State.Next = .ok s1 ∧ e1.g.sm.State = s1) ∧
    (∀ (e0 : Emitter) (w : Writer) (g : Generator), ∃ e e1 e2 err,
      e0.Reset (some w) (some g) = .ret e () ∧ v.EmitTo e = .ret e1 () ∧
        e1.g.sm.State = State.End ∧ e1.g.sm.Stack = [] ∧ e1.Close = .ret e2 err) := by
  constructor
  · intro e h
    obtain ⟨e1, s1, h1, hn, hs1, hstack1, _⟩ := Value.emitTo_matched v e h
    exact ⟨e1, s1, h1, hstack1, hn, hs1⟩
  · intro e0 w g
    have hroot : ({ w := w, g := g.Reset, out := [], err := none, n := 0 } : Emitter).g.sm.State
        ∈ valueStates := by
      show State.Root ∈ valueStates
      decide
    obtain ⟨e1, s1, h1, hn, hs1, hstack1, _⟩ := Value.emitTo_matched v _ hroot
    have hend : e1.g.sm.State = State.End := by
      rw [hs1]
      have : State.Root.Next = .ok s1 := hn
      cases this
      rfl
    obtain ⟨e2, err, h2⟩ := Emitter.close_ok e1 hend
    exact ⟨_, e1, e2, err, Emitter.reset_ok e0 w g, h1, hend, hstack1, h2⟩

/-- Witness of C5: an array nested in an object, emitted while inside an array. -/
theorem Value.emitTo_returns_witness :
    ∃ e1 s1, (Value.Object [(ascii "k", Value.Array [Value.Null, Value.Array []])]).EmitTo
        { w := Writer.reliable, g := { json := {}, sm := { Stack := [State.Root], State := State.ArrayFirstValue } },
          out := [], err := none, n := 0 } = .ret e1 () ∧
      e1.g.sm.Stack = [State.Root] ∧ State.ArrayFirstValue.Next = .ok s1 ∧ e1.g.sm.State = s1 :=
  (Value.emitTo_returns (Value.Object [(ascii "k", Value.Array [Value.Null, Value.Array []])])).1
    { w := Writer.reliable, g := { json := {}, sm := { Stack := [State.Root], State := State.ArrayFirstValue } },
      out := [], err := none, n := 0 } (by decide)


/-! ## Layout of the three formats -/

/-- C6 (defect of the code): in the Compact format two arrays that follow each other
inside an array are emitted without the comma between them. The code delivers
`[[][]]` where the serialization of the specification is `[[],[]]`: `StartArray`
and `StartObject` never emit the separator that `value` emits in the state
`ArrayNextValue`. -/
theorem emitDocument_compact_nested :
    emitDocument {} (.Array [.Array [], .Array []]) = some (ascii "[[][]]") ∧
    Value.serCompact {} (.Array [.Array [], .Array []]) = ascii "[[],[]]" := by
  decide

/-- C7 (defect of the code): in the OneLine format two arrays that follow each other
inside an array are emitted without the comma and the space between them. The code
delivers `[[][]]` and a line feed where the serialization of the specification is
`[[], []]` and a line feed. -/
theorem emitDocument_oneLine_nested :
    emitDocument { Format := .OneLine } (.Array [.Array [], .Array []]) = some (ascii "[[][]]\n") ∧
    Value.serOneLine { Format := .OneLine } (.Array [.Array [], .Array []]) = ascii "[[], []]\n" := by
  decide

/-- C8 (defect of the code): in the MultiLine format an array element that is itself
a container is not preceded by the line feed and the indentation. For an array
holding one empty array the code delivers `[[]`, a line feed, `]` and a line feed,
where the indentation law puts the inner `[]` on a line of its own behind two
spaces. The example of the claim, an array of three strings, is laid out as the law
says. -/
theorem emitDocument_multiLine_nested :
    emitDocument { Format := .MultiLine } (.Array [.Array []]) = some (ascii "[[]\n]\n") ∧
    Value.serMultiLineDocument { Format := .MultiLine } (.Array [.Array []]) = ascii "[\n  []\n]\n" ∧
    emitDocument { Format := .MultiLine } (.Array [.Rune 0x61, .Rune 0x62, .Rune 0x63]) =
      some (ascii "[\n  \"a\",\n  \"b\",\n  \"c\"\n]\n") := by
  decide

theorem Generator.endArray_after_start (g : Generator) (s1 : State)
    (hn : g.sm.State.Next = .ok s1) :
    Generator.EndArray { g with sm := g.sm.Push State.ArrayFirstValue } =
      .ret { g with sm := { g.sm with State := s1 } } [Appender.LiteralString [0x5D]] := by
  obtain ⟨json, ⟨stack, st⟩⟩ := g
  simp only at hn
  have he : State.ArrayFirstValue.Expect [State.ArrayFirstValue, State.ArrayNextValue] = .ok () := rfl
  have hi : State.ArrayFirstValue.In [State.ArrayNextValue] = false := rfl
  simp only [Generator.EndArray, Machine.ExpectArray, Machine.Expect, Machine.Push, he, hi,
    Machine.pop_concat, Machine.Next, hn]
  rfl

theorem Generator.endObject_after_start (g : Generator) (s1 : State)
    (hn : g.sm.State.Next = .ok s1) :
    Generator.EndObject { g with sm := g.sm.Push State.ObjectFirstKey } =
      .ret { g with sm := { g.sm with State := s1 } } [Appender.LiteralString [0x7D]] := by
  obtain ⟨json, ⟨stack, st⟩⟩ := g
  simp only at hn
  have he : State.ObjectFirstKey.Expect [State.ObjectFirstKey, State.ObjectNextKey] = .ok () := rfl
  have hi : State.ObjectFirstKey.In [State.ObjectNextKey] = false := rfl
  simp only [Generator.EndObject, Machine.ExpectKey, Machine.Expect, Machine.Push, he, hi,
    Machine.pop_concat, Machine.Next, hn]
  rfl

/-- C9: an empty container is its two delimiters and nothing else. For every
generator, whatever its format, indentation and stack depth, that is in a state in
which a value is legal, `StartArray` returns exactly the fragment `[` and the
`EndArray` that follows immediately returns exactly the fragment `]`; likewise
`StartObject` returns `{` and `EndObject` returns `}`. The bytes of the two calls
together are `[]` and `{}`, and the generator ends in the state `Next` of the state
before, with the stack as before. -/
theorem Generator.empty_container (g : Generator) (h : g.sm.State ∈ valueStates) :
    ∃ s1 ga go, g.sm.State.Next = .ok s1 ∧
      g.StartArray = .ret ga [Appender.LiteralString [0x5B]] ∧
      ga.EndArray = .ret { g with sm := { g.sm with State := s1 } } [Appender.LiteralString [0x5D]] ∧
      g.StartObject = .ret go [Appender.LiteralString [0x7B]] ∧
      go.EndObject = .ret { g with sm := { g.sm with State := s1 } } [Appender.LiteralString [0x7D]] ∧
      appendAll ([Appender.LiteralString [0x5B]] ++ [Appender.LiteralString [0x5D]]) [] = ascii "[]" ∧
      appendAll ([Appender.LiteralString [0x7B]] ++ [Appender.LiteralString [0x7D]]) [] = ascii "\x7b\x7d" := by
  obtain ⟨s1, hs1⟩ := State.next_of_value _ h
  exact ⟨s1, _, _, hs1, Generator.startArray_legal g h, Generator.endArray_after_start g s1 hs1,
    Generator.startObject_legal g h, Generator.endObject_after_start g s1 hs1, by decide, by decide⟩

/-- Witness of C9: an empty array as the second element of an array at depth 2, in
the MultiLine format with tabs. -/
theorem Generator.empty_container_witness :
    ∃ s1 ga go, State.ArrayNextValue.Next = .ok s1 ∧
      Generator.StartArray {
          json := { Format := .MultiLine, IndentWithTabs := true },
          sm := { Stack := [State.Root, State.ObjectFirstValue], State := State.ArrayNextValue } }
        = .ret ga [Appender.LiteralString [0x5B]] ∧
      ga.EndArray = .ret {
          json := { Format := .MultiLine, IndentWithTabs := true },
          sm := { Stack := [State.Root, State.ObjectFirstValue], State := s1 } }
        [Appender.LiteralString [0x5D]] ∧
      Generator.StartObject {
          json := { Format := .MultiLine, IndentWithTabs := true },
          sm := { Stack := [State.Root, State.ObjectFirstValue], State := State.ArrayNextValue } }
        = .ret go [Appender.LiteralString [0x7B]] ∧
      go.EndObject = .ret {
          json := { Format := .MultiLine, IndentWithTabs := true },
          sm := { Stack := [State.Root, State.ObjectFirstValue], State := s1 } }
        [Appender.LiteralString [0x7D]] ∧
      appendAll ([Appender.LiteralString [0x5B]] ++ [Appender.LiteralString [0x5D]]) [] = ascii "[]" ∧
      appendAll ([Appender.LiteralString [0x7B]] ++ [Appender.LiteralString [0x7D]]) [] = ascii "\x7b\x7d" :=
  Generator.empty_container {
    json := { Format := .MultiLine, IndentWithTabs := true },
    sm := { Stack := [State.Root, State.ObjectFirstValue], State := State.ArrayNextValue } }
    (by decide)


/-! ## String escaping -/

set_option maxRecDepth 100000 in
theorem stringEscapes_small : ∀ n : Nat, n < 160 →
    stringEscapes.lookup (n : Int) =
      if (n = 0x22 ∨ n = 0x5C ∨ n ≤ 0x1F ∨ 0x7F ≤ n) then some (escapeImage (n : Int)) else none := by
  decide

theorem stringEscapes_keys : ∀ p ∈ stringEscapes, 0 ≤ p.1 ∧ p.1 < 160 := by decide

theorem stringEscapes_large (r : Int) (h : r < 0 ∨ 160 ≤ r) : stringEscapes.lookup r = none := by
  rw [List.lookup_eq_none_iff]
  intro p hp
  have := stringEscapes_keys p hp
  simp only [bne_iff_ne, ne_eq]
  omega

theorem stringEscapesHTML_lookup (r : Int) :
    stringEscapesHTML.lookup r =
      if r = 0x26 ∨ r = 0x3C ∨ r = 0x3E then some (escapeU00 r) else none := by
  by_cases h1 : r = 0x26
  · subst h1; decide
  by_cases h2 : r = 0x3C
  · subst h2; decide
  by_cases h3 : r = 0x3E
  · subst h3; decide
  have : ¬ (r = 0x26 ∨ r = 0x3C ∨ r = 0x3E) := by omega
  rw [if_neg this, List.lookup_eq_none_iff]
  intro p hp
  simp only [stringEscapesHTML, List.mem_cons, List.mem_singleton, List.not_mem_nil, or_false] at hp
  rcases hp with rfl | rfl | rfl <;> simp only [bne_iff_ne, ne_eq] <;> omega

theorem StringAppender.appendRune_eq (a : StringAppender) (out : List Nat) (r : Int)
    (hr : ¬ (0xD800 ≤ r ∧ r < 0xE000)) :
    a.appendRune out r = out ++ escapeImageHTML a.EscapeHTML r := by
  unfold StringAppender.appendRune
  by_cases hsmall : 0 ≤ r ∧ r < 160
  · obtain ⟨n, rfl⟩ := Int.eq_ofNat_of_zero_le hsmall.1
    have hn : n < 160 := by omega
    rw [stringEscapes_small n hn]
    by_cases hesc : (n = 0x22 ∨ n = 0x5C ∨ n ≤ 0x1F ∨ 0x7F ≤ n)
    · rw [if_pos hesc]
      have : ¬ (a.EscapeHTML = true ∧ ((n : Int) = 0x26 ∨ (n : Int) = 0x3C ∨ (n : Int) = 0x3E)) := by
        omega
      simp only [escapeImageHTML, if_neg this]
    · rw [if_neg hesc]
      simp only [stringEscapesHTML_lookup]
      have hplain : escapeImage (n : Int) = runeToString (n : Int) := by
        unfold escapeImage
        have h1 : ¬ ((n : Int) = 0x22) := by omega
        have h2 : ¬ ((n : Int) = 0x5C) := by omega
        have h3 : ¬ ((n : Int) = 0x08) := by omega
        have h4 : ¬ ((n : Int) = 0x09) := by omega
        have h5 : ¬ ((n : Int) = 0x0A) := by omega
        have h6 : ¬ ((n : Int) = 0x0C) := by omega
        have h7 : ¬ ((n : Int) = 0x0D) := by omega
        have h8 : ¬ ((0 ≤ (n : Int) ∧ (n : Int) ≤ 0x1F) ∨ (0x7F ≤ (n : Int) ∧ (n : Int) ≤ 0x9F)) := by omega
        simp only [if_neg h1, if_neg h2, if_neg h3, if_neg h4, if_neg h5, if_neg h6, if_neg h7, if_neg h8]
      cases hh : a.EscapeHTML
      · simp only [escapeImageHTML, hplain, if_neg hr]
        simp
      · by_cases h3 : ((n : Int) = 0x26 ∨ (n : Int) = 0x3C ∨ (n : Int) = 0x3E)
        · simp [escapeImageHTML, h3]
        · simp only [escapeImageHTML, if_neg h3, hplain, if_neg hr]
          simp [h3]
  · have hl : r < 0 ∨ 160 ≤ r := by omega
    rw [stringEscapes_large r hl]
    simp only [stringEscapesHTML_lookup]
    have h3 : ¬ (r = 0x26 ∨ r = 0x3C ∨ r = 0x3E) := by omega
    have hplain : escapeImage r = runeToString r := by
      unfold escapeImage
      have h1 : ¬ (r = 0x22) := by omega
      have h2 : ¬ (r = 0x5C) := by omega
      have h3 : ¬ (r = 0x08) := by omega
      have h4 : ¬ (r = 0x09) := by omega
      have h5 : ¬ (r = 0x0A) := by omega
      have h6 : ¬ (r = 0x0C) := by omega
      have h7 : ¬ (r = 0x0D) := by omega
      have h8 : ¬ ((0 ≤ r ∧ r ≤ 0x1F) ∨ (0x7F ≤ r ∧ r ≤ 0x9F)) := by omega
      simp only [if_neg h1, if_neg h2, if_neg h3, if_neg h4, if_neg h5, if_neg h6, if_neg h7, if_neg h8]
    simp [escapeImageHTML, h3, hplain, hr]

theorem StringAppender.foldl_appendRune (a : StringAppender) (l : List Int) (acc : List Nat)
    (h : ∀ r ∈ l, ¬ (0xD800 ≤ r ∧ r < 0xE000)) :
    l.foldl a.appendRune acc = acc ++ l.flatMap (escapeImageHTML a.EscapeHTML) := by
  induction l generalizing acc with
  | nil => simp
  | cons r rest ih =>
    rw [List.foldl_cons, StringAppender.appendRune_eq a acc r (h r (List.mem_cons_self _ _)),
      ih _ (fun x hx => h x (List.mem_cons_of_mem _ hx))]
    simp

theorem utf8Size_cases (s0 : Nat) :
    (utf8Size s0 = 1 ∧ s0 < 0x80) ∨ (utf8Size s0 = 0 ∧ 0x80 ≤ s0) ∨
    (utf8Size s0 = 2 ∧ 0xC2 ≤ s0 ∧ s0 ≤ 0xDF) ∨ (utf8Size s0 = 3 ∧ 0xE0 ≤ s0 ∧ s0 ≤ 0xEF) ∨
    (utf8Size s0 = 4 ∧ 0xF0 ≤ s0 ∧ s0 ≤ 0xF4) := by
  unfold utf8Size
  split_ifs <;> omega

theorem accept_bounds (s0 s1 : Nat) (h : ¬ (s1 < acceptLo s0 ∨ acceptHi s0 < s1)) :
    0x80 ≤ s1 ∧ s1 ≤ 0xBF ∧ (s0 = 0xE0 → 0xA0 ≤ s1) ∧ (s0 = 0xED → s1 ≤ 0x9F) ∧
    (s0 = 0xF0 → 0x90 ≤ s1) ∧ (s0 = 0xF4 → s1 ≤ 0x8F) := by
  unfold acceptLo acceptHi at h
  split_ifs at h <;> omega

theorem isCont_iff (b : Nat) : isCont b = true ↔ 0x80 ≤ b ∧ b ≤ 0xBF := by
  simp [isCont]

theorem DecodeRuneInString_scalar (s : List Nat) : isScalarValue (DecodeRuneInString s).1 := by
  cases s with
  | nil => simp [DecodeRuneInString, isScalarValue, RuneError]
  | cons s0 t =>
    simp only [DecodeRuneInString]
    rcases utf8Size_cases s0 with ⟨hsz, h0⟩ | ⟨hsz, h0⟩ | ⟨hsz, h0⟩ | ⟨hsz, h0⟩ | ⟨hsz, h0⟩
    · simp only [hsz, if_true]
      simp only [isScalarValue]; omega
    · simp [hsz, isScalarValue, RuneError]
    · simp only [hsz]
      split_ifs
      all_goals (simp only [isScalarValue, RuneError]; omega)
    · simp only [hsz]
      split_ifs
      all_goals first
        | (simp only [isScalarValue, RuneError]; omega)
        | (have hb := accept_bounds _ _ (by assumption)
           simp only [isScalarValue]
           omega)
    · simp only [hsz]
      split_ifs
      all_goals first
        | (simp only [isScalarValue, RuneError]; omega)
        | (have hb := accept_bounds _ _ (by assumption)
           simp only [isScalarValue]
           omega)

theorem rangeRunesFrom_scalar (s : List Nat) : ∀ skip, ∀ r ∈ rangeRunesFrom skip s, isScalarValue r := by
  induction s with
  | nil => intro skip r hr; simp [rangeRunesFrom] at hr
  | cons s0 t ih =>
    intro skip r hr
    cases skip with
    | zero =>
      simp only [rangeRunesFrom, List.mem_cons] at hr
      rcases hr with rfl | hr
      · exact DecodeRuneInString_scalar _
      · exact ih _ r hr
    | succ k =>
      simp only [rangeRunesFrom] at hr
      exact ih _ r hr

/-! ### Images of the escape map -/

set_option maxRecDepth 100000 in
theorem escapeImageHTML_small (html : Bool) : ∀ n : Nat, n < 160 →
    (escapeImageHTML html (n : Int)).all (fun b => decide (0x20 ≤ b) && decide (b < 0x7F)) = true ∧
      escapedShape (escapeImageHTML html (n : Int)) = true := by
  cases html <;> decide

theorem escapeImageHTML_large (html : Bool) (r : Int) (h : r < 0 ∨ 160 ≤ r) :
    escapeImageHTML html r = runeToString r := by
  have h0 : ¬ (html = true ∧ (r = 0x26 ∨ r = 0x3C ∨ r = 0x3E)) := by omega
  have h1 : ¬ (r = 0x22) := by omega
  have h2 : ¬ (r = 0x5C) := by omega
  have h3 : ¬ (r = 0x08) := by omega
  have h4 : ¬ (r = 0x09) := by omega
  have h5 : ¬ (r = 0x0A) := by omega
  have h6 : ¬ (r = 0x0C) := by omega
  have h7 : ¬ (r = 0x0D) := by omega
  have h8 : ¬ ((0 ≤ r ∧ r ≤ 0x1F) ∨ (0x7F ≤ r ∧ r ≤ 0x9F)) := by omega
  simp only [escapeImageHTML, escapeImage, if_neg h0, if_neg h1, if_neg h2, if_neg h3, if_neg h4,
    if_neg h5, if_neg h6, if_neg h7, if_neg h8]

theorem runeToString_large (r : Int) (hl : 0x80 ≤ r) (b : Nat) (hb : b ∈ runeToString r) :
    0x80 ≤ b ∧ b < 256 := by
  unfold runeToString at hb
  simp only at hb
  split_ifs at hb <;>
    simp only [List.mem_cons, List.mem_singleton, List.not_mem_nil, or_false] at hb <;> omega

theorem DecodeRuneInString_ascii (b : Nat) (t : List Nat) (h : b < 0x80) :
    DecodeRuneInString (b :: t) = ((b : Int), 1) := by
  have : utf8Size b = 1 := by unfold utf8Size; simp [h]
  simp [DecodeRuneInString, this]

theorem DecodeRuneInString_runeToString (r : Int) (h : isScalarValue r) (hl : 0x80 ≤ r)
    (rest : List Nat) :
    DecodeRuneInString (runeToString r ++ rest) = (r, (runeToString r).length) := by
  obtain ⟨h0, h1, h2⟩ := h
  obtain ⟨n, rfl⟩ := Int.eq_ofNat_of_zero_le h0
  have hn0 : ¬ ((n : Int) < 0) := by omega
  have hn1 : ¬ (n < 0x80) := by omega
  have hn3 : ¬ (0xD800 ≤ n ∧ n < 0xE000) := by omega
  have hn5 : n < 0x110000 := by omega
  simp only [runeToString, Int.toNat_ofNat, if_neg hn0, if_neg hn1, if_neg hn3, if_pos hn5]
  by_cases c2 : n < 0x800
  · have hs : utf8Size (0xC0 + n / 64) = 2 := by unfold utf8Size; split_ifs <;> omega
    have ha : ¬ (0x80 + n % 64 < acceptLo (0xC0 + n / 64) ∨ acceptHi (0xC0 + n / 64) < 0x80 + n % 64) := by
      unfold acceptLo acceptHi; split_ifs <;> omega
    simp only [if_pos c2, List.cons_append, List.nil_append, DecodeRuneInString, hs, List.getD_cons_zero,
      if_neg ha, List.length_cons]
    simp only [Nat.reduceEqDiff, if_false, if_true, Prod.mk.injEq, List.length_nil, and_true]
    have hlen : ¬ (rest.length + 1 + 1 < 2) := by omega
    have e : (192 + n / 64) % 32 * 64 + (128 + n % 64) % 64 = n := by omega
    rw [if_neg hlen, e]
  by_cases c3 : n < 0x10000
  · have hs : utf8Size (0xE0 + n / 4096) = 3 := by unfold utf8Size; split_ifs <;> omega
    have ha : ¬ (0x80 + n / 64 % 64 < acceptLo (0xE0 + n / 4096) ∨
        acceptHi (0xE0 + n / 4096) < 0x80 + n / 64 % 64) := by
      unfold acceptLo acceptHi; split_ifs <;> omega
    have hc : isCont (0x80 + n % 64) = true := by rw [isCont_iff]; omega
    simp only [if_neg c2, if_pos c3, List.cons_append, List.nil_append, DecodeRuneInString, hs,
      List.getD_cons_zero, List.getD_cons_succ, if_neg ha, List.length_cons, hc]
    simp only [Nat.reduceEqDiff, if_false, if_true, Prod.mk.injEq, List.length_nil, and_true,
      Bool.not_true, Bool.false_eq_true]
    have hlen : ¬ (rest.length + 1 + 1 + 1 < 3) := by omega
    have e : (224 + n / 4096) % 16 * 4096 + (128 + n / 64 % 64) % 64 * 64 + (128 + n % 64) % 64 = n := by
      omega
    rw [if_neg hlen, e]
  · have hs : utf8Size (0xF0 + n / 262144) = 4 := by unfold utf8Size; split_ifs <;> omega
    have ha : ¬ (0x80 + n / 4096 % 64 < acceptLo (0xF0 + n / 262144) ∨
        acceptHi (0xF0 + n / 262144) < 0x80 + n / 4096 % 64) := by
      unfold acceptLo acceptHi; split_ifs <;> omega
    have hc : isCont (0x80 + n / 64 % 64) = true := by rw [isCont_iff]; omega
    have hd : isCont (0x80 + n % 64) = true := by rw [isCont_iff]; omega
    simp only [if_neg c2, if_neg c3, List.cons_append, List.nil_append, DecodeRuneInString, hs,
      List.getD_cons_zero, List.getD_cons_succ, if_neg ha, List.length_cons, hc, hd]
    simp only [Nat.reduceEqDiff, if_false, if_true, Prod.mk.injEq, List.length_nil, and_true,
      Bool.not_true, Bool.false_eq_true]
    have hlen : ¬ (rest.length + 1 + 1 + 1 + 1 < 4) := by omega
    have e : (240 + n / 262144) % 8 * 262144 + (128 + n / 4096 % 64) % 64 * 4096 +
        (128 + n / 64 % 64) % 64 * 64 + (128 + n % 64) % 64 = n := by
      omega
    rw [if_neg hlen, e]

/-! ### Decoding and scanning a text made of images -/

theorem rangeRunesFrom_skip (l rest : List Nat) :
    rangeRunesFrom l.length (l ++ rest) = rangeRunesFrom 0 rest := by
  induction l with
  | nil => rfl
  | cons b t ih => simpa [rangeRunesFrom] using ih

theorem rangeRunesFrom_zero_cons (s0 : Nat) (t : List Nat) :
    rangeRunesFrom 0 (s0 :: t) =
      (DecodeRuneInString (s0 :: t)).1 :: rangeRunesFrom ((DecodeRuneInString (s0 :: t)).2 - 1) t :=
  rfl

theorem rangeRunesFrom_ascii (l rest : List Nat) (h : ∀ b ∈ l, b < 0x80) :
    rangeRunesFrom 0 (l ++ rest) = l.map Int.ofNat ++ rangeRunesFrom 0 rest := by
  induction l with
  | nil => rfl
  | cons b t ih =>
    have hb : b < 0x80 := h b (List.mem_cons_self _ _)
    rw [List.cons_append, rangeRunesFrom_zero_cons, DecodeRuneInString_ascii b _ hb]
    simp only [Nat.sub_self]
    rw [ih (fun x hx => h x (List.mem_cons_of_mem _ hx))]
    rfl

theorem rangeRunesFrom_runeToString (r : Int) (h : isScalarValue r) (hl : 0x80 ≤ r)
    (rest : List Nat) :
    rangeRunesFrom 0 (runeToString r ++ rest) = r :: rangeRunesFrom 0 rest := by
  have hd := DecodeRuneInString_runeToString r h hl rest
  cases hrs : runeToString r with
  | nil =>
    have := runeToString_large r hl
    exfalso
    have hlen : (runeToString r).length ≠ 0 := by
      unfold runeToString
      simp only
      split_ifs <;> simp
    rw [hrs] at hlen
    exact hlen rfl
  | cons b t =>
    rw [hrs] at hd
    rw [List.cons_append] at hd ⊢
    rw [rangeRunesFrom_zero_cons, hd]
    simp only [List.length_cons, Nat.add_sub_cancel]
    rw [rangeRunesFrom_skip]

theorem hasBareQuote_cons_plain (b : Nat) (rest : List Nat) (h1 : ¬ b = 0x22) (h2 : ¬ b = 0x5C) :
    hasBareQuote (b :: rest) = hasBareQuote rest := by
  cases rest <;> simp [hasBareQuote, h1, h2]

theorem hasBareQuote_cons_escape (x : Nat) (rest : List Nat) :
    hasBareQuote (0x5C :: x :: rest) = hasBareQuote rest := by
  simp [hasBareQuote]

theorem hasBareQuote_plain (l rest : List Nat)
    (h : l.all (fun x => x != 0x22 && x != 0x5C) = true) :
    hasBareQuote (l ++ rest) = hasBareQuote rest := by
  induction l with
  | nil => rfl
  | cons b t ih =>
    simp only [List.all_cons, Bool.and_eq_true, bne_iff_ne, ne_eq] at h
    obtain ⟨⟨h1, h2⟩, ht⟩ := h
    rw [List.cons_append, hasBareQuote_cons_plain b _ h1 h2]
    exact ih ht

theorem hasBareQuote_shape (img rest : List Nat) (h : escapedShape img = true) :
    hasBareQuote (img ++ rest) = hasBareQuote rest := by
  cases img with
  | nil => rfl
  | cons b t =>
    by_cases hb : b = 0x5C
    · subst hb
      cases t with
      | nil => simp [escapedShape] at h
      | cons x tail =>
        simp only [escapedShape, if_true] at h
        rw [List.cons_append, List.cons_append, hasBareQuote_cons_escape]
        exact hasBareQuote_plain tail rest h
    · simp only [escapedShape, if_neg hb] at h
      exact hasBareQuote_plain (b :: t) rest h

/-- What is known of the image of one scalar value. -/
theorem escapeImageHTML_props (html : Bool) (r : Int) (h : isScalarValue r) :
    (∀ b ∈ escapeImageHTML html r, 0x20 ≤ b ∧ b ≠ 0x7F ∧ b < 256) ∧
    escapedShape (escapeImageHTML html r) = true ∧
    (∀ rest, ∃ l : List Int, rangeRunesFrom 0 (escapeImageHTML html r ++ rest) = l ++ rangeRunesFrom 0 rest ∧
      ∀ x ∈ l, isControl x = false) := by
  by_cases hsmall : r < 160
  · obtain ⟨n, rfl⟩ := Int.eq_ofNat_of_zero_le h.1
    have hn : n < 160 := by omega
    obtain ⟨hall, hshape⟩ := escapeImageHTML_small html n hn
    rw [List.all_eq_true] at hall
    have hbytes : ∀ b ∈ escapeImageHTML html (n : Int), 0x20 ≤ b ∧ b < 0x7F := by
      intro b hb
      have := hall b hb
      simpa using this
    refine ⟨fun b hb => ?_, hshape, fun rest => ?_⟩
    · have := hbytes b hb
      omega
    · refine ⟨_, rangeRunesFrom_ascii _ rest (fun b hb => by have := hbytes b hb; omega), ?_⟩
      intro x hx
      rw [List.mem_map] at hx
      obtain ⟨b, hb, rfl⟩ := hx
      have := hbytes b hb
      simp only [isControl, Bool.or_eq_false_iff, Bool.and_eq_false_iff, decide_eq_false_iff_not,
        Int.ofNat_eq_coe]
      omega
  · have hl : r < 0 ∨ 160 ≤ r := by omega
    have h80 : 0x80 ≤ r := by omega
    rw [escapeImageHTML_large html r hl]
    refine ⟨fun b hb => ?_, ?_, fun rest => ?_⟩
    · have := runeToString_large r h80 b hb
      omega
    · have hplain : (runeToString r).all (fun x => x != 0x22 && x != 0x5C) = true := by
        rw [List.all_eq_true]
        intro b hb
        have := runeToString_large r h80 b hb
        simp only [Bool.and_eq_true, bne_iff_ne, ne_eq]
        omega
      cases hrs : runeToString r with
      | nil => rfl
      | cons b t =>
        have hb := runeToString_large r h80 b (by rw [hrs]; exact List.mem_cons_self _ _)
        have hb5 : ¬ (b = 0x5C) := by omega
        rw [hrs] at hplain
        simp only [escapedShape, if_neg hb5]
        exact hplain
    · refine ⟨[r], rangeRunesFrom_runeToString r h h80 rest, ?_⟩
      intro x hx
      rw [List.mem_singleton] at hx
      subst hx
      simp only [isControl, Bool.or_eq_false_iff, Bool.and_eq_false_iff, decide_eq_false_iff_not]
      omega

/-- What is known of a text made of the images of scalar values. -/
theorem escaped_content_props (html : Bool) (runes : List Int) (h : ∀ r ∈ runes, isScalarValue r) :
    (∀ b ∈ runes.flatMap (escapeImageHTML html), 0x20 ≤ b ∧ b ≠ 0x7F ∧ b < 256) ∧
    (∀ x ∈ rangeRunes (runes.flatMap (escapeImageHTML html)), isControl x = false) ∧
    hasBareQuote (runes.flatMap (escapeImageHTML html)) = false := by
  induction runes with
  | nil =>
    refine ⟨by simp, by simp [rangeRunes, rangeRunesFrom], by simp [hasBareQuote]⟩
  | cons r rest ih =>
    obtain ⟨ih1, ih2, ih3⟩ := ih (fun x hx => h x (List.mem_cons_of_mem _ hx))
    obtain ⟨p1, p2, p3⟩ := escapeImageHTML_props html r (h r (List.mem_cons_self _ _))
    refine ⟨?_, ?_, ?_⟩
    · intro b hb
      simp only [List.flatMap_cons, List.mem_append] at hb
      rcases hb with hb | hb
      · exact p1 b hb
      · exact ih1 b hb
    · intro x hx
      simp only [List.flatMap_cons, rangeRunes] at hx
      obtain ⟨l, hl, hc⟩ := p3 (rest.flatMap (escapeImageHTML html))
      rw [hl, List.mem_append] at hx
      rcases hx with hx | hx
      · exact hc x hx
      · exact ih2 x hx
    · simp only [List.flatMap_cons]
      rw [hasBareQuote_shape _ _ p2]
      exact ih3

/-! ### The string fragment of `Key` and `StringValue` -/

theorem Builder.build_list (b : Builder) : ∃ post, b.Build.1 = b.list ++ post := by
  unfold Builder.Build Builder.flush
  split
  · exact ⟨[], by simp⟩
  · exact ⟨_, rfl⟩

theorem Builder.add_string_list (b : Builder) (x : StringAppender) :
    ∃ pre, (b.Add (some (.StringAppender x))).list = pre ++ [Appender.StringAppender x] := by
  exact ⟨_, rfl⟩

theorem Format.space_list (f : Format) (b : Builder) : (f.space b).list = b.list := by
  unfold Format.space
  split_ifs <;> rfl

theorem Generator.stringValue_fragment (g g1 : Generator) (value : List Nat) (list : List Appender)
    (h : g.StringValue value = .ret g1 list) :
    ∃ pre post, list =
      pre ++ [Appender.StringAppender { Value := value, EscapeHTML := g.json.EscapeHTML }] ++ post := by
  unfold Generator.StringValue Generator.value at h
  split at h
  · cases h
  · simp only at h
    split at h
    · cases h
    · cases h
      obtain ⟨pre, hpre⟩ := Builder.add_string_list
        (if g.sm.State.In [State.ArrayNextValue] = true then
          g.indentOrSpace ((if g.sm.State.In [State.ArrayFirstValue] = true then g.indent {} else {}).AddByte 0x2C)
        else (if g.sm.State.In [State.ArrayFirstValue] = true then g.indent {} else {}))
        { Value := value, EscapeHTML := g.json.EscapeHTML }
      obtain ⟨post, hpost⟩ := Builder.build_list ((if g.sm.State.In [State.ArrayNextValue] = true then
          g.indentOrSpace ((if g.sm.State.In [State.ArrayFirstValue] = true then g.indent {} else {}).AddByte 0x2C)
        else (if g.sm.State.In [State.ArrayFirstValue] = true then g.indent {} else {})).Add
          (some (.StringAppender { Value := value, EscapeHTML := g.json.EscapeHTML })))
      exact ⟨pre, post, by rw [hpost, hpre]⟩

theorem Generator.key_fragment (g g1 : Generator) (key : List Nat) (list : List Appender)
    (h : g.Key key = .ret g1 list) :
    ∃ pre post, list =
      pre ++ [Appender.StringAppender { Value := key, EscapeHTML := g.json.EscapeHTML }] ++ post := by
  unfold Generator.Key at h
  split at h
  · cases h
  · simp only at h
    split at h
    · cases h
    · cases h
      obtain ⟨pre, hpre⟩ := Builder.add_string_list
        (if g.sm.State.In [State.ObjectNextKey] = true then
          g.indentOrSpace ((if g.sm.State.In [State.ObjectFirstKey] = true then g.indent {} else {}).AddByte 0x2C)
        else (if g.sm.State.In [State.ObjectFirstKey] = true then g.indent {} else {}))
        { Value := key, EscapeHTML := g.json.EscapeHTML }
      obtain ⟨post, hpost⟩ := Builder.build_list (g.space (((if g.sm.State.In [State.ObjectNextKey] = true then
          g.indentOrSpace ((if g.sm.State.In [State.ObjectFirstKey] = true then g.indent {} else {}).AddByte 0x2C)
        else (if g.sm.State.In [State.ObjectFirstKey] = true then g.indent {} else {})).Add
          (some (.StringAppender { Value := key, EscapeHTML := g.json.EscapeHTML }))).AddByte 0x3A))
      refine ⟨pre, post, ?_⟩
      rw [hpost]
      unfold Generator.space
      rw [Format.space_list]
      show _ ++ post = _
      rw [← hpre]
      rfl

/-- C10 (amended): `StringAppender.Append` emits a double quote, then, for each code
point that the `range` loop decodes from the string, in order, its image under the
escape map, then a double quote. The map is the fixed map of the specification,
except that with `EscapeHTML` set the ampersand and the two angle brackets are
written as `\u0026`, `\u003c` and `\u003e`; with the flag clear it is the fixed map
itself. The text between the quotes holds no byte below 0x20 and no byte 0x7F, it
decodes to no control character of U+0000..U+001F or U+007F..U+009F, and it holds
no double quote that a backslash does not escape. `Key` and `StringValue` return
this fragment for their string, with the flag of the generator. -/
theorem StringAppender.append_escapes (a : StringAppender) (out : List Nat) :
    a.Append out =
      out ++ [0x22] ++ (rangeRunes a.Value).flatMap (escapeImageHTML a.EscapeHTML) ++ [0x22] ∧
    (a.EscapeHTML = false →
      a.Append out = out ++ [0x22] ++ (rangeRunes a.Value).flatMap escapeImage ++ [0x22]) ∧
    (∀ b ∈ (rangeRunes a.Value).flatMap (escapeImageHTML a.EscapeHTML), 0x20 ≤ b ∧ b ≠ 0x7F) ∧
    (∀ x ∈ rangeRunes ((rangeRunes a.Value).flatMap (escapeImageHTML a.EscapeHTML)),
      isControl x = false) ∧
    hasBareQuote ((rangeRunes a.Value).flatMap (escapeImageHTML a.EscapeHTML)) = false ∧
    (∀ (g g1 : Generator) (list : List Appender),
      (g.Key a.Value = .ret g1 list ∨ g.StringValue a.Value = .ret g1 list) →
      ∃ pre post, list =
        pre ++ [Appender.StringAppender { Value := a.Value, EscapeHTML := g.json.EscapeHTML }] ++ post) := by
  have hscalar : ∀ r ∈ rangeRunes a.Value, isScalarValue r := rangeRunesFrom_scalar a.Value 0
  have hmain : a.Append out =
      out ++ [0x22] ++ (rangeRunes a.Value).flatMap (escapeImageHTML a.EscapeHTML) ++ [0x22] := by
    unfold StringAppender.Append
    rw [StringAppender.foldl_appendRune a _ _ (fun r hr => (hscalar r hr).2.2)]
  obtain ⟨p1, p2, p3⟩ := escaped_content_props a.EscapeHTML (rangeRunes a.Value) hscalar
  refine ⟨hmain, ?_, fun b hb => ⟨(p1 b hb).1, (p1 b hb).2.1⟩, p2, p3, ?_⟩
  · intro hf
    rw [hmain, hf]
    have : escapeImageHTML false = escapeImage := by
      funext r
      simp [escapeImageHTML]
    rw [this]
  · intro g g1 list h
    rcases h with h | h
    · exact Generator.key_fragment g g1 a.Value list h
    · exact Generator.stringValue_fragment g g1 a.Value list h

/-- Witness of C10: a string with a quote, a backslash, a line feed, a two-byte
code point and an invalid byte, with the HTML flag clear. -/
theorem StringAppender.append_escapes_witness :
    StringAppender.Append { Value := [0x22, 0x5C, 0x0A, 0xC3, 0xA9, 0xFF], EscapeHTML := false } [] =
      [] ++ [0x22] ++ (rangeRunes [0x22, 0x5C, 0x0A, 0xC3, 0xA9, 0xFF]).flatMap escapeImage ++ [0x22] :=
  (StringAppender.append_escapes
    { Value := [0x22, 0x5C, 0x0A, 0xC3, 0xA9, 0xFF], EscapeHTML := false } []).2.1 rfl

/-- Counterexample to C10 as stated: with `EscapeHTML` set, the string `<` is not
written as its own byte between quotes, which is what the fixed map gives, but as
`\u003c`. -/
theorem StringAppender.append_html_counterexample :
    StringAppender.Append { Value := ascii "<", EscapeHTML := true } [] ≠
      [0x22] ++ (rangeRunes (ascii "<")).flatMap escapeImage ++ [0x22] ∧
    [0x22] ++ (rangeRunes (ascii "<")).flatMap escapeImage ++ [0x22] = ascii "\"<\"" ∧
    StringAppender.Append { Value := ascii "<", EscapeHTML := true } [] = ascii "\"\\u003c\"" ∧
    emitDocument { EscapeHTML := true } (.String (ascii "<")) = some (ascii "\"\\u003c\"") := by
  decide


/-! ## Surrogates and the HTML flag -/

/-- C11 (defect of the code): a surrogate never reaches the `\uXXXX` branch of
`StringAppender.Append`. The rune U+D800 passed to `RuneValue` is turned into U+FFFD
by the conversion `string(value)` and comes out as the three bytes EF BF BD between
quotes, and the bytes ED A0 80 of a string come out as three times U+FFFD, where the
specification asks for the six characters `\ud800`. The branch itself, reached with
the code point U+D800, would write `\ud800`. -/
theorem surrogate_is_replaced :
    emitDocument {} (.Rune 0xD800) = some [0x22, 0xEF, 0xBF, 0xBD, 0x22] ∧
    emitDocument {} (.String [0xED, 0xA0, 0x80]) =
      some [0x22, 0xEF, 0xBF, 0xBD, 0xEF, 0xBF, 0xBD, 0xEF, 0xBF, 0xBD, 0x22] ∧
    rangeRunes [0xED, 0xA0, 0x80] = [0xFFFD, 0xFFFD, 0xFFFD] ∧
    runeToString 0xD800 = [0xEF, 0xBF, 0xBD] ∧
    StringAppender.appendRune { Value := [], EscapeHTML := false } [] 0xD800 = ascii "\\ud800" := by
  decide

set_option maxRecDepth 100000 in
theorem escapeImageHTML_small_html : ∀ n : Nat, n < 160 →
    (escapeImageHTML true (n : Int)).all (fun b => b != 0x26 && b != 0x3C && b != 0x3E) = true := by
  decide

theorem escapeImageHTML_no_html_byte (r : Int) (h : isScalarValue r) (b : Nat)
    (hb : b ∈ escapeImageHTML true r) : b ≠ 0x26 ∧ b ≠ 0x3C ∧ b ≠ 0x3E := by
  by_cases hsmall : r < 160
  · obtain ⟨n, rfl⟩ := Int.eq_ofNat_of_zero_le h.1
    have hn : n < 160 := by omega
    have hall := escapeImageHTML_small_html n hn
    rw [List.all_eq_true] at hall
    have := hall b hb
    simp only [Bool.and_eq_true, bne_iff_ne, ne_eq] at this
    exact ⟨this.1.1, this.1.2, this.2⟩
  · have hl : r < 0 ∨ 160 ≤ r := by omega
    rw [escapeImageHTML_large true r hl] at hb
    have := runeToString_large r (by omega) b hb
    omega

theorem StringAppender.append_eq_flatMap (a : StringAppender) (out : List Nat) :
    a.Append out =
      out ++ [0x22] ++ (rangeRunes a.Value).flatMap (escapeImageHTML a.EscapeHTML) ++ [0x22] := by
  have hscalar : ∀ r ∈ rangeRunes a.Value, isScalarValue r := rangeRunesFrom_scalar a.Value 0
  unfold StringAppender.Append
  rw [StringAppender.foldl_appendRune a _ _ (fun r hr => (hscalar r hr).2.2)]

theorem StringAppender.appendRune_flag (s1 s2 : List Nat) (out : List Nat) (r : Int)
    (h1 : r ≠ 0x26) (h2 : r ≠ 0x3C) (h3 : r ≠ 0x3E) :
    StringAppender.appendRune { Value := s1, EscapeHTML := true } out r =
      StringAppender.appendRune { Value := s2, EscapeHTML := false } out r := by
  have hl : stringEscapesHTML.lookup r = none := by
    rw [stringEscapesHTML_lookup]
    have : ¬ (r = 0x26 ∨ r = 0x3C ∨ r = 0x3E) := by omega
    rw [if_neg this]
  simp only [StringAppender.appendRune, hl, if_true]
  rfl

/-- C12: the effect of the `EscapeHTML` flag. With the flag set, the ampersand and
the two angle brackets are written as their six-character unicode escapes, and the
output of `Append` holds none of these three bytes; with the flag clear they are
copied unchanged; every other code point is written the same with either setting.
`Key` and `StringValue` hand the flag of the generator to the fragment. -/
theorem StringAppender.escapeHTML_effect (s : List Nat) :
    (∀ out : List Nat,
      StringAppender.appendRune { Value := s, EscapeHTML := true } out 0x26 = out ++ ascii "\\u0026" ∧
      StringAppender.appendRune { Value := s, EscapeHTML := true } out 0x3C = out ++ ascii "\\u003c" ∧
      StringAppender.appendRune { Value := s, EscapeHTML := true } out 0x3E = out ++ ascii "\\u003e" ∧
      StringAppender.appendRune { Value := s, EscapeHTML := false } out 0x26 = out ++ [0x26] ∧
      StringAppender.appendRune { Value := s, EscapeHTML := false } out 0x3C = out ++ [0x3C] ∧
      StringAppender.appendRune { Value := s, EscapeHTML := false } out 0x3E = out ++ [0x3E]) ∧
    (∀ (out : List Nat) (r : Int), r ≠ 0x26 → r ≠ 0x3C → r ≠ 0x3E →
      StringAppender.appendRune { Value := s, EscapeHTML := true } out r =
        StringAppender.appendRune { Value := s, EscapeHTML := false } out r) ∧
    (∀ b ∈ StringAppender.Append { Value := s, EscapeHTML := true } [],
      b ≠ 0x26 ∧ b ≠ 0x3C ∧ b ≠ 0x3E) ∧
    (∀ html : Bool, StringAppender.Append { Value := s, EscapeHTML := html } [] =
      [0x22] ++ (rangeRunes s).flatMap (fun r =>
        if html = true ∧ (r = 0x26 ∨ r = 0x3C ∨ r = 0x3E) then escapeU00 r else escapeImage r) ++ [0x22]) ∧
    (∀ (g g1 : Generator) (list : List Appender),
      (g.Key s = .ret g1 list ∨ g.StringValue s = .ret g1 list) →
      ∃ pre post, list =
        pre ++ [Appender.StringAppender { Value := s, EscapeHTML := g.json.EscapeHTML }] ++ post) := by
  refine ⟨fun out => ?_, fun out r h1 h2 h3 => StringAppender.appendRune_flag s s out r h1 h2 h3,
    ?_, ?_, ?_⟩
  · refine ⟨?_, ?_, ?_, ?_, ?_, ?_⟩ <;>
      rw [StringAppender.appendRune_eq _ _ _ (by omega)] <;> rfl
  · intro b hb
    rw [StringAppender.append_eq_flatMap] at hb
    simp only [List.nil_append, List.mem_append, List.mem_cons, List.mem_singleton,
      List.not_mem_nil, or_false, List.mem_flatMap] at hb
    rcases hb with (hb | ⟨r, hr, hb⟩) | hb
    · omega
    · exact escapeImageHTML_no_html_byte r (rangeRunesFrom_scalar s 0 r hr) b hb
    · omega
  · intro html
    rw [StringAppender.append_eq_flatMap]
    rfl
  · intro g g1 list h
    rcases h with h | h
    · exact Generator.key_fragment g g1 s list h
    · exact Generator.stringValue_fragment g g1 s list h

/-- Witness of C12: the letter `a` is written the same with either setting. -/
theorem StringAppender.escapeHTML_effect_witness :
    StringAppender.appendRune { Value := ascii "a<b", EscapeHTML := true } [0x22] 0x61 =
      StringAppender.appendRune { Value := ascii "a<b", EscapeHTML := false } [0x22] 0x61 :=
  (StringAppender.escapeHTML_effect (ascii "a<b")).2.1 [0x22] 0x61 (by decide) (by decide) (by decide)

/-! ## Bytes of a list of fragments -/

theorem Appender.append_eq (a : Appender) (out : List Nat) : a.Append out = out ++ a.Append [] := by
  cases a with
  | StringAppender x =>
    simp only [Appender.Append]
    rw [StringAppender.append_eq_flatMap x out, StringAppender.append_eq_flatMap x []]
    simp
  | BytesAppender x => simp [Appender.Append, BytesAppender.Append]
  | BigFloatText x =>
    simp only [Appender.Append, BigFloatText.Append]
    split <;> simp
  | _ => simp [Appender.Append]

theorem appendAll_nil (out : List Nat) : appendAll [] out = out := rfl

theorem appendAll_cons (a : Appender) (list : List Appender) (out : List Nat) :
    appendAll (a :: list) out = appendAll list (a.Append out) := rfl

theorem appendAll_eq (list : List Appender) (out : List Nat) :
    appendAll list out = out ++ appendAll list [] := by
  induction list generalizing out with
  | nil => simp [appendAll_nil]
  | cons a rest ih =>
    rw [appendAll_cons, appendAll_cons, ih (a.Append out), ih (a.Append []), Appender.append_eq a out]
    simp

theorem appendAll_append (l1 l2 : List Appender) (out : List Nat) :
    appendAll (l1 ++ l2) out = appendAll l2 (appendAll l1 out) := by
  simp [appendAll, List.foldl_append]

theorem Builder.flush_bytes (b : Builder) :
    appendAll b.flush.list [] = appendAll b.list [] ++ b.out ∧ b.flush.out = [] := by
  unfold Builder.flush
  split
  · rename_i h
    have : b.out = [] := List.length_eq_zero.1 (by omega)
    simp [this]
  · simp only [appendAll_append, and_true]
    rw [appendAll_cons, appendAll_nil, Appender.Append]

theorem Builder.build_bytes (b : Builder) :
    appendAll b.Build.1 [] = appendAll b.list [] ++ b.out := by
  exact (Builder.flush_bytes b).1

/-- The bytes of the fragments that a builder returns after one more `Add`. -/
theorem Builder.add_build_bytes (b : Builder) (a : Appender) :
    appendAll (b.Add (some a)).Build.1 [] = appendAll b.list [] ++ b.out ++ a.Append [] := by
  rw [Builder.build_bytes]
  cases a with
  | LiteralBytes x => simp [Builder.Add, Builder.AddBytes, Appender.Append]
  | LiteralString x => simp [Builder.Add, Builder.AddString, Appender.Append]
  | _ =>
    simp only [Builder.Add, appendAll_append, (Builder.flush_bytes b).2, List.append_nil]
    rw [appendAll_cons, appendAll_nil, (Builder.flush_bytes b).1, Appender.append_eq]

theorem Builder.indent_list (b : Builder) (tab : Bool) (size count : Nat) :
    (b.Indent tab size count).list = b.list := by
  unfold Builder.Indent
  split <;> rfl

theorem Format.indent_keeps_list (f : Format) (b : Builder) (tabs : Bool) (size count : Nat) :
    (f.indent b tabs size count).list = b.list := by
  unfold Format.indent
  split
  · rw [Builder.indent_list]; rfl
  · rfl

theorem Format.indentOrSpace_list (f : Format) (b : Builder) (tabs : Bool) (size count : Nat) :
    (f.indentOrSpace b tabs size count).list = b.list := by
  unfold Format.indentOrSpace
  split
  · rw [Builder.indent_list]; rfl
  · split <;> rfl

/-- The builder of `Generator.value` just before the fragment is added: it holds
the separator and the indentation as raw bytes and no fragment. -/
theorem Generator.value_shape (g : Generator) :
    ∃ b0 : Builder, b0.list = [] ∧ ∀ a : Appender,
      g.value a =
        match g.sm.ExpectValue with
        | .error p => .panic g p
        | .ok _ =>
          match g.sm.Next with
          | .error p => .panic g p
          | .ok sm => .ret { g with sm := sm } (b0.Add (some a)).Build.1 := by
  refine ⟨if g.sm.State.In [State.ArrayNextValue] = true then
      g.indentOrSpace ((if g.sm.State.In [State.ArrayFirstValue] = true then g.indent {} else {}).AddByte 0x2C)
    else (if g.sm.State.In [State.ArrayFirstValue] = true then g.indent {} else {}), ?_, fun a => rfl⟩
  have h1 : (if g.sm.State.In [State.ArrayFirstValue] = true then g.indent {} else ({} : Builder)).list = [] := by
    split
    · unfold Generator.indent; rw [Format.indent_keeps_list]
    · rfl
  split
  · unfold Generator.indentOrSpace
    rw [Format.indentOrSpace_list]
    exact h1
  · exact h1

/-- In a value state every scalar is preceded by the same separator: the bytes of
`Generator.value` are a text that depends on the generator alone, followed by the
bytes of the fragment. -/
theorem Generator.value_bytes (g : Generator) (h : g.sm.State ∈ valueStates) :
    ∃ (sep : List Nat) (g1 : Generator), ∀ a : Appender, ∃ list,
      g.value a = .ret g1 list ∧ appendAll list [] = sep ++ a.Append [] := by
  obtain ⟨b0, hb0, hv⟩ := Generator.value_shape g
  obtain ⟨s1, hs1⟩ := State.next_of_value _ h
  have he := State.expect_of_mem _ _ h
  simp only [valueStates] at he
  refine ⟨b0.out, { g with sm := { g.sm with State := s1 } }, fun a =>
    ⟨(b0.Add (some a)).Build.1, ?_, ?_⟩⟩
  · rw [hv a]
    simp only [Machine.ExpectValue, Machine.Expect, he, Machine.Next, hs1]
  · rw [Builder.add_build_bytes, hb0]
    simp [appendAll_nil]

/-! ## Scalars that are literals or strings -/

/-- C15: the dispatch of `EmitFloat64` and `EmitFloat32`. A NaN goes to `NaNValue`,
an infinity to `InfValue` with its sign, and only a value that is neither goes to
`FloatValue`, the one call that builds the fragment of the decimal formatter;
`EmitFloat32` converts and does the same. In every format and every state in which
a value is legal, the three literals are the quoted texts NaN, +Inf and -Inf, and
they are preceded by the same bytes as any other scalar fragment in that state. -/
theorem Emitter.emitFloat_dispatch (e : Emitter) (value : Float64) :
    (value.isNaN = true → e.EmitFloat64 value = e.applyCall Generator.NaNValue) ∧
    (value.isNaN = false → value.isInf = true →
      e.EmitFloat64 value = e.applyCall (fun g => g.InfValue value.isNeg)) ∧
    (value.isNaN = false → value.isInf = false →
      e.EmitFloat64 value = e.applyCall (fun g => g.FloatValue value)) ∧
    ((EmitterCall.EmitFloat64 value).generatorCall = Call.FloatValue value ↔
      (value.isNaN = false ∧ value.isInf = false)) ∧
    (∀ x : Float32, e.EmitFloat32 x = e.EmitFloat64 x.toFloat64) ∧
    (e.g.sm.State ∈ valueStates → ∃ (sep : List Nat) (g1 : Generator),
      (∃ l, e.g.NaNValue = .ret g1 l ∧ appendAll l [] = sep ++ ascii "\"NaN\"") ∧
      (∃ l, e.g.InfValue false = .ret g1 l ∧ appendAll l [] = sep ++ ascii "\"+Inf\"") ∧
      (∃ l, e.g.InfValue true = .ret g1 l ∧ appendAll l [] = sep ++ ascii "\"-Inf\"") ∧
      (∃ l, e.g.FloatValue value = .ret g1 l ∧ appendAll l [] = sep ++ value.text) ∧
      (∀ a : Appender, ∃ l, e.g.value a = .ret g1 l ∧ appendAll l [] = sep ++ a.Append [])) := by
  refine ⟨?_, ?_, ?_, ?_, fun x => rfl, ?_⟩
  · intro h
    simp [Emitter.EmitFloat64, h]
  · intro h1 h2
    simp [Emitter.EmitFloat64, h1, h2]
  · intro h1 h2
    simp [Emitter.EmitFloat64, h1, h2]
  · cases h1 : value.isNaN <;> cases h2 : value.isInf <;>
      simp [EmitterCall.generatorCall, h1, h2]
  · intro h
    obtain ⟨sep, g1, hv⟩ := Generator.value_bytes e.g h
    exact ⟨sep, g1, hv _, hv _, hv _, hv _, hv⟩

/-- Witness of C15: a NaN on a fresh emitter. -/
theorem Emitter.emitFloat_dispatch_witness :
    Emitter.EmitFloat64
        { w := Writer.reliable, g := JSON.NewGenerator {}, out := [], err := none, n := 0 }
        { isNaN := true, isInf := false, isNeg := false, text := [] } =
      Emitter.applyCall
        { w := Writer.reliable, g := JSON.NewGenerator {}, out := [], err := none, n := 0 }
        Generator.NaNValue :=
  (Emitter.emitFloat_dispatch
    { w := Writer.reliable, g := JSON.NewGenerator {}, out := [], err := none, n := 0 }
    { isNaN := true, isInf := false, isNeg := false, text := [] }).1 rfl

theorem rangeRunes_runeToString (r : Int) (h : isScalarValue r) :
    rangeRunes (runeToString r) = [r] := by
  by_cases hs : r < 0x80
  · obtain ⟨n, rfl⟩ := Int.eq_ofNat_of_zero_le h.1
    have hn : n < 0x80 := by omega
    have h0 : ¬ ((n : Int) < 0) := by omega
    have hrs : runeToString (n : Int) = [n] := by
      simp only [runeToString, Int.toNat_ofNat, if_neg h0, if_pos hn]
    rw [hrs]
    have := rangeRunesFrom_ascii [n] [] (fun b hb => by rw [List.mem_singleton.1 hb]; exact hn)
    simpa [rangeRunes, rangeRunesFrom] using this
  · have := rangeRunesFrom_runeToString r h (by omega) []
    simpa [rangeRunes, rangeRunesFrom] using this

/-- C16: `ByteValue` and `RuneValue` are `StringValue` of a string of one character.
For every byte `b`, `ByteValue b` is the same result (fragments, state, panic) as
`StringValue` of `string(rune(b))`, a string whose only code point is `b`, written
in two bytes when `b` is 0x80 or above; for every rune `r`, `RuneValue r` is the
same result as `StringValue` of `string(r)`, which for a Unicode scalar value is the
string whose only code point is `r`. The runes a, b, c in a Compact array give
the three quoted letters, the byte 0x0A comes out as the escape of the line feed
and the byte 0xE9 as the two bytes of U+00E9. -/
theorem Generator.byte_rune_are_strings (g : Generator) :
    (∀ b : Nat, g.ByteValue b = g.StringValue (runeToString (b : ℤ))) ∧
    (∀ r : Int, g.RuneValue r = g.StringValue (runeToString r)) ∧
    (∀ b : Nat, b < 256 → rangeRunes (runeToString (b : ℤ)) = [(b : ℤ)]) ∧
    (∀ b : Nat, 0x80 ≤ b → b < 256 → runeToString (b : ℤ) = [0xC0 + b / 64, 0x80 + b % 64]) ∧
    (∀ r : Int, isScalarValue r → rangeRunes (runeToString r) = [r]) ∧
    emitDocument {} (.Array [.Rune 0x61, .Rune 0x62, .Rune 0x63]) = some (ascii "[\"a\",\"b\",\"c\"]") ∧
    emitDocument {} (.Byte 0x0A) = some (ascii "\"\\n\"") ∧
    emitDocument {} (.Byte 0xE9) = some [0x22, 0xC3, 0xA9, 0x22] := by
  refine ⟨fun b => rfl, fun r => rfl, ?_, ?_, rangeRunes_runeToString, by decide, by decide,
    by decide⟩
  · intro b hb
    exact rangeRunes_runeToString _ ⟨by omega, by omega, by omega⟩
  · intro b h1 h2
    have h0 : ¬ ((b : Int) < 0) := by omega
    have h3 : ¬ (b < 0x80) := by omega
    have h4 : b < 0x800 := by omega
    simp only [runeToString, Int.toNat_ofNat, if_neg h0, if_neg h3, if_pos h4]

/-- Witness of C16: the byte 0xE9 is the string of the code point U+00E9. -/
theorem Generator.byte_rune_are_strings_witness :
    rangeRunes (runeToString ((0xE9 : Nat) : ℤ)) = [((0xE9 : Nat) : ℤ)] :=
  (Generator.byte_rune_are_strings (JSON.NewGenerator {})).2.2.1 0xE9 (by decide)

/-- C17: a nil arbitrary-precision number is the null value. For every generator,
`BigIntValue(nil)` and `BigFloatValue(nil)` are the very result of `NullValue()`:
the same fragments, the same new state, the same panic. That result is either the
unexpected-state panic of the Expect check, with the generator unchanged, or a
return whose bytes are a separator and the text null; no pointer is followed. -/
theorem Generator.nil_number_is_null (g : Generator) :
    g.BigIntValue none = g.NullValue ∧
    g.BigFloatValue none = g.NullValue ∧
    (g.BigIntValue none).aborts = g.NullValue.aborts ∧
    (g.BigFloatValue none).aborts = g.NullValue.aborts ∧
    (g.NullValue = .panic g (.unexpectedState g.sm.State.val) ∨
      ∃ (sep : List Nat) (g1 : Generator) (l : List Appender),
        g.NullValue = .ret g1 l ∧ appendAll l [] = sep ++ ascii "null") := by
  refine ⟨rfl, rfl, rfl, rfl, ?_⟩
  by_cases h : g.sm.State ∈ valueStates
  · right
    obtain ⟨sep, g1, hv⟩ := Generator.value_bytes g h
    obtain ⟨l, h1, h2⟩ := hv (.LiteralString (ascii "null"))
    exact ⟨sep, g1, l, h1, h2⟩
  · left
    exact Generator.value_illegal g _ h

/-! ## Buffering -/

theorem Emitter.flush_fields (e : Emitter) :
    e.flush.w.received = e.w.received ++ [e.out] ∧ e.flush.out = [] ∧ e.flush.g = e.g ∧
      e.flush.w.respond = e.w.respond := by
  simp [Emitter.flush, Writer.Write]

/-- C18: the buffering boundary. For an emitter with no recorded error and a
structural or scalar call whose generator call returns, the new pending buffer is
the old one followed by the bytes of the call's fragments. If it holds at least
4096 bytes, the sink receives exactly one more buffer, this whole pending buffer,
and the buffer is empty afterwards; otherwise the sink is as before and the buffer
is the new pending buffer. So the sink is written to if and only if the new pending
buffer holds at least 4096 bytes. A call whose generator call panics leaves sink and
buffer alone. -/
theorem Emitter.buffering_boundary (e : Emitter) (c : EmitterCall) (herr : e.err = none) :
    blockSize = 4096 ∧
    (∀ (g1 : Generator) (list : List Appender), c.generatorCall.run e.g = .ret g1 list →
      ∃ e1, c.run e = .ret e1 () ∧ e1.g = g1 ∧
        appendAll list e.out = e.out ++ appendAll list [] ∧
        (blockSize ≤ (e.out ++ appendAll list []).length →
          e1.w.received = e.w.received ++ [e.out ++ appendAll list []] ∧ e1.out = []) ∧
        ((e.out ++ appendAll list []).length < blockSize →
          e1.w = e.w ∧ e1.out = e.out ++ appendAll list [] ∧ e1.err = none ∧ e1.n = e.n) ∧
        (e1.w.received.length = e.w.received.length + 1 ↔
          blockSize ≤ (e.out ++ appendAll list []).length) ∧
        (e1.w.received = e.w.received ↔ (e.out ++ appendAll list []).length < blockSize)) ∧
    (∀ (g1 : Generator) (p : PanicValue), c.generatorCall.run e.g = .panic g1 p →
      c.run e = .panic { e with g := g1 } p) := by
  refine ⟨rfl, ?_, ?_⟩
  · intro g1 list hcall
    have hnone : e.err.isSome = false := by rw [herr]; rfl
    rw [EmitterCall.run_eq]
    simp only [Emitter.applyCall, hcall]
    rw [← appendAll_eq list e.out]
    by_cases hlen : (appendAll list e.out).length < blockSize
    · refine ⟨_, rfl, ?_, rfl, ?_, ?_, ?_, ?_⟩
      · rw [Emitter.apply_g]
      · intro h; omega
      · intro _
        simp [Emitter.apply, hnone, hlen, herr]
      · simp [Emitter.apply, hnone, hlen]
      · simp [Emitter.apply, hnone, hlen]
    · refine ⟨_, rfl, ?_, rfl, ?_, ?_, ?_, ?_⟩
      · rw [Emitter.apply_g]
      · intro _
        simp [Emitter.apply, hnone, hlen, Emitter.flush, Writer.Write]
      · intro h; omega
      · simp [Emitter.apply, hnone, hlen, Emitter.flush, Writer.Write]
        omega
      · simp [Emitter.apply, hnone, hlen, Emitter.flush, Writer.Write]
  · intro g1 p hcall
    rw [EmitterCall.run_eq]
    simp only [Emitter.applyCall, hcall]

/-- C19: `Flush` never changes the generator and always returns nil. With no
recorded error and a pending buffer that is not empty, the sink receives exactly
one more buffer, the pending bytes, and the buffer is empty afterwards; with no
recorded error and an empty buffer nothing changes at all. -/
theorem Emitter.flush_effect (e : Emitter) :
    e.Flush.1.g = e.g ∧
    (e.err = none → e.out ≠ [] →
      e.Flush.1.w.received = e.w.received ++ [e.out] ∧ e.Flush.1.out = [] ∧
        e.Flush.1.w.respond = e.w.respond) ∧
    (e.err = none → e.out = [] → e.Flush.1 = e) := by
  refine ⟨?_, ?_, ?_⟩
  · unfold Emitter.Flush
    split
    · exact (Emitter.flush_fields e).2.2.1
    · rfl
  · intro herr hout
    have hpos : e.out.length > 0 := List.length_pos.2 hout
    have hnone : e.err.isNone = true := by rw [herr]; rfl
    have hc : e.err.isNone = true ∧ e.out.length > 0 := ⟨hnone, hpos⟩
    simp only [Emitter.Flush, if_pos hc]
    exact ⟨(Emitter.flush_fields e).1, (Emitter.flush_fields e).2.1, (Emitter.flush_fields e).2.2.2⟩
  · intro _ hout
    have hc : ¬ (e.err.isNone = true ∧ e.out.length > 0) := by
      rw [hout]; simp
    simp only [Emitter.Flush, if_neg hc]

/-! ## The sticky failure mode -/

theorem Emitter.apply_of_err (e : Emitter) (list : List Appender) (h : e.err.isSome = true) :
    e.apply list = e := by
  simp [Emitter.apply, h]

theorem Emitter.applyCall_of_err (e : Emitter) (call : Generator → GenResult) (err : IOError)
    (h : e.err = some err) :
    (e.applyCall call).state.w = e.w ∧ (e.applyCall call).state.out = e.out ∧
      (e.applyCall call).state.n = e.n ∧ (e.applyCall call).state.err = some err := by
  unfold Emitter.applyCall
  cases call e.g with
  | panic g p => exact ⟨rfl, rfl, rfl, h⟩
  | ret g list =>
    have hs : ({ e with g := g } : Emitter).err.isSome = true := by
      show e.err.isSome = true
      rw [h]; rfl
    simp only [Result.state]
    rw [Emitter.apply_of_err _ _ hs]
    exact ⟨rfl, rfl, rfl, h⟩

theorem EmitterOp.run_of_err (op : EmitterOp) (e : Emitter) (err : IOError) (h : e.err = some err) :
    (op.run e).w = e.w ∧ (op.run e).out = e.out ∧ (op.run e).n = e.n ∧
      (op.run e).err = some err := by
  cases op with
  | call c =>
    simp only [EmitterOp.run, EmitterCall.run_eq]
    exact Emitter.applyCall_of_err e _ err h
  | Flush =>
    have hc : ¬ (e.err.isNone = true ∧ e.out.length > 0) := by
      rw [h]; simp
    have hf : e.Flush.1 = e := by
      unfold Emitter.Flush
      rw [if_neg hc]
    show e.Flush.1.w = e.w ∧ e.Flush.1.out = e.out ∧ e.Flush.1.n = e.n ∧ e.Flush.1.err = some err
    rw [hf]
    exact ⟨rfl, rfl, rfl, h⟩
  | Close =>
    have hk := Emitter.applyCall_of_err e Generator.End err h
    simp only [EmitterOp.run, Emitter.Close]
    cases hr : e.applyCall Generator.End with
    | panic e1 p =>
      rw [hr] at hk
      exact hk
    | ret e1 u =>
      rw [hr] at hk
      simp only [Result.state] at hk ⊢
      have hn : ¬ (e1.err.isNone = true) := by rw [hk.2.2.2]; simp
      rw [if_neg hn]
      exact hk

/-- C20: the sticky failure mode. A write of the sink that returns an error leaves
the error recorded and the pending buffer empty. From then on, whatever sequence of
structural calls, scalar calls, `Flush` and `Close` follows, whether the calls
return or panic, the sink is exactly as it was (it receives nothing more), the
pending buffer is as it was, `BytesWritten` is as it was and the recorded error is
the same error. -/
theorem Emitter.sticky_failure (e : Emitter) (err : IOError) (ops : List EmitterOp) :
    (e.flush.err = some err → e.flush.out = [] ∧ (runOps ops e.flush).out = [] ∧
      (runOps ops e.flush).w.received = e.w.received ++ [e.out]) ∧
    (e.err = some err →
      (runOps ops e).w = e.w ∧ (runOps ops e).out = e.out ∧
      (runOps ops e).BytesWritten = e.BytesWritten ∧ (runOps ops e).err = some err) := by
  have frame : ∀ (ops : List EmitterOp) (e : Emitter), e.err = some err →
      (runOps ops e).w = e.w ∧ (runOps ops e).out = e.out ∧
      (runOps ops e).n = e.n ∧ (runOps ops e).err = some err := by
    intro ops
    induction ops with
    | nil => intro e h; exact ⟨rfl, rfl, rfl, h⟩
    | cons op rest ih =>
      intro e h
      obtain ⟨h1, h2, h3, h4⟩ := EmitterOp.run_of_err op e err h
      obtain ⟨k1, k2, k3, k4⟩ := ih (op.run e) h4
      simp only [runOps, List.foldl_cons] at k1 k2 k3 k4 ⊢
      exact ⟨k1.trans h1, k2.trans h2, k3.trans h3, k4⟩
  refine ⟨fun h => ?_, fun h => frame ops e h⟩
  obtain ⟨k1, k2, _, _⟩ := frame ops e.flush h
  refine ⟨(Emitter.flush_fields e).2.1, ?_, ?_⟩
  · rw [k2]; exact (Emitter.flush_fields e).2.1
  · rw [k1]; exact (Emitter.flush_fields e).1

/-- Witness of C18: the call `EmitNull` on a fresh emitter over a reliable sink. -/
theorem Emitter.buffering_boundary_witness :
    ∃ e1, EmitterCall.EmitNull.run
        { w := Writer.reliable, g := JSON.NewGenerator {}, out := [], err := none, n := 0 } =
          .ret e1 () ∧ e1.out = ascii "null" ∧ e1.w.received = [] := by
  obtain ⟨e1, h1, _, _, _, h5, _, _⟩ := (Emitter.buffering_boundary
    { w := Writer.reliable, g := JSON.NewGenerator {}, out := [], err := none, n := 0 }
    EmitterCall.EmitNull rfl).2.1 _ _ rfl
  have h6 := h5 (by decide)
  exact ⟨e1, h1, h6.2.1, by rw [h6.1]; rfl⟩

/-- Witness of C19: `Flush` with one pending byte. -/
theorem Emitter.flush_effect_witness :
    (Emitter.Flush
      { w := Writer.reliable, g := JSON.NewGenerator {}, out := [0x41], err := none, n := 0 }).1.w.received
        = [] ++ [[0x41]] :=
  ((Emitter.flush_effect
    { w := Writer.reliable, g := JSON.NewGenerator {}, out := [0x41], err := none, n := 0 }).2.1
    rfl (by decide)).1

/-- Witness of C20: three calls on an emitter that has recorded an error. -/
theorem Emitter.sticky_failure_witness :
    (runOps [EmitterOp.call EmitterCall.EmitNull, EmitterOp.Flush, EmitterOp.Close]
      { w := Writer.reliable, g := JSON.NewGenerator {}, out := [], err := some ⟨5⟩, n := 7 }).err
        = some ⟨5⟩ :=
  ((Emitter.sticky_failure
    { w := Writer.reliable, g := JSON.NewGenerator {}, out := [], err := some ⟨5⟩, n := 7 } ⟨5⟩
    [EmitterOp.call EmitterCall.EmitNull, EmitterOp.Flush, EmitterOp.Close]).2 rfl).2.2.2

/-! ## Reversibility of the escaping -/

theorem jsonUnescape_simple (c x : Nat) (rest : List Nat) (hc : c ≠ 0x75)
    (hx : simpleEscape c = some x) :
    jsonUnescape (0x5C :: c :: rest) = (jsonUnescape rest).map (fun t => x :: t) := by
  rw [jsonUnescape.eq_def]
  simp only [if_true, if_neg hc, hx]

theorem jsonUnescape_unicode (h1 h2 h3 h4 d1 d2 d3 d4 : Nat) (rest : List Nat)
    (e1 : hexVal h1 = some d1) (e2 : hexVal h2 = some d2) (e3 : hexVal h3 = some d3)
    (e4 : hexVal h4 = some d4)
    (hs : ¬ (0xD800 ≤ d1 * 4096 + d2 * 256 + d3 * 16 + d4 ∧ d1 * 4096 + d2 * 256 + d3 * 16 + d4 < 0xE000)) :
    jsonUnescape (0x5C :: 0x75 :: h1 :: h2 :: h3 :: h4 :: rest) =
      (jsonUnescape rest).map
        (fun t => runeToString ((d1 * 4096 + d2 * 256 + d3 * 16 + d4 : Nat) : ℤ) ++ t) := by
  rw [jsonUnescape.eq_def]
  simp only [if_true, e1, e2, e3, e4, if_neg hs]

theorem jsonUnescape_plain_cons (b : Nat) (rest : List Nat) (h1 : b ≠ 0x5C) (h2 : b ≠ 0x22)
    (h3 : 0x20 ≤ b) :
    jsonUnescape (b :: rest) = (jsonUnescape rest).map (fun t => b :: t) := by
  have h4 : ¬ (b = 0x22 ∨ b < 0x20) := by omega
  rw [jsonUnescape.eq_def]
  simp only [if_neg h1, if_neg h4]

theorem jsonUnescape_plain (l rest : List Nat)
    (h : ∀ b ∈ l, b ≠ 0x5C ∧ b ≠ 0x22 ∧ 0x20 ≤ b) :
    jsonUnescape (l ++ rest) = (jsonUnescape rest).map (fun t => l ++ t) := by
  induction l with
  | nil => simp
  | cons b t ih =>
    obtain ⟨h1, h2, h3⟩ := h b (List.mem_cons_self _ _)
    rw [List.cons_append, jsonUnescape_plain_cons b _ h1 h2 h3,
      ih (fun x hx => h x (List.mem_cons_of_mem _ hx))]
    cases jsonUnescape rest <;> simp

theorem hexVal_hexDigit : ∀ d : Nat, d < 16 → hexVal (hexDigit d) = some d := by decide

theorem jsonUnescape_escapeU00 (n : Nat) (hn : n < 256) (rest : List Nat) :
    jsonUnescape (escapeU00 (n : Int) ++ rest) =
      (jsonUnescape rest).map (fun t => runeToString (n : Int) ++ t) := by
  have e0 : hexVal 0x30 = some 0 := by decide
  have e3 := hexVal_hexDigit (n / 16 % 16) (by omega)
  have e4 := hexVal_hexDigit (n % 16) (by omega)
  have hcp : 0 * 4096 + 0 * 256 + n / 16 % 16 * 16 + n % 16 = n := by omega
  have := jsonUnescape_unicode 0x30 0x30 (hexDigit (n / 16 % 16)) (hexDigit (n % 16)) 0 0
    (n / 16 % 16) (n % 16) rest e0 e0 e3 e4 (by omega)
  rw [hcp] at this
  simpa [escapeU00] using this

theorem runeToString_ascii (n : Nat) (hn : n < 0x80) : runeToString (n : Int) = [n] := by
  have h0 : ¬ ((n : Int) < 0) := by omega
  simp only [runeToString, Int.toNat_ofNat, if_neg h0, if_pos hn]

/-- Decoding the image of one scalar value gives back its UTF-8 encoding. -/
theorem jsonUnescape_image (html : Bool) (r : Int) (h : isScalarValue r) (rest : List Nat) :
    jsonUnescape (escapeImageHTML html r ++ rest) =
      (jsonUnescape rest).map (fun t => runeToString r ++ t) := by
  obtain ⟨h0, h1, h2⟩ := h
  obtain ⟨n, rfl⟩ := Int.eq_ofNat_of_zero_le h0
  unfold escapeImageHTML
  split
  · rename_i hh
    exact jsonUnescape_escapeU00 n (by omega) rest
  · unfold escapeImage
    split
    · rename_i hr
      have hn : n = 0x22 := by omega
      subst hn
      exact jsonUnescape_simple 0x22 0x22 rest (by decide) (by decide)
    split
    · rename_i hr
      have hn : n = 0x5C := by omega
      subst hn
      exact jsonUnescape_simple 0x5C 0x5C rest (by decide) (by decide)
    split
    · rename_i hr
      have hn : n = 0x08 := by omega
      subst hn
      exact jsonUnescape_simple 0x62 0x08 rest (by decide) (by decide)
    split
    · rename_i hr
      have hn : n = 0x09 := by omega
      subst hn
      exact jsonUnescape_simple 0x74 0x09 rest (by decide) (by decide)
    split
    · rename_i hr
      have hn : n = 0x0A := by omega
      subst hn
      exact jsonUnescape_simple 0x6E 0x0A rest (by decide) (by decide)
    split
    · rename_i hr
      have hn : n = 0x0C := by omega
      subst hn
      exact jsonUnescape_simple 0x66 0x0C rest (by decide) (by decide)
    split
    · rename_i hr
      have hn : n = 0x0D := by omega
      subst hn
      exact jsonUnescape_simple 0x72 0x0D rest (by decide) (by decide)
    split
    · rename_i hr
      exact jsonUnescape_escapeU00 n (by omega) rest
    · rename_i c1 c2 c3 c4 c5 c6 c7 c8
      apply jsonUnescape_plain
      intro b hb
      by_cases hs : n < 0x80
      · rw [runeToString_ascii n hs, List.mem_singleton] at hb
        subst hb
        omega
      · have := runeToString_large (n : Int) (by omega) b hb
        omega

theorem jsonUnescape_content (html : Bool) (runes : List Int) (h : ∀ r ∈ runes, isScalarValue r) :
    jsonUnescape (runes.flatMap (escapeImageHTML html)) = some (runes.flatMap runeToString) := by
  induction runes with
  | nil => rfl
  | cons r rest ih =>
    rw [List.flatMap_cons, jsonUnescape_image html r (h r (List.mem_cons_self _ _)),
      ih (fun x hx => h x (List.mem_cons_of_mem _ hx))]
    rfl

theorem rangeRunes_flatMap_runeToString (runes : List Int) (h : ∀ r ∈ runes, isScalarValue r) :
    rangeRunes (runes.flatMap runeToString) = runes := by
  induction runes with
  | nil => rfl
  | cons r rest ih =>
    have hr := h r (List.mem_cons_self _ _)
    have ih' := ih (fun x hx => h x (List.mem_cons_of_mem _ hx))
    unfold rangeRunes at ih' ⊢
    rw [List.flatMap_cons]
    by_cases hs : r < 0x80
    · obtain ⟨n, rfl⟩ := Int.eq_ofNat_of_zero_le hr.1
      have hn : n < 0x80 := by omega
      rw [runeToString_ascii n hn,
        rangeRunesFrom_ascii [n] _ (fun b hb => by rw [List.mem_singleton.1 hb]; exact hn), ih']
      rfl
    · rw [rangeRunesFrom_runeToString r hr (by omega), ih']

/-- C13: the escaping is reversible. For every valid UTF-8 string and either setting
of `EscapeHTML`, the output of `StringAppender.Append` is a double quote, a text and
a double quote, and decoding it by the rules of a JSON string literal gives back
exactly the string; hence two valid strings with the same output are the same
string. -/
theorem StringAppender.escape_reversible (s : List Nat) (html : Bool) (h : ValidUTF8 s) :
    jsonStringDecode (StringAppender.Append { Value := s, EscapeHTML := html } []) = some s ∧
    (∃ content, StringAppender.Append { Value := s, EscapeHTML := html } [] =
        [0x22] ++ content ++ [0x22] ∧ jsonUnescape content = some s) ∧
    (∀ s2 : List Nat, ValidUTF8 s2 →
      StringAppender.Append { Value := s2, EscapeHTML := html } [] =
        StringAppender.Append { Value := s, EscapeHTML := html } [] → s2 = s) := by
  have key : ∀ t : List Nat, ValidUTF8 t →
      jsonStringDecode (StringAppender.Append { Value := t, EscapeHTML := html } []) = some t ∧
      (∃ content, StringAppender.Append { Value := t, EscapeHTML := html } [] =
        [0x22] ++ content ++ [0x22] ∧ jsonUnescape content = some t) := by
    intro t ht
    obtain ⟨runes, hr, rfl⟩ := ht
    have hc := jsonUnescape_content html runes hr
    have happ := StringAppender.append_eq_flatMap
      { Value := runes.flatMap runeToString, EscapeHTML := html } []
    simp only [rangeRunes_flatMap_runeToString runes hr] at happ
    refine ⟨?_, _, happ, hc⟩
    rw [happ]
    have hl : (runes.flatMap (escapeImageHTML html) ++ [0x22]).getLast? = some 0x22 := by
      simp
    have hd : (runes.flatMap (escapeImageHTML html) ++ [0x22]).dropLast =
        runes.flatMap (escapeImageHTML html) := List.dropLast_concat
    show jsonStringDecode (0x22 :: (runes.flatMap (escapeImageHTML html) ++ [0x22])) = _
    simp only [jsonStringDecode, hd]
    rw [if_pos ⟨trivial, hl⟩]
    exact hc
  refine ⟨(key s h).1, (key s h).2, ?_⟩
  intro s2 h2 heq
  have d2 := (key s2 h2).1
  rw [heq, (key s h).1] at d2
  exact (Option.some.inj d2).symm

/-- Witness of C13: a string with a quote, the two bytes of U+00E9, the two bytes of
the control character U+0085, an ampersand and a line feed. -/
theorem StringAppender.escape_reversible_witness :
    jsonStringDecode (StringAppender.Append
      { Value := [0x22, 0xC3, 0xA9, 0xC2, 0x85, 0x26, 0x0A], EscapeHTML := true } []) =
      some [0x22, 0xC3, 0xA9, 0xC2, 0x85, 0x26, 0x0A] :=
  (StringAppender.escape_reversible [0x22, 0xC3, 0xA9, 0xC2, 0x85, 0x26, 0x0A] true
    ⟨[0x22, 0xE9, 0x85, 0x26, 0x0A], by simp [isScalarValue], by decide⟩).1

/-! ## Base64 -/

theorem base64Val_base64Char : ∀ n : Nat, n < 64 →
    base64Val (base64Char n) = some n ∧ base64Char n ≠ 0x3D := by
  decide

theorem BytesAppender.chunks_cons3 (a b c : Nat) (rest : List Nat) :
    BytesAppender.chunks (a :: b :: c :: rest) =
      base64Encode [a, b, c] ++ BytesAppender.chunks rest := by
  rw [BytesAppender.chunks]

theorem sextets_cons6 (b0 b1 b2 b3 b4 b5 : Nat) (rest : List Nat) :
    sextets (b0 :: b1 :: b2 :: b3 :: b4 :: b5 :: rest) =
      bitsValue [b0, b1, b2, b3, b4, b5] :: sextets rest := by
  rw [sextets]

/-- The characters of the sextets of a byte string. -/
theorem sextets_three (a b c : Nat) (rest : List Nat) (ha : a < 256) (hb : b < 256)
    (hc : c < 256) :
    sextets ((a :: b :: c :: rest).flatMap byteBits) =
      [a / 4, a % 4 * 16 + b / 16, b % 16 * 4 + c / 64, c % 64] ++ sextets (rest.flatMap byteBits) := by
  simp only [List.flatMap_cons, byteBits, List.cons_append, List.nil_append, sextets_cons6,
    bitsValue, List.foldl_cons, List.foldl_nil]
  have e0 : 2 * (2 * (2 * (2 * (2 * (2 * 0 + a / 128 % 2) + a / 64 % 2) + a / 32 % 2) + a / 16 % 2) +
      a / 8 % 2) + a / 4 % 2 = a / 4 := by omega
  have e1 : 2 * (2 * (2 * (2 * (2 * (2 * 0 + a / 2 % 2) + a % 2) + b / 128 % 2) + b / 64 % 2) +
      b / 32 % 2) + b / 16 % 2 = a % 4 * 16 + b / 16 := by omega
  have e2 : 2 * (2 * (2 * (2 * (2 * (2 * 0 + b / 8 % 2) + b / 4 % 2) + b / 2 % 2) + b % 2) +
      c / 128 % 2) + c / 64 % 2 = b % 16 * 4 + c / 64 := by omega
  have e3 : 2 * (2 * (2 * (2 * (2 * (2 * 0 + c / 32 % 2) + c / 16 % 2) + c / 8 % 2) + c / 4 % 2) +
      c / 2 % 2) + c % 2 = c % 64 := by omega
  rw [e0, e1, e2, e3]

theorem base64Text_nil : base64Text [] = [] := by decide

theorem base64Text_one (a : Nat) (ha : a < 256) : base64Text [a] = base64Encode [a] := by
  simp [base64Text, byteBits, sextets, bitsValue, base64Encode]
  refine ⟨?_, ?_⟩ <;> congr 1 <;> omega

theorem base64Text_two (a b : Nat) (ha : a < 256) (hb : b < 256) :
    base64Text [a, b] = base64Encode [a, b] := by
  simp [base64Text, byteBits, sextets, bitsValue, base64Encode]
  refine ⟨?_, ?_, ?_⟩ <;> congr 1 <;> omega

theorem base64Text_three (a b c : Nat) (rest : List Nat) (ha : a < 256) (hb : b < 256)
    (hc : c < 256) :
    base64Text (a :: b :: c :: rest) = base64Encode [a, b, c] ++ base64Text rest := by
  unfold base64Text
  rw [sextets_three a b c rest ha hb hc]
  simp only [List.map_append, List.map_cons, List.map_nil, List.length_append, List.length_cons,
    List.length_nil, base64Encode, List.append_assoc]
  have : (0 + 1 + 1 + 1 + 1 + (List.map base64Char (sextets (rest.flatMap byteBits))).length) % 4 =
      (List.map base64Char (sextets (rest.flatMap byteBits))).length % 4 := by omega
  rw [this]

theorem BytesAppender.chunks_eq_base64Text : ∀ (n : Nat) (v : List Nat), v.length ≤ n →
    (∀ b ∈ v, b < 256) → BytesAppender.chunks v = base64Text v := by
  intro n
  induction n using Nat.strong_induction_on with
  | _ n ih =>
    intro v hlen hv
    match v, hlen, hv with
    | [], _, _ => rw [base64Text_nil]; rfl
    | [a], _, hv => rw [base64Text_one a (hv a (by simp))]; rfl
    | [a, b], _, hv => rw [base64Text_two a b (hv a (by simp)) (hv b (by simp))]; rfl
    | a :: b :: c :: rest, hlen, hv =>
      rw [BytesAppender.chunks_cons3, base64Text_three a b c rest (hv a (by simp)) (hv b (by simp))
        (hv c (by simp))]
      simp only [List.length_cons] at hlen
      rw [ih (n - 3) (by omega) rest (by omega) (fun x hx => hv x (by simp [hx]))]

theorem BytesAppender.chunks_length : ∀ (n : Nat) (v : List Nat), v.length ≤ n →
    (BytesAppender.chunks v).length = 4 * ((v.length + 2) / 3) := by
  intro n
  induction n using Nat.strong_induction_on with
  | _ n ih =>
    intro v hlen
    match v, hlen with
    | [], _ => rfl
    | [a], _ => simp [BytesAppender.chunks, base64Encode]
    | [a, b], _ => simp [BytesAppender.chunks, base64Encode]
    | a :: b :: c :: rest, hlen =>
      simp only [List.length_cons] at hlen
      rw [BytesAppender.chunks_cons3, List.length_append, ih (n - 3) (by omega) rest (by omega)]
      simp only [base64Encode, List.length_cons, List.length_nil]
      omega

theorem base64Decode_three (a b c : Nat) (rest : List Nat) (ha : a < 256) (hb : b < 256)
    (hc : c < 256) :
    base64Decode (base64Encode [a, b, c] ++ rest) =
      (base64Decode rest).map (fun t => [a, b, c] ++ t) := by
  obtain ⟨v0, n0⟩ := base64Val_base64Char (a / 4) (by omega)
  obtain ⟨v1, n1⟩ := base64Val_base64Char (a % 4 * 16 + b / 16) (by omega)
  obtain ⟨v2, n2⟩ := base64Val_base64Char (b % 16 * 4 + c / 64) (by omega)
  obtain ⟨v3, n3⟩ := base64Val_base64Char (c % 64) (by omega)
  have c2 : ¬ (base64Char (b % 16 * 4 + c / 64) = 0x3D ∧ base64Char (c % 64) = 0x3D ∧ rest = []) :=
    fun h => n2 h.1
  have c3 : ¬ (base64Char (c % 64) = 0x3D ∧ rest = []) := fun h => n3 h.1
  have e0 : a / 4 * 4 + (a % 4 * 16 + b / 16) / 16 = a := by omega
  have e1 : (a % 4 * 16 + b / 16) % 16 * 16 + (b % 16 * 4 + c / 64) / 4 = b := by omega
  have e2 : (b % 16 * 4 + c / 64) % 4 * 64 + c % 64 = c := by omega
  simp only [base64Encode, List.cons_append, List.nil_append]
  rw [base64Decode]
  simp only [v0, v1, v2, v3, if_neg c2, if_neg c3, e0, e1, e2]
  rfl

theorem base64Decode_chunks : ∀ (n : Nat) (v : List Nat), v.length ≤ n →
    (∀ b ∈ v, b < 256) → base64Decode (BytesAppender.chunks v) = some v := by
  intro n
  induction n using Nat.strong_induction_on with
  | _ n ih =>
    intro v hlen hv
    match v, hlen, hv with
    | [], _, _ => rfl
    | [a], _, hv =>
      have ha : a < 256 := hv a (by simp)
      obtain ⟨v0, _⟩ := base64Val_base64Char (a / 4) (by omega)
      obtain ⟨v1, _⟩ := base64Val_base64Char (a % 4 * 16) (by omega)
      have e0 : a / 4 * 4 + a % 4 * 16 / 16 = a := by omega
      simp [BytesAppender.chunks, base64Encode, base64Decode, v0, v1, e0]
      omega
    | [a, b], _, hv =>
      have ha : a < 256 := hv a (by simp)
      have hb : b < 256 := hv b (by simp)
      obtain ⟨v0, _⟩ := base64Val_base64Char (a / 4) (by omega)
      obtain ⟨v1, _⟩ := base64Val_base64Char (a % 4 * 16 + b / 16) (by omega)
      obtain ⟨v2, n2⟩ := base64Val_base64Char (b % 16 * 4) (by omega)
      have e0 : a / 4 * 4 + (a % 4 * 16 + b / 16) / 16 = a := by omega
      have e1 : (a % 4 * 16 + b / 16) % 16 * 16 + b % 16 * 4 / 4 = b := by omega
      simp [BytesAppender.chunks, base64Encode, base64Decode, v0, v1, v2, n2, e0, e1]
      omega
    | a :: b :: c :: rest, hlen, hv =>
      simp only [List.length_cons] at hlen
      rw [BytesAppender.chunks_cons3, base64Decode_three a b c _ (hv a (by simp)) (hv b (by simp))
        (hv c (by simp)), ih (n - 3) (by omega) rest (by omega) (fun x hx => hv x (by simp [hx]))]
      rfl

/-- C14: `BytesAppender.Append` emits a double quote, the base64 text of the value
and a double quote, and the text is 4 * ceil(len / 3) bytes long. For a value whose
elements are bytes, the text written chunk by chunk is the standard padded base64
encoding of the whole value taken in one piece, and decoding it gives back the
value. The value abc is written as YWJj between quotes. -/
theorem BytesAppender.append_base64 (a : BytesAppender) (out : List Nat) :
    a.Append out = out ++ [0x22] ++ BytesAppender.chunks a.Value ++ [0x22] ∧
    (BytesAppender.chunks a.Value).length = 4 * ((a.Value.length + 2) / 3) ∧
    (a.Append []).length = 4 * ((a.Value.length + 2) / 3) + 2 ∧
    ((∀ b ∈ a.Value, b < 256) →
      BytesAppender.chunks a.Value = base64Text a.Value ∧
      a.Append out = out ++ [0x22] ++ base64Text a.Value ++ [0x22] ∧
      base64Decode (BytesAppender.chunks a.Value) = some a.Value) ∧
    BytesAppender.Append { Value := ascii "abc" } [] = ascii "\"YWJj\"" ∧
    BytesAppender.Append { Value := [] } [] = ascii "\"\"" := by
  have hlen := BytesAppender.chunks_length a.Value.length a.Value (Nat.le_refl _)
  refine ⟨rfl, hlen, ?_, ?_, by decide, by decide⟩
  · simp only [BytesAppender.Append, List.nil_append, List.length_append, List.length_cons,
      List.length_nil, hlen]
    omega
  · intro hv
    have h1 := BytesAppender.chunks_eq_base64Text a.Value.length a.Value (Nat.le_refl _) hv
    refine ⟨h1, ?_, base64Decode_chunks a.Value.length a.Value (Nat.le_refl _) hv⟩
    rw [← h1]
    rfl

/-- Witness of C14: five bytes, a length that is not a multiple of three. -/
theorem BytesAppender.append_base64_witness :
    BytesAppender.chunks [0x00, 0xFF, 0x10, 0x80, 0x7F] = base64Text [0x00, 0xFF, 0x10, 0x80, 0x7F] ∧
    BytesAppender.Append { Value := [0x00, 0xFF, 0x10, 0x80, 0x7F] } [0x3A] =
      [0x3A] ++ [0x22] ++ base64Text [0x00, 0xFF, 0x10, 0x80, 0x7F] ++ [0x22] ∧
    base64Decode (BytesAppender.chunks [0x00, 0xFF, 0x10, 0x80, 0x7F]) =
      some [0x00, 0xFF, 0x10, 0x80, 0x7F] :=
  (BytesAppender.append_base64 { Value := [0x00, 0xFF, 0x10, 0x80, 0x7F] } [0x3A]).2.2.2.1
    (by decide)

/-! ## Close and Flush after a failure, dispatch of Emit -/

/-- C21, as amended: `Close` on an emitter that has recorded a sink error. When the
document is complete (the generator is in state `End`), wherever in the document the
failure happened, `Close` returns the remembered error, writes nothing and leaves
the buffer and `BytesWritten` as they were. In every other state `Close` panics with
the unexpected-state error of `End` before it returns anything, and the emitter is
as it was. -/
theorem Emitter.close_returns_error (e : Emitter) (x : IOError) (h : e.err = some x) :
    (e.g.sm.State = State.End →
      ∃ e1, e.Close = .ret e1 (some x) ∧ e1.err = some x ∧ e1.w = e.w ∧ e1.out = e.out ∧
        e1.BytesWritten = e.BytesWritten) ∧
    (e.g.sm.State ≠ State.End →
      e.Close = .panic e (.unexpectedState e.g.sm.State.val)) := by
  constructor
  · intro hs
    have hex : e.g.sm.ExpectEnd = .ok () := State.expect_of_mem _ _ (by rw [hs]; simp)
    simp only [Emitter.Close, Emitter.applyCall, Generator.End, hex, Emitter.apply, h,
      Option.isSome_some, if_true, Option.isNone_some, Bool.false_eq_true, if_false]
    exact ⟨_, rfl, rfl, rfl, rfl, rfl⟩
  · intro hs
    have hex : e.g.sm.ExpectEnd = .error (.unexpectedState e.g.sm.State.val) :=
      State.expect_of_not_mem _ _ (by simpa using hs)
    simp only [Emitter.Close, Emitter.applyCall, Generator.End, hex]

/-- Witness of C21: an emitter at the end of its document with error 5 recorded. -/
theorem Emitter.close_returns_error_witness :
    ∃ e1, Emitter.Close {
        w := Writer.reliable, g := { json := {}, sm := { Stack := [], State := State.End } },
        out := [], err := some ⟨5⟩, n := 0 } = .ret e1 (some ⟨5⟩) ∧ e1.err = some ⟨5⟩ := by
  obtain ⟨e1, h1, h2, _⟩ := (Emitter.close_returns_error {
        w := Writer.reliable, g := { json := {}, sm := { Stack := [], State := State.End } },
        out := [], err := some ⟨5⟩, n := 0 } ⟨5⟩ rfl).1 rfl
  exact ⟨e1, h1, h2⟩

/-- Counterexample to C21 as stated: over a sink whose writes fail, `StartArray`,
`EmitNull` and `Flush` leave the error recorded inside the open array; `Close`
called there panics and returns no error. -/
theorem Emitter.close_midDocument_counterexample :
    (runOps [EmitterOp.call EmitterCall.StartArray, EmitterOp.call EmitterCall.EmitNull,
        EmitterOp.Flush]
      { w := Writer.broken ⟨1⟩, g := JSON.NewGenerator {}, out := [], err := none, n := 0 }).err
        = some ⟨1⟩ ∧
    (Emitter.Close (runOps [EmitterOp.call EmitterCall.StartArray,
        EmitterOp.call EmitterCall.EmitNull, EmitterOp.Flush]
      { w := Writer.broken ⟨1⟩, g := JSON.NewGenerator {}, out := [], err := none, n := 0 })).aborts
        = true ∧
    (Emitter.Close (runOps [EmitterOp.call EmitterCall.StartArray,
        EmitterOp.call EmitterCall.EmitNull, EmitterOp.Flush]
      { w := Writer.broken ⟨1⟩, g := JSON.NewGenerator {}, out := [], err := none, n := 0 })).value?
        = none := by
  decide

/-- C22: the error that `Flush` returns is nil for every emitter. Over a sink whose
writes fail, `StartArray` buffers one byte, `Flush` writes it, the write fails and
the error is recorded, and yet that `Flush` and the `Flush` after it both return
nil. -/
theorem Emitter.flush_returns_nil :
    (∀ e : Emitter, e.Flush.2 = none) ∧
    (runOps [EmitterOp.call EmitterCall.StartArray]
      { w := Writer.broken ⟨1⟩, g := JSON.NewGenerator {}, out := [], err := none, n := 0 }).out
        = [0x5B] ∧
    (Emitter.Flush (runOps [EmitterOp.call EmitterCall.StartArray]
      { w := Writer.broken ⟨1⟩, g := JSON.NewGenerator {}, out := [], err := none, n := 0 })).1.err
        = some ⟨1⟩ ∧
    (Emitter.Flush (runOps [EmitterOp.call EmitterCall.StartArray]
      { w := Writer.broken ⟨1⟩, g := JSON.NewGenerator {}, out := [], err := none, n := 0 })).2
        = none ∧
    (Emitter.Flush (Emitter.Flush (runOps [EmitterOp.call EmitterCall.StartArray]
      { w := Writer.broken ⟨1⟩, g := JSON.NewGenerator {}, out := [], err := none, n := 0 })).1).2
        = none := by
  refine ⟨fun e => ?_, by decide, by decide, by decide, by decide⟩
  unfold Emitter.Flush
  split_ifs <;> rfl

/-- C23: `Emit` of the zero `reflect.Value`, whose dynamic type is none of the
supported kinds, panics with the error that `reflect.Value.Type` raises on the zero
Value and not with the not-implemented error of `EmitReflected`. On a valid
`reflect.Value` and on a value of any other unsupported type the panic is the
not-implemented error. In all three cases the emitter at the panic is the emitter
before the call: buffer, sink, byte count, recorded error and generator are
untouched. -/
theorem Emitter.emit_zero_reflectValue :
    Any.supported (.reflectValue .zero) = false ∧
    (∀ e : Emitter, e.Emit (.reflectValue .zero) = .panic e .reflectValueError) ∧
    PanicValue.reflectValueError ≠ PanicValue.notImplemented ∧
    (∀ (e : Emitter) (typeName : List Nat),
      e.Emit (.reflectValue (.valid typeName)) = .panic e .notImplemented) ∧
    (∀ (e : Emitter) (typeName : List Nat),
      e.Emit (.other typeName) = .panic e .notImplemented) ∧
    Emitter.Emit
      { w := Writer.reliable, g := JSON.NewGenerator {}, out := [], err := none, n := 0 }
      (.reflectValue .zero) =
        .panic { w := Writer.reliable, g := JSON.NewGenerator {}, out := [], err := none, n := 0 }
          .reflectValueError :=
  ⟨rfl, fun _ => rfl, by decide, fun _ _ => rfl, fun _ _ => rfl, rfl⟩

/-- C24: for every emitter, `Emit` of a supported value is the typed call of its
kind: nil is `EmitNull`, a `Value` its `EmitTo`, a bool `EmitBool`, every signed
width `EmitInt64` of the same number, every unsigned width, `uint8` included,
`EmitUint64` of the same number, a `*big.Int` `EmitBigInt`, a `float64` `EmitFloat64`,
a `float32` `EmitFloat64` of its conversion, a `*big.Float` `EmitBigFloat`, a string
`EmitString` and a `[]byte` `EmitBytes`. -/
theorem Emitter.emit_dispatch (e : Emitter) :
    e.Emit .nil = e.EmitNull ∧
    (∀ x, e.Emit (.value x) = x.EmitTo e) ∧
    (∀ x, e.Emit (.bool x) = e.EmitBool x) ∧
    (∀ x, e.Emit (.int64 x) = e.EmitInt64 x) ∧
    (∀ x, e.Emit (.int32 x) = e.EmitInt64 x) ∧
    (∀ x, e.Emit (.int16 x) = e.EmitInt64 x) ∧
    (∀ x, e.Emit (.int8 x) = e.EmitInt64 x) ∧
    (∀ x, e.Emit (.int x) = e.EmitInt64 x) ∧
    (∀ x, e.Emit (.uint64 x) = e.EmitUint64 x) ∧
    (∀ x, e.Emit (.uint32 x) = e.EmitUint64 x) ∧
    (∀ x, e.Emit (.uint16 x) = e.EmitUint64 x) ∧
    (∀ x, e.Emit (.uint8 x) = e.EmitUint64 x) ∧
    (∀ x, e.Emit (.uint x) = e.EmitUint64 x) ∧
    (∀ x, e.Emit (.bigInt x) = e.EmitBigInt x) ∧
    (∀ x, e.Emit (.float64 x) = e.EmitFloat64 x) ∧
    (∀ x, e.Emit (.float32 x) = e.EmitFloat64 x.toFloat64) ∧
    (∀ x, e.Emit (.bigFloat x) = e.EmitBigFloat x) ∧
    (∀ x, e.Emit (.string x) = e.EmitString x) ∧
    (∀ x, e.Emit (.bytes x) = e.EmitBytes x) :=
  ⟨rfl, fun _ => rfl, fun _ => rfl, fun _ => rfl, fun _ => rfl, fun _ => rfl, fun _ => rfl,
    fun _ => rfl, fun _ => rfl, fun _ => rfl, fun _ => rfl, fun _ => rfl, fun _ => rfl,
    fun _ => rfl, fun _ => rfl, fun _ => rfl, fun _ => rfl, fun _ => rfl, fun _ => rfl⟩

/-! ## Reset, the builder and the stack -/

theorem Emitter.new_ok (w : Writer) (g : Generator) :
    Emitter.New (some w) (some g) = .ok { w := w, g := g.Reset, out := [], err := none, n := 0 } :=
  rfl

theorem Emitter.resetAndEmit_document (e : Emitter) (json : JSON) (v : Value) :
    (e.resetAndEmit Writer.reliable json.NewGenerator v).map (fun e2 => e2.w.received.flatten) =
      emitDocument json v := by
  simp only [Emitter.resetAndEmit, emitDocument, Emitter.reset_ok, Emitter.new_ok]
  cases v.EmitTo { w := Writer.reliable, g := json.NewGenerator.Reset, out := [], err := none, n := 0 } with
  | panic e1 p => rfl
  | ret e1 u =>
    simp only []
    cases e1.Close with
    | panic e2 p => rfl
    | ret e2 r => rfl

theorem Emitter.resetAndEmit_eq (e e1 : Emitter) (w : Writer) (g : Generator) (sm : Machine)
    (v : Value) :
    e1.resetAndEmit w { json := g.json, sm := sm } v = e.resetAndEmit w g v := by
  simp only [Emitter.resetAndEmit, Emitter.reset_ok]
  rfl

theorem Emitter.resetAndEmit_some (e : Emitter) (w : Writer) (g : Generator) (v : Value) :
    ∃ e2, e.resetAndEmit w g v = some e2 := by
  obtain ⟨e1, s1, h1, h2, h3, h4, _⟩ := Value.emitTo_matched v
    { w := w, g := g.Reset, out := [], err := none, n := 0 } (List.mem_cons_self _ _)
  have hs1 : s1 = State.End := by
    have : (State.Root).Next = .ok s1 := h2
    injection this with this
    exact this.symm
  obtain ⟨e2, err, h5⟩ := Emitter.close_ok e1 (by rw [h3, hs1])
  exact ⟨e2, by simp only [Emitter.resetAndEmit, Emitter.reset_ok, h1, h5]⟩

/-- C25: `Reset` gives a fresh document. From every emitter, `Reset(w, g)` returns
with the state machine at `Root` over an empty stack, the buffer empty,
`BytesWritten` zero, no recorded error, the sink as it was handed in and the
configuration of `g`. Emitting a value and closing after such a reset returns, and
doing the same again on the emitter that results, with the sink in the same
starting condition and a generator of the same configuration, ends in the very same
emitter, so the sink holds the same bytes both times; over a reliable sink these are
the bytes a new emitter delivers. -/
theorem Emitter.reset_fresh_document (e : Emitter) (w : Writer) (g : Generator) (v : Value) :
    (∃ e1, e.Reset (some w) (some g) = .ret e1 () ∧ e1.g.sm.State = State.Root ∧
      e1.g.sm.Stack = [] ∧ e1.out = [] ∧ e1.BytesWritten = 0 ∧ e1.err = none ∧ e1.w = w ∧
      e1.g.json = g.json) ∧
    (∃ e2, e.resetAndEmit w g v = some e2 ∧
      ∀ sm : Machine, e2.resetAndEmit w { json := g.json, sm := sm } v = some e2) ∧
    (e.resetAndEmit Writer.reliable g v).map (fun e2 => e2.w.received.flatten) =
      emitDocument g.json v := by
  refine ⟨⟨_, Emitter.reset_ok e w g, rfl, rfl, rfl, rfl, rfl, rfl, rfl⟩, ?_, ?_⟩
  · obtain ⟨e2, h⟩ := Emitter.resetAndEmit_some e w g v
    exact ⟨e2, h, fun sm => (Emitter.resetAndEmit_eq e e2 w g sm v).trans h⟩
  · rw [← Emitter.resetAndEmit_document e g.json v]
    exact congrArg _ (Emitter.resetAndEmit_eq e e Writer.reliable g _ v).symm

/-- C26: when `count * size1` does not overflow a `uint`, where `size1` is `size` if
it is positive and otherwise 1 for tabs and 2 for spaces, `Indent` appends exactly
`count * size1` copies of the unit (tab or space) to the pending bytes and leaves
the fragment list alone; with count 0 the builder is unchanged. -/
theorem Builder.indent_appends (b : Builder) (tab : Bool) (size count : Nat)
    (h : count * (if size = 0 then (if tab then 1 else 2) else size) < 2 ^ 64) :
    b.Indent tab size count =
      { list := b.list,
        out := b.out ++ List.replicate
          (count * (if size = 0 then (if tab then 1 else 2) else size))
          (if tab then 0x09 else 0x20) } ∧
    b.Indent tab size 0 = b := by
  constructor
  · unfold Builder.Indent
    by_cases hc : count ≤ 0
    · have : count = 0 := by omega
      subst this
      simp
    · rw [if_neg hc]
      have hs : (if size ≤ 0 then (if tab then 1 else 2) else size) =
          (if size = 0 then (if tab then 1 else 2) else size) := by
        by_cases h0 : size = 0
        · simp [h0]
        · rw [if_neg h0, if_neg (by omega)]
      simp only [hs, Nat.mod_eq_of_lt h]
  · simp [Builder.Indent]

/-- Witness of C26: three levels of the default indent of two spaces. -/
theorem Builder.indent_appends_witness :
    Builder.Indent { list := [], out := [0x5B] } false 0 3 =
      { list := [], out := [0x5B] ++ List.replicate (3 * (if 0 = 0 then (if false then 1 else 2) else 0))
          (if false then 0x09 else 0x20) } :=
  (Builder.indent_appends { list := [], out := [0x5B] } false 0 3 (by decide)).1

theorem noAdjacentLiterals_concat (l : List Appender) (x : Appender) :
    noAdjacentLiterals (l ++ [x]) =
      (noAdjacentLiterals l && !(lastIsLiteral l && x.isLiteral)) := by
  induction l with
  | nil => simp [noAdjacentLiterals, lastIsLiteral]
  | cons a t ih =>
    cases t with
    | nil => simp [noAdjacentLiterals, lastIsLiteral]
    | cons b t1 =>
      have hl : lastIsLiteral (a :: b :: t1) = lastIsLiteral (b :: t1) := by
        simp [lastIsLiteral, List.getLast?_cons_cons]
      have hc : (a :: b :: t1) ++ [x] = a :: b :: (t1 ++ [x]) := rfl
      rw [hc, noAdjacentLiterals, hl]
      rw [show b :: (t1 ++ [x]) = (b :: t1) ++ [x] from rfl, ih]
      simp only [noAdjacentLiterals, Bool.and_assoc]

theorem lastIsLiteral_concat (l : List Appender) (x : Appender) :
    lastIsLiteral (l ++ [x]) = x.isLiteral := by
  simp [lastIsLiteral]

theorem Builder.flush_list (b : Builder) :
    b.flush.list = if b.out = [] then b.list else b.list ++ [Appender.LiteralString b.out] := by
  unfold Builder.flush
  by_cases h : b.out = []
  · simp [h]
  · have : ¬ b.out.length ≤ 0 := by
      intro hl
      exact h (List.length_eq_zero.1 (by omega))
    rw [if_neg this, if_neg h]

theorem Builder.add_typed_list (b : Builder) (a : Appender) (h : a.isLiteral = false) :
    (b.Add (some a)).list = b.flush.list ++ [a] := by
  cases a <;> first | rfl | simp [Appender.isLiteral] at h

/-- The invariant of the fragment list while a builder is in use. -/
theorem BuilderOp.run_inv (op : BuilderOp) (b : Builder) (k : Nat)
    (h1 : noAdjacentLiterals b.list = true) (h2 : ∀ a ∈ b.list, a.isEmptyLiteral = false)
    (h3 : lastIsLiteral b.list = false) (h4 : b.list.length ≤ 2 * k) :
    noAdjacentLiterals (op.run b).list = true ∧
      (∀ a ∈ (op.run b).list, a.isEmptyLiteral = false) ∧
      lastIsLiteral (op.run b).list = false ∧
      (op.run b).list.length ≤ 2 * (k + if op.isTyped then 1 else 0) := by
  have same : ∀ b1 : Builder, b1.list = b.list →
      noAdjacentLiterals b1.list = true ∧ (∀ a ∈ b1.list, a.isEmptyLiteral = false) ∧
      lastIsLiteral b1.list = false ∧ b1.list.length ≤ 2 * (k + 0) := by
    intro b1 hb
    rw [hb]
    exact ⟨h1, h2, h3, h4⟩
  by_cases ht : op.isTyped = true
  · rw [if_pos ht]
    cases op with
    | Add a =>
      cases a with
      | none => simp [BuilderOp.isTyped] at ht
      | some a =>
        have hl : a.isLiteral = false := by simpa [BuilderOp.isTyped] using ht
        have he : a.isEmptyLiteral = false := by
          cases a <;> first | rfl | simp [Appender.isLiteral] at hl
        simp only [BuilderOp.run, Builder.add_typed_list b a hl, Builder.flush_list]
        by_cases ho : b.out = []
        · simp only [if_pos ho]
          refine ⟨?_, ?_, ?_, ?_⟩
          · rw [noAdjacentLiterals_concat, h1, h3]; rfl
          · intro x hx
            rcases List.mem_append.1 hx with hx | hx
            · exact h2 x hx
            · rw [List.mem_singleton.1 hx]; exact he
          · rw [lastIsLiteral_concat]; exact hl
          · simp only [List.length_append, List.length_singleton]; omega
        · simp only [if_neg ho]
          refine ⟨?_, ?_, ?_, ?_⟩
          · rw [noAdjacentLiterals_concat, noAdjacentLiterals_concat, h1, h3, hl]; simp
          · intro x hx
            rcases List.mem_append.1 hx with hx | hx
            · rcases List.mem_append.1 hx with hx | hx
              · exact h2 x hx
              · rw [List.mem_singleton.1 hx]
                simpa [Appender.isEmptyLiteral] using ho
            · rw [List.mem_singleton.1 hx]; exact he
          · rw [lastIsLiteral_concat]; exact hl
          · simp only [List.length_append, List.length_singleton]; omega
    | _ => simp [BuilderOp.isTyped] at ht
  · rw [if_neg ht]
    cases op with
    | Add a =>
      cases a with
      | none => exact same _ rfl
      | some a =>
        have hl : a.isLiteral = true := by simpa [BuilderOp.isTyped] using ht
        cases a <;> first | exact same _ rfl | simp [Appender.isLiteral] at hl
    | AddBytes buf => exact same _ rfl
    | AddString str => exact same _ rfl
    | AddByte ch => exact same _ rfl
    | AddRune ch => exact same _ rfl
    | Indent tab size count => exact same _ (Builder.indent_list b tab size count)

theorem typedCount_cons (op : BuilderOp) (ops : List BuilderOp) :
    typedCount (op :: ops) = (if op.isTyped then 1 else 0) + typedCount ops := by
  unfold typedCount
  by_cases h : op.isTyped = true
  · simp [List.filter_cons, h]; omega
  · simp [List.filter_cons, h]

theorem Builder.runOps_inv (ops : List BuilderOp) : ∀ (b : Builder) (k : Nat),
    noAdjacentLiterals b.list = true → (∀ a ∈ b.list, a.isEmptyLiteral = false) →
    lastIsLiteral b.list = false → b.list.length ≤ 2 * k →
    noAdjacentLiterals (Builder.runOps ops b).list = true ∧
      (∀ a ∈ (Builder.runOps ops b).list, a.isEmptyLiteral = false) ∧
      lastIsLiteral (Builder.runOps ops b).list = false ∧
      (Builder.runOps ops b).list.length ≤ 2 * (k + typedCount ops) := by
  induction ops with
  | nil => intro b k h1 h2 h3 h4; exact ⟨h1, h2, h3, by simpa [typedCount] using h4⟩
  | cons op rest ih =>
    intro b k h1 h2 h3 h4
    obtain ⟨k1, k2, k3, k4⟩ := BuilderOp.run_inv op b k h1 h2 h3 h4
    have := ih (op.run b) _ k1 k2 k3 k4
    rw [typedCount_cons, ← Nat.add_assoc]
    exact this

theorem Builder.build_inv (b : Builder) (k : Nat)
    (h1 : noAdjacentLiterals b.list = true) (h2 : ∀ a ∈ b.list, a.isEmptyLiteral = false)
    (h3 : lastIsLiteral b.list = false) (h4 : b.list.length ≤ 2 * k) :
    noAdjacentLiterals b.Build.1 = true ∧ (∀ a ∈ b.Build.1, a.isEmptyLiteral = false) ∧
      b.Build.1.length ≤ 2 * k + 1 := by
  show noAdjacentLiterals b.flush.list = true ∧ (∀ a ∈ b.flush.list, a.isEmptyLiteral = false) ∧
      b.flush.list.length ≤ 2 * k + 1
  rw [Builder.flush_list]
  by_cases ho : b.out = []
  · simp only [if_pos ho]
    exact ⟨h1, h2, by omega⟩
  · simp only [if_neg ho]
    refine ⟨?_, ?_, ?_⟩
    · rw [noAdjacentLiterals_concat, h1, h3]; rfl
    · intro x hx
      rcases List.mem_append.1 hx with hx | hx
      · exact h2 x hx
      · rw [List.mem_singleton.1 hx]
        simpa [Appender.isEmptyLiteral] using ho
    · simp only [List.length_append, List.length_singleton]; omega

/-- C27: for every sequence of `Add`, `AddBytes`, `AddString`, `AddByte`, `AddRune`
and `Indent` calls on an empty builder, the list that `Build` returns has no two
adjacent literal fragments and no empty literal fragment, and at most `2k + 1`
fragments, `k` being the number of non-literal, non-nil fragments added; with no
such fragment it has at most one. `Add` of a `LiteralBytes` or `LiteralString` is
`AddBytes` or `AddString` of its content. -/
theorem Builder.build_coalesced (ops : List BuilderOp) (b : Builder) (x : List Nat) :
    noAdjacentLiterals (Builder.runOps ops {}).Build.1 = true ∧
    (∀ a ∈ (Builder.runOps ops {}).Build.1, a.isEmptyLiteral = false) ∧
    (Builder.runOps ops {}).Build.1.length ≤ 2 * typedCount ops + 1 ∧
    ((∀ op ∈ ops, op.isTyped = false) → (Builder.runOps ops {}).Build.1.length ≤ 1) ∧
    b.Add (some (.LiteralBytes x)) = b.AddBytes x ∧
    b.Add (some (.LiteralString x)) = b.AddString x := by
  obtain ⟨k1, k2, k3, k4⟩ := Builder.runOps_inv ops {} 0 rfl (by intro a ha; cases ha) rfl
    (by simp)
  obtain ⟨r1, r2, r3⟩ := Builder.build_inv _ _ k1 k2 k3 k4
  refine ⟨r1, r2, by simpa using r3, ?_, rfl, rfl⟩
  intro hall
  have : typedCount ops = 0 := by
    unfold typedCount
    rw [List.length_eq_zero, List.filter_eq_nil_iff]
    intro a ha
    simp [hall a ha]
  rw [this] at r3
  simpa using r3

/-- Witness of C27: three raw additions give at most one fragment. -/
theorem Builder.build_coalesced_witness :
    (∀ op ∈ [BuilderOp.AddByte 0x5B, BuilderOp.AddString (ascii "ab"), BuilderOp.AddRune 0x5D],
        op.isTyped = false) ∧
      (Builder.runOps [BuilderOp.AddByte 0x5B, BuilderOp.AddString (ascii "ab"),
        BuilderOp.AddRune 0x5D] {}).Build.1.length ≤ 1 :=
  ⟨by decide, (Builder.build_coalesced [BuilderOp.AddByte 0x5B, BuilderOp.AddString (ascii "ab"),
        BuilderOp.AddRune 0x5D] {} []).2.2.2.1 (by decide)⟩

/-- C28: `Push(next)` makes `next` the current state and appends the former state
to the stack, so `Depth` grows by one, and `Pop` right after it restores the machine
exactly. `Pop` on a stack that ends in `x` makes `x` the current state and removes
only that entry; `Pop` on an empty stack panics with `stack is empty`. -/
theorem Machine.push_pop (sm : Machine) (next : GoEmitter.State) :
    (sm.Push next).State = next ∧ (sm.Push next).Stack = sm.Stack ++ [sm.State] ∧
    (sm.Push next).Depth = sm.Depth + 1 ∧ (sm.Push next).Pop = .ok sm ∧
    (∀ (l : List GoEmitter.State) (x s : GoEmitter.State),
      Machine.Pop { Stack := l ++ [x], State := s } = .ok { Stack := l, State := x }) ∧
    (∀ s : GoEmitter.State, Machine.Pop { Stack := [], State := s } = .error .stackIsEmpty) :=
  ⟨rfl, rfl, by simp [Machine.Push, Machine.Depth], Machine.pop_concat sm.Stack sm.State next,
    Machine.pop_concat, Machine.pop_nil⟩

/-! ## Two EndObject calls, the bound of the buffer -/

theorem State.next_key_iff (x x1 : State) (h : x.Next = .ok x1) :
    x1 ∈ [State.ObjectFirstKey, State.ObjectNextKey] ↔
      (x = State.ObjectFirstValue ∨ x = State.ObjectNextValue) := by
  unfold State.Next at h
  split_ifs at h with h0 h1 h2 h3 h4 h5 h6 <;> injection h with h <;> subst h
  · subst h0; decide
  · subst h1; decide
  · subst h2; decide
  · subst h3; decide
  · subst h4; decide
  · subst h5; decide
  · subst h6; decide

/-- C29, as amended: in a reachable generator state, after an `EndObject` that
returned, a second `EndObject` panics with the unexpected-state error unless the
object just closed was the value of a member of an enclosing object (the state
saved on top of the stack when it was opened is `ObjectFirstValue` or
`ObjectNextValue`); in that case the second `EndObject` returns. -/
theorem Generator.endObject_twice (json : JSON) (g g1 : Generator) (list : List Appender)
    (hr : Reachable json g) (h : g.EndObject = .ret g1 list) :
    ∃ rest top, g.sm.Stack = rest ++ [top] ∧
      ((top = State.ObjectFirstValue ∨ top = State.ObjectNextValue) →
        ∃ g2 list2, g1.EndObject = .ret g2 list2) ∧
      (¬ (top = State.ObjectFirstValue ∨ top = State.ObjectNextValue) →
        g1.EndObject = .panic g1 (.unexpectedState g1.sm.State.val)) := by
  have hw := (Reachable.wellNested json g hr).1
  have hk : g.sm.State ∈ [State.ObjectFirstKey, State.ObjectNextKey] := by
    by_contra hn
    have := Call.run_illegal .EndObject g hn
    simp only [Call.run] at this
    rw [this] at h
    cases h
  have hcs : g.sm.State ∈ containerStates := by
    simp only [List.mem_cons, List.mem_singleton, List.not_mem_nil, or_false] at hk
    rcases hk with hk | hk <;> rw [hk] <;> decide
  obtain ⟨l, x, x1, hs, hn, _⟩ := Machine.wellNested_pop g.sm hw hcs
  obtain ⟨list1, h1⟩ := Generator.endObject_legal g l x x1 hk hs hn
  rw [h1] at h
  injection h with hg _
  have hw1 : g1.sm.WellNested :=
    (Reachable.wellNested json g1 (Reachable.step g .EndObject g1 list1 hr (by rw [← hg]; exact h1))).1
  have hst : g1.sm.State = x1 := by rw [← hg]
  refine ⟨l, x, hs, fun hx => ?_, fun hx => ?_⟩
  · have hk1 : g1.sm.State ∈ Call.legal .EndObject := by
      rw [hst]; exact (State.next_key_iff x x1 hn).2 hx
    obtain ⟨g2, list2, h2, _⟩ := Call.run_legal .EndObject g1 hw1 hk1
    exact ⟨g2, list2, h2⟩
  · have hk1 : g1.sm.State ∉ Call.legal .EndObject := by
      rw [hst]; exact fun hm => hx ((State.next_key_iff x x1 hn).1 hm)
    exact Call.run_illegal .EndObject g1 hk1

/-- Witness of C29: after the root object is closed a second `EndObject` panics. -/
theorem Generator.endObject_twice_witness :
    Generator.EndObject { json := {}, sm := { Stack := [], State := State.End } } =
      .panic { json := {}, sm := { Stack := [], State := State.End } }
        (.unexpectedState State.End.val) := by
  obtain ⟨rest, top, hs, _, h2⟩ := Generator.endObject_twice {}
    { json := {}, sm := { Stack := [State.Root], State := State.ObjectFirstKey } }
    { json := {}, sm := { Stack := [], State := State.End } } [Appender.LiteralString [0x7D]]
    (Reachable.step _ .StartObject _ [Appender.LiteralString [0x7B]] Reachable.fresh rfl) rfl
  have ht : top = State.Root := by
    have := congrArg List.getLast? hs
    simpa using this.symm
  apply h2
  rw [ht]
  decide

/-- Counterexample to C29 as stated: the calls `StartObject`, `Key("a")`,
`StartObject`, `EndObject`, `EndObject` on a new generator all return; the two
`EndObject` calls in a row close the inner and the outer object, and the fragments
spell an object with the one member `a` whose value is an empty object. -/
theorem Generator.endObject_twice_counterexample :
    ∃ g1 l1 g2 l2 g3 l3 g4 l4 g5 l5,
      (JSON.NewGenerator {}).StartObject = .ret g1 l1 ∧ g1.Key (ascii "a") = .ret g2 l2 ∧
      g2.StartObject = .ret g3 l3 ∧ g3.EndObject = .ret g4 l4 ∧ g4.EndObject = .ret g5 l5 ∧
      Reachable {} g3 ∧ g5.sm.State = State.End ∧
      appendAll (l1 ++ l2 ++ l3 ++ l4 ++ l5) [] =
        [0x7B, 0x22, 0x61, 0x22, 0x3A, 0x7B, 0x7D, 0x7D] := by
  refine ⟨_, _, _, _, _, _, _, _, _, _, rfl, rfl, rfl, rfl, rfl, ?_, rfl, by decide⟩
  exact Reachable.step _ .StartObject _ _
    (Reachable.step _ (.Key (ascii "a")) _ _
      (Reachable.step _ .StartObject _ _ Reachable.fresh rfl) rfl) rfl

theorem Emitter.apply_bound (e : Emitter) (list : List Appender) (h : e.out.length < blockSize) :
    (e.apply list).out.length < blockSize := by
  have hz : ([] : List Nat).length < blockSize := by decide
  unfold Emitter.apply
  split_ifs with h1
  · exact h
  · dsimp only
    split_ifs with h2
    · exact h2
    · rw [(Emitter.flush_fields _).2.1]; exact hz

theorem Emitter.applyCall_bound (e : Emitter) (call : Generator → GenResult)
    (h : e.out.length < blockSize) : (e.applyCall call).state.out.length < blockSize := by
  unfold Emitter.applyCall
  cases call e.g with
  | panic g p => exact h
  | ret g list => exact Emitter.apply_bound _ list h

theorem EmitterOp.run_bound (op : EmitterOp) (e : Emitter) (h : e.out.length < blockSize) :
    (op.run e).out.length < blockSize := by
  cases op with
  | call c =>
    simp only [EmitterOp.run, EmitterCall.run_eq]
    exact Emitter.applyCall_bound e _ h
  | Flush =>
    simp only [EmitterOp.run, Emitter.Flush]
    split_ifs
    · rw [(Emitter.flush_fields _).2.1]; exact (by decide : ([] : List Nat).length < blockSize)
    · exact h
  | Close =>
    have hb := Emitter.applyCall_bound e Generator.End h
    simp only [EmitterOp.run, Emitter.Close]
    cases hc : e.applyCall Generator.End with
    | panic e1 p => rw [hc] at hb; exact hb
    | ret e1 u =>
      rw [hc] at hb
      simp only [Result.state] at hb ⊢
      split_ifs
      · rw [(Emitter.flush_fields _).2.1]; exact (by decide : ([] : List Nat).length < blockSize)
      · exact hb

theorem runOps_bound (ops : List EmitterOp) : ∀ e : Emitter, e.out.length < blockSize →
    (runOps ops e).out.length < blockSize := by
  induction ops with
  | nil => intro e h; exact h
  | cons op rest ih => intro e h; exact ih _ (EmitterOp.run_bound op e h)

/-- C30: after `Reset` or `New`, and after every sequence of structural calls,
scalar calls, `Flush` and `Close` that follows, whether or not an error has been
recorded, the pending buffer holds fewer than 4096 bytes. -/
theorem Emitter.buffer_bound (e0 : Emitter) (w : Writer) (g : Generator)
    (ops : List EmitterOp) :
    (∃ e, e0.Reset (some w) (some g) = .ret e () ∧ e.out.length < blockSize ∧
      (runOps ops e).out.length < blockSize) ∧
    (∃ e, Emitter.New (some w) (some g) = .ok e ∧ e.out.length < blockSize ∧
      (runOps ops e).out.length < blockSize) := by
  have hz : ([] : List Nat).length < blockSize := by decide
  exact ⟨⟨_, Emitter.reset_ok e0 w g, hz, runOps_bound ops _ hz⟩,
    ⟨_, rfl, Emitter.apply_bound _ [] hz, runOps_bound ops _ (Emitter.apply_bound _ [] hz)⟩⟩

/-! ## Conservation of bytes -/

theorem wrapInt64_add (a b : Int) : wrapInt64 (wrapInt64 a + b) = wrapInt64 (a + b) := by
  unfold wrapInt64
  omega

theorem wrapInt64_small (a : Int) (h0 : 0 ≤ a) (h1 : a < 2 ^ 63) : wrapInt64 a = a := by
  unfold wrapInt64
  omega

theorem Emitter.flush_conserves (e : Emitter) (rec0 bufs : List (List Nat))
    (hw : ∀ h p, e.w.respond h p = ((p.length : Int), none))
    (hrec : e.w.received = rec0 ++ bufs)
    (hn : e.n = wrapInt64 (bufs.flatten.length : Int)) :
    e.flush.err = none ∧ e.flush.w.respond = e.w.respond ∧ e.flush.g = e.g ∧
      e.flush.out = [] ∧ e.flush.w.received = rec0 ++ (bufs ++ [e.out]) ∧
      e.flush.n = wrapInt64 ((bufs ++ [e.out]).flatten.length : Int) := by
  refine ⟨?_, rfl, rfl, rfl, ?_, ?_⟩
  · simp [Emitter.flush, Writer.Write, hw]
  · simp [Emitter.flush, Writer.Write, hrec]
  · simp only [Emitter.flush, Writer.Write, hw, hn, wrapInt64_add]
    simp

theorem Emitter.apply_conserves (e : Emitter) (list : List Appender) (rec0 bufs : List (List Nat))
    (herr : e.err = none) (hw : ∀ h p, e.w.respond h p = ((p.length : Int), none))
    (hrec : e.w.received = rec0 ++ bufs)
    (hn : e.n = wrapInt64 (bufs.flatten.length : Int)) :
    (e.apply list).err = none ∧ (e.apply list).w.respond = e.w.respond ∧
      (e.apply list).g = e.g ∧
      ∃ bufs1, (e.apply list).w.received = rec0 ++ bufs1 ∧
        bufs1.flatten ++ (e.apply list).out = bufs.flatten ++ e.out ++ appendAll list [] ∧
        (e.apply list).n = wrapInt64 (bufs1.flatten.length : Int) := by
  unfold Emitter.apply
  rw [if_neg (by simp [herr])]
  dsimp only
  split_ifs with hlen
  · exact ⟨herr, rfl, rfl, bufs, hrec, by rw [appendAll_eq list e.out]; simp, hn⟩
  · obtain ⟨h1, h2, h3, h4, h5, h6⟩ := Emitter.flush_conserves
      { e with out := appendAll list e.out } rec0 bufs hw hrec hn
    refine ⟨h1, h2, h3, _, h5, ?_, h6⟩
    rw [h4, appendAll_eq list e.out]
    simp

theorem Emitter.applyCall_conserves (e : Emitter) (call : Generator → GenResult)
    (rec0 bufs : List (List Nat))
    (herr : e.err = none) (hw : ∀ h p, e.w.respond h p = ((p.length : Int), none))
    (hrec : e.w.received = rec0 ++ bufs)
    (hn : e.n = wrapInt64 (bufs.flatten.length : Int)) :
    (e.applyCall call).state.err = none ∧ (e.applyCall call).state.w.respond = e.w.respond ∧
      ∃ bufs1, (e.applyCall call).state.w.received = rec0 ++ bufs1 ∧
        bufs1.flatten ++ (e.applyCall call).state.out = bufs.flatten ++ e.out ++
          appendAll (match call e.g with | .ret _ list => list | .panic _ _ => []) [] ∧
        (e.applyCall call).state.n = wrapInt64 (bufs1.flatten.length : Int) := by
  unfold Emitter.applyCall
  cases call e.g with
  | panic g p => exact ⟨herr, rfl, bufs, hrec, by simp [Result.state, appendAll_nil], hn⟩
  | ret g list =>
    obtain ⟨h1, h2, _, h4⟩ := Emitter.apply_conserves { e with g := g } list rec0 bufs herr hw hrec hn
    exact ⟨h1, h2, h4⟩

theorem EmitterOp.run_conserves (op : EmitterOp) (e : Emitter) (rec0 bufs : List (List Nat))
    (herr : e.err = none) (hw : ∀ h p, e.w.respond h p = ((p.length : Int), none))
    (hrec : e.w.received = rec0 ++ bufs)
    (hn : e.n = wrapInt64 (bufs.flatten.length : Int)) :
    (op.run e).err = none ∧ (op.run e).w.respond = e.w.respond ∧
      ∃ bufs1, (op.run e).w.received = rec0 ++ bufs1 ∧
        bufs1.flatten ++ (op.run e).out =
          bufs.flatten ++ e.out ++ appendAll (op.fragments e.g) [] ∧
        (op.run e).n = wrapInt64 (bufs1.flatten.length : Int) ∧
        (op = .Close → (op.run e).out = [] ∨ e.Close.aborts = true) := by
  cases op with
  | call c =>
    obtain ⟨h1, h2, b1, h3, h4, h5⟩ :=
      Emitter.applyCall_conserves e c.generatorCall.run rec0 bufs herr hw hrec hn
    simp only [EmitterOp.run, EmitterCall.run_eq, EmitterOp.fragments]
    exact ⟨h1, h2, b1, h3, h4, h5, fun h => by cases h⟩
  | Flush =>
    simp only [EmitterOp.run, Emitter.Flush, EmitterOp.fragments, appendAll_nil]
    split_ifs
    · obtain ⟨h1, h2, _, h4, h5, h6⟩ := Emitter.flush_conserves e rec0 bufs hw hrec hn
      exact ⟨h1, h2, _, h5, by rw [h4]; simp, h6, fun h => by cases h⟩
    · exact ⟨herr, rfl, bufs, hrec, by simp, hn, fun h => by cases h⟩
  | Close =>
    obtain ⟨h1, h2, b1, h3, h4, h5⟩ :=
      Emitter.applyCall_conserves e Generator.End rec0 bufs herr hw hrec hn
    simp only [EmitterOp.run, Emitter.Close, EmitterOp.fragments]
    cases hc : e.applyCall Generator.End with
    | panic e1 p =>
      rw [hc] at h1 h2 h3 h4 h5
      exact ⟨h1, h2, b1, h3, h4, h5, fun _ => Or.inr rfl⟩
    | ret e1 u =>
      rw [hc] at h1 h2 h3 h4 h5
      simp only [Result.state] at h1 h2 h3 h4 h5 ⊢
      rw [if_pos (by simp [h1])]
      obtain ⟨k1, k2, _, k4, k5, k6⟩ :=
        Emitter.flush_conserves e1 rec0 b1 (by rw [h2]; exact hw) h3 h5
      refine ⟨k1, k2.trans h2, _, k5, ?_, k6, fun _ => Or.inl k4⟩
      have hfl : (b1 ++ [e1.out]).flatten ++ e1.flush.out = b1.flatten ++ e1.out := by
        rw [k4]; simp
      exact hfl.trans h4

theorem runOps_conserves (ops : List EmitterOp) : ∀ (e : Emitter) (rec0 bufs : List (List Nat)),
    e.err = none → (∀ h p, e.w.respond h p = ((p.length : Int), none)) →
    e.w.received = rec0 ++ bufs → e.n = wrapInt64 (bufs.flatten.length : Int) →
    (runOps ops e).err = none ∧ (runOps ops e).w.respond = e.w.respond ∧
      ∃ bufs1, (runOps ops e).w.received = rec0 ++ bufs1 ∧
        bufs1.flatten ++ (runOps ops e).out = bufs.flatten ++ e.out ++ generatedBytes ops e ∧
        (runOps ops e).n = wrapInt64 (bufs1.flatten.length : Int) := by
  induction ops with
  | nil =>
    intro e rec0 bufs herr _ hrec hn
    exact ⟨herr, rfl, bufs, hrec, by simp [runOps, generatedBytes], hn⟩
  | cons op rest ih =>
    intro e rec0 bufs herr hw hrec hn
    obtain ⟨h1, h2, b1, h3, h4, h5, _⟩ := EmitterOp.run_conserves op e rec0 bufs herr hw hrec hn
    obtain ⟨k1, k2, b2, k3, k4, k5⟩ := ih (op.run e) rec0 b1 h1 (by rw [h2]; exact hw) h3 h5
    refine ⟨k1, k2.trans h2, b2, k3, ?_, k5⟩
    simp only [runOps, List.foldl_cons, generatedBytes] at k4 ⊢
    rw [k4, h4]
    simp

/-- C31: conservation of bytes. Over a sink that accepts every buffer completely
and never fails, after `Reset` and any sequence of structural calls, scalar calls,
`Flush` and `Close` (a call that panics contributes no fragment), no error is
recorded, the buffers handed to the sink since `Reset`, concatenated and followed by
the pending buffer, are exactly the bytes of the fragments the generator returned,
in call order, and `BytesWritten` is the total length of those buffers as an
`int64`, hence that length itself while it is below 2^63. When `Close` then returns
it returns nil with the pending buffer empty, and the sink holds all the bytes
generated up to and including `Close`. -/
theorem Emitter.byte_conservation (e0 : Emitter) (w : Writer) (g : Generator)
    (ops : List EmitterOp) (hw : ∀ h p, w.respond h p = ((p.length : Int), none)) :
    ∃ e, e0.Reset (some w) (some g) = .ret e () ∧ (runOps ops e).err = none ∧
      ∃ bufs, (runOps ops e).w.received = w.received ++ bufs ∧
        bufs.flatten ++ (runOps ops e).out = generatedBytes ops e ∧
        (runOps ops e).BytesWritten = wrapInt64 (bufs.flatten.length : Int) ∧
        ((bufs.flatten.length : Int) < 2 ^ 63 →
          (runOps ops e).BytesWritten = (bufs.flatten.length : Int)) ∧
        (∀ (e2 : Emitter) (r : Option IOError), (runOps ops e).Close = .ret e2 r →
          r = none ∧ e2.out = [] ∧
            ∃ bufs2, e2.w.received = w.received ++ bufs2 ∧
              bufs2.flatten = generatedBytes (ops ++ [EmitterOp.Close]) e) := by
  refine ⟨_, Emitter.reset_ok e0 w g, ?_⟩
  have base := fun ops => runOps_conserves ops
    { w := w, g := g.Reset, out := [], err := none, n := 0 } w.received [] rfl hw (by simp) rfl
  obtain ⟨h1, h2, bufs, h3, h4, h5⟩ := base ops
  refine ⟨h1, bufs, h3, by simpa using h4, h5, fun hlt => ?_, ?_⟩
  · show (runOps ops _).n = _
    rw [h5]
    exact wrapInt64_small _ (by omega) hlt
  · intro e2 r hc
    obtain ⟨k1, _, b2, k3, k4, k5⟩ := base (ops ++ [EmitterOp.Close])
    have hrun : runOps (ops ++ [EmitterOp.Close])
        { w := w, g := g.Reset, out := [], err := none, n := 0 } = e2 := by
      have : runOps (ops ++ [EmitterOp.Close])
          { w := w, g := g.Reset, out := [], err := none, n := 0 } =
          (Emitter.Close (runOps ops { w := w, g := g.Reset, out := [], err := none, n := 0 })).state := by
        simp [runOps, List.foldl_append, EmitterOp.run]
      rw [this, hc]
      rfl
    rw [hrun] at k1 k3 k4
    have hr : r = e2.err := by
      unfold Emitter.Close at hc
      cases ha : (runOps ops { w := w, g := g.Reset, out := [], err := none, n := 0 }).applyCall
          Generator.End with
      | panic e3 p => rw [ha] at hc; cases hc
      | ret e3 u =>
        rw [ha] at hc
        simp only at hc
        injection hc with hc1 hc2
        rw [← hc2, ← hc1]
    have hout : e2.out = [] := by
      obtain ⟨_, _, _, _, _, _, hcl⟩ := EmitterOp.run_conserves EmitterOp.Close
        (runOps ops { w := w, g := g.Reset, out := [], err := none, n := 0 }) w.received bufs h1
        (by rw [h2]; exact hw) h3 h5
      rcases hcl rfl with h | h
      · simp only [EmitterOp.run, hc, Result.state] at h
        exact h
      · rw [hc] at h
        cases h
    refine ⟨by rw [hr, k1], hout, b2, k3, ?_⟩
    rw [hout] at k4
    simpa using k4

/-- Witness of C31: an array of one null written and closed over a reliable sink. -/
theorem Emitter.byte_conservation_witness :
    ∃ e, Emitter.Reset
        { w := Writer.reliable, g := JSON.NewGenerator {}, out := [0x41], err := some ⟨5⟩, n := 7 }
        (some Writer.reliable) (some (JSON.NewGenerator {})) = .ret e () ∧
      ∃ bufs, (runOps [EmitterOp.call EmitterCall.StartArray, EmitterOp.call EmitterCall.EmitNull,
          EmitterOp.call EmitterCall.EndArray, EmitterOp.Close] e).w.received =
            Writer.reliable.received ++ bufs ∧
        bufs.flatten ++ (runOps [EmitterOp.call EmitterCall.StartArray,
          EmitterOp.call EmitterCall.EmitNull, EmitterOp.call EmitterCall.EndArray,
          EmitterOp.Close] e).out =
            generatedBytes [EmitterOp.call EmitterCall.StartArray,
              EmitterOp.call EmitterCall.EmitNull, EmitterOp.call EmitterCall.EndArray,
              EmitterOp.Close] e := by
  obtain ⟨e, h1, _, bufs, h3, h4, _⟩ := Emitter.byte_conservation
    { w := Writer.reliable, g := JSON.NewGenerator {}, out := [0x41], err := some ⟨5⟩, n := 7 }
    Writer.reliable (JSON.NewGenerator {})
    [EmitterOp.call EmitterCall.StartArray, EmitterOp.call EmitterCall.EmitNull,
      EmitterOp.call EmitterCall.EndArray, EmitterOp.Close] (fun _ _ => rfl)
  exact ⟨e, h1, bufs, h3, h4⟩

/-! ## The generator after End -/

theorem Generator.end_state (g g1 : Generator) (list : List Appender)
    (h : g.End = .ret g1 list) : g1.sm.State = State.allOnes := by
  unfold Generator.End at h
  cases he : g.sm.ExpectEnd with
  | error p => rw [he] at h; cases h
  | ok u =>
    rw [he] at h
    simp only at h
    injection h with hg _
    rw [← hg]

theorem Call.allOnes_illegal (c : Call) : State.allOnes ∉ c.legal := by
  have h1 : State.allOnes ∉ valueStates := by decide
  cases c <;> first | exact h1 | (simp only [Call.legal]; decide)

theorem Emitter.close_state (e e1 : Emitter) (r : Option IOError) (h : e.Close = .ret e1 r) :
    e1.g.sm.State = State.allOnes := by
  unfold Emitter.Close Emitter.applyCall at h
  cases hg : Generator.End e.g with
  | panic g1 p => rw [hg] at h; cases h
  | ret g1 list =>
    rw [hg] at h
    simp only at h
    injection h with he _
    have hs := Generator.end_state e.g g1 list hg
    rw [← he]
    split_ifs
    · rw [(Emitter.flush_fields _).2.2.1, Emitter.apply_g]; exact hs
    · rw [Emitter.apply_g]; exact hs

/-- C32: after an `End` that returned, the state of the generator is none of the
eight named states, and every generator call (`Begin`, `Key`, the four structural
calls, every scalar call and `End` itself) panics with the unexpected-state error
and leaves the generator as it is. The same holds for the emitter after a `Close`
that returned: every structural or scalar call and a second `Close` panic. `Reset`
brings the state back to `Root`. -/
theorem Generator.closed_after_end (g g1 : Generator) (list : List Appender)
    (h : g.End = .ret g1 list) :
    g1.sm.State.IsValid = false ∧
    (∀ c : Call, c.run g1 = .panic g1 (.unexpectedState 255) ∧ (c.run g1).aborts = true) ∧
    (∀ (e e1 : Emitter) (r : Option IOError), e.Close = .ret e1 r →
      e1.g.sm.State.IsValid = false ∧ (∀ c : EmitterCall, (c.run e1).aborts = true) ∧
        e1.Close.aborts = true) ∧
    g1.Reset.sm.State = State.Root := by
  have hs := Generator.end_state g g1 list h
  have key : ∀ (g2 : Generator), g2.sm.State = State.allOnes →
      ∀ c : Call, c.run g2 = .panic g2 (.unexpectedState 255) := by
    intro g2 h2 c
    have := Call.run_illegal c g2 (by rw [h2]; exact Call.allOnes_illegal c)
    rw [this, h2]
    rfl
  refine ⟨by rw [hs]; rfl, fun c => ⟨key g1 hs c, by rw [key g1 hs c]; rfl⟩, ?_, rfl⟩
  intro e e1 r hc
  have h1 := Emitter.close_state e e1 r hc
  refine ⟨by rw [h1]; rfl, fun c => ?_, ?_⟩
  · rw [EmitterCall.run_eq]
    unfold Emitter.applyCall
    rw [key e1.g h1]
    rfl
  · unfold Emitter.Close Emitter.applyCall
    have := key e1.g h1 .End
    simp only [Call.run] at this
    rw [this]
    rfl

/-- Witness of C32: the generator that `End` leaves behind refuses `StartArray`. -/
theorem Generator.closed_after_end_witness :
    (Call.run Call.StartArray
      { json := {}, sm := { Stack := [], State := State.allOnes } }).aborts = true :=
  ((Generator.closed_after_end { json := {}, sm := { Stack := [], State := State.End } }
    { json := {}, sm := { Stack := [], State := State.allOnes } } [] rfl).2.1 Call.StartArray).2

/-! ## Content of a builder -/

theorem BuilderOp.run_bytes (op : BuilderOp) (b : Builder) :
    appendAll (op.run b).list [] ++ (op.run b).out =
      appendAll b.list [] ++ b.out ++ op.bytes := by
  cases op with
  | Add a =>
    cases a with
    | none => simp [BuilderOp.run, Builder.Add, BuilderOp.bytes]
    | some a =>
      have h := Builder.add_build_bytes b a
      rw [Builder.build_bytes] at h
      exact h
  | AddBytes buf => simp [BuilderOp.run, Builder.AddBytes, BuilderOp.bytes]
  | AddString str => simp [BuilderOp.run, Builder.AddString, BuilderOp.bytes]
  | AddByte ch => simp [BuilderOp.run, Builder.AddByte, BuilderOp.bytes]
  | AddRune ch => simp [BuilderOp.run, Builder.AddRune, BuilderOp.bytes]
  | Indent tab size count =>
    simp only [BuilderOp.run, BuilderOp.bytes, Builder.Indent]
    by_cases hc : count ≤ 0
    · have : count = 0 := by omega
      subst this
      simp
    · rw [if_neg hc]
      have hs : (if size ≤ 0 then (if tab then 1 else 2) else size) =
          (if size = 0 then (if tab then 1 else 2) else size) := by
        by_cases h0 : size = 0
        · simp [h0]
        · rw [if_neg h0, if_neg (by omega)]
      simp only [hs, List.append_assoc]

theorem Builder.runOps_bytes (ops : List BuilderOp) : ∀ b : Builder,
    appendAll (Builder.runOps ops b).list [] ++ (Builder.runOps ops b).out =
      appendAll b.list [] ++ b.out ++ ops.flatMap BuilderOp.bytes := by
  induction ops with
  | nil => intro b; simp [Builder.runOps]
  | cons op rest ih =>
    intro b
    have := ih (op.run b)
    simp only [Builder.runOps, List.foldl_cons] at this ⊢
    rw [this, BuilderOp.run_bytes]
    simp

/-- C33: for every sequence of `Add`, `AddBytes`, `AddString`, `AddByte`, `AddRune`
and `Indent` calls on an empty builder, appending the fragments that `Build`
returns, in order, to an empty buffer gives the concatenation, in call order, of the
bytes of each call; after `Build` the builder has no fragment and no pending byte,
and a second `Build` returns the empty list. -/
theorem Builder.build_content (ops : List BuilderOp) :
    appendAll (Builder.runOps ops {}).Build.1 [] = ops.flatMap BuilderOp.bytes ∧
    (Builder.runOps ops {}).Build.2.list = [] ∧ (Builder.runOps ops {}).Build.2.out = [] ∧
    (Builder.runOps ops {}).Build.2.Build.1 = [] := by
  have hout : ∀ b : Builder, b.Build.2.out = [] := fun b => (Builder.flush_bytes b).2
  refine ⟨?_, rfl, hout _, ?_⟩
  · rw [Builder.build_bytes, Builder.runOps_bytes]
    rfl
  · have h := hout (Builder.runOps ops {})
    show (Builder.flush _).list = []
    unfold Builder.flush
    rw [h]
    rfl

/-! ## Validity of the string output -/

theorem beginsEncoding_two (s0 s1 : Nat) (t : List Nat) (h0 : 0xC2 ≤ s0 ∧ s0 ≤ 0xDF)
    (h1 : 0x80 ≤ s1 ∧ s1 ≤ 0xBF) : BeginsEncoding (s0 :: s1 :: t) := by
  refine ⟨((s0 % 32 * 64 + s1 % 64 : Nat) : Int), t, ⟨by omega, by omega, by omega⟩, ?_⟩
  have a0 : ¬ (((s0 % 32 * 64 + s1 % 64 : Nat) : Int) < 0) := by omega
  have a1 : ¬ (s0 % 32 * 64 + s1 % 64 < 0x80) := by omega
  have a2 : s0 % 32 * 64 + s1 % 64 < 0x800 := by omega
  simp only [runeToString, Int.toNat_ofNat, if_neg a0, if_neg a1, if_pos a2, List.cons_append,
    List.nil_append]
  have e0 : 0xC0 + (s0 % 32 * 64 + s1 % 64) / 64 = s0 := by omega
  have e1 : 0x80 + (s0 % 32 * 64 + s1 % 64) % 64 = s1 := by omega
  rw [e0, e1]

theorem beginsEncoding_three (s0 s1 s2 : Nat) (t : List Nat) (h0 : 0xE0 ≤ s0 ∧ s0 ≤ 0xEF)
    (h1 : 0x80 ≤ s1 ∧ s1 ≤ 0xBF) (ha : s0 = 0xE0 → 0xA0 ≤ s1) (hb : s0 = 0xED → s1 ≤ 0x9F)
    (h2 : 0x80 ≤ s2 ∧ s2 ≤ 0xBF) : BeginsEncoding (s0 :: s1 :: s2 :: t) := by
  refine ⟨((s0 % 16 * 4096 + s1 % 64 * 64 + s2 % 64 : Nat) : Int), t,
    ⟨by omega, by omega, by omega⟩, ?_⟩
  have a0 : ¬ (((s0 % 16 * 4096 + s1 % 64 * 64 + s2 % 64 : Nat) : Int) < 0) := by omega
  have a1 : ¬ (s0 % 16 * 4096 + s1 % 64 * 64 + s2 % 64 < 0x80) := by omega
  have a2 : ¬ (s0 % 16 * 4096 + s1 % 64 * 64 + s2 % 64 < 0x800) := by omega
  have a3 : ¬ (0xD800 ≤ s0 % 16 * 4096 + s1 % 64 * 64 + s2 % 64 ∧
      s0 % 16 * 4096 + s1 % 64 * 64 + s2 % 64 < 0xE000) := by omega
  have a4 : s0 % 16 * 4096 + s1 % 64 * 64 + s2 % 64 < 0x10000 := by omega
  simp only [runeToString, Int.toNat_ofNat, if_neg a0, if_neg a1, if_neg a2, if_neg a3, if_pos a4,
    List.cons_append, List.nil_append]
  have e0 : 0xE0 + (s0 % 16 * 4096 + s1 % 64 * 64 + s2 % 64) / 4096 = s0 := by omega
  have e1 : 0x80 + (s0 % 16 * 4096 + s1 % 64 * 64 + s2 % 64) / 64 % 64 = s1 := by omega
  have e2 : 0x80 + (s0 % 16 * 4096 + s1 % 64 * 64 + s2 % 64) % 64 = s2 := by omega
  rw [e0, e1, e2]

theorem beginsEncoding_four (s0 s1 s2 s3 : Nat) (t : List Nat) (h0 : 0xF0 ≤ s0 ∧ s0 ≤ 0xF4)
    (h1 : 0x80 ≤ s1 ∧ s1 ≤ 0xBF) (ha : s0 = 0xF0 → 0x90 ≤ s1) (hb : s0 = 0xF4 → s1 ≤ 0x8F)
    (h2 : 0x80 ≤ s2 ∧ s2 ≤ 0xBF) (h3 : 0x80 ≤ s3 ∧ s3 ≤ 0xBF) :
    BeginsEncoding (s0 :: s1 :: s2 :: s3 :: t) := by
  refine ⟨((s0 % 8 * 262144 + s1 % 64 * 4096 + s2 % 64 * 64 + s3 % 64 : Nat) : Int), t,
    ⟨by omega, by omega, by omega⟩, ?_⟩
  have a0 : ¬ (((s0 % 8 * 262144 + s1 % 64 * 4096 + s2 % 64 * 64 + s3 % 64 : Nat) : Int) < 0) := by
    omega
  have a1 : ¬ (s0 % 8 * 262144 + s1 % 64 * 4096 + s2 % 64 * 64 + s3 % 64 < 0x80) := by omega
  have a2 : ¬ (s0 % 8 * 262144 + s1 % 64 * 4096 + s2 % 64 * 64 + s3 % 64 < 0x800) := by omega
  have a3 : ¬ (0xD800 ≤ s0 % 8 * 262144 + s1 % 64 * 4096 + s2 % 64 * 64 + s3 % 64 ∧
      s0 % 8 * 262144 + s1 % 64 * 4096 + s2 % 64 * 64 + s3 % 64 < 0xE000) := by omega
  have a4 : ¬ (s0 % 8 * 262144 + s1 % 64 * 4096 + s2 % 64 * 64 + s3 % 64 < 0x10000) := by omega
  have a5 : s0 % 8 * 262144 + s1 % 64 * 4096 + s2 % 64 * 64 + s3 % 64 < 0x110000 := by omega
  simp only [runeToString, Int.toNat_ofNat, if_neg a0, if_neg a1, if_neg a2, if_neg a3, if_neg a4,
    if_pos a5, List.cons_append, List.nil_append]
  have e0 : 0xF0 + (s0 % 8 * 262144 + s1 % 64 * 4096 + s2 % 64 * 64 + s3 % 64) / 262144 = s0 := by
    omega
  have e1 : 0x80 + (s0 % 8 * 262144 + s1 % 64 * 4096 + s2 % 64 * 64 + s3 % 64) / 4096 % 64 = s1 := by
    omega
  have e2 : 0x80 + (s0 % 8 * 262144 + s1 % 64 * 4096 + s2 % 64 * 64 + s3 % 64) / 64 % 64 = s2 := by
    omega
  have e3 : 0x80 + (s0 % 8 * 262144 + s1 % 64 * 4096 + s2 % 64 * 64 + s3 % 64) % 64 = s3 := by
    omega
  rw [e0, e1, e2, e3]

theorem beginsEncoding_one (s0 : Nat) (t : List Nat) (h0 : s0 < 0x80) :
    BeginsEncoding (s0 :: t) :=
  ⟨(s0 : Int), t, ⟨by omega, by omega, by omega⟩, by rw [runeToString_ascii s0 h0]; rfl⟩

/-- The decoder rejects a first byte only when no encoding begins there. -/
theorem DecodeRuneInString_invalid (s0 : Nat) (t : List Nat) (h : ¬ BeginsEncoding (s0 :: t)) :
    DecodeRuneInString (s0 :: t) = (RuneError, 1) := by
  simp only [DecodeRuneInString]
  rcases utf8Size_cases s0 with ⟨hsz, h0⟩ | ⟨hsz, h0⟩ | ⟨hsz, h0⟩ | ⟨hsz, h0⟩ | ⟨hsz, h0⟩
  · exact absurd (beginsEncoding_one s0 t h0) h
  · simp [hsz]
  · simp only [hsz]
    cases t with
    | nil => simp
    | cons s1 t1 =>
      simp only [List.getD_cons_zero]
      split_ifs with c1 c2 c3
      all_goals first
        | rfl
        | (exfalso
           have hb := accept_bounds _ _ (by assumption)
           exact h (beginsEncoding_two s0 s1 t1 h0 ⟨hb.1, hb.2.1⟩))
        | omega
  · simp only [hsz]
    rcases t with _ | ⟨s1, _ | ⟨s2, t2⟩⟩
    · simp
    · simp
    · simp only [List.getD_cons_zero, List.getD_cons_succ]
      split_ifs with c1 c2 c3 c4 c5
      all_goals first
        | rfl
        | omega
        | (exfalso
           have hb := accept_bounds _ _ (by assumption)
           have hc : isCont s2 = true := by simpa using (by assumption : ¬ (!isCont s2) = true)
           rw [isCont_iff] at hc
           exact h (beginsEncoding_three s0 s1 s2 t2 h0 ⟨hb.1, hb.2.1⟩ hb.2.2.1 hb.2.2.2.1 hc))
  · simp only [hsz]
    rcases t with _ | ⟨s1, _ | ⟨s2, _ | ⟨s3, t3⟩⟩⟩
    · simp
    · simp
    · simp
    · simp only [List.getD_cons_zero, List.getD_cons_succ]
      split_ifs with c1 c2 c3 c4 c5 c6 c7
      all_goals first
        | rfl
        | omega
        | (exfalso
           have hb := accept_bounds _ _ (by assumption)
           have hc : isCont s2 = true := by simpa using (by assumption : ¬ (!isCont s2) = true)
           have hd : isCont s3 = true := by simpa using (by assumption : ¬ (!isCont s3) = true)
           rw [isCont_iff] at hc hd
           exact h (beginsEncoding_four s0 s1 s2 s3 t3 h0 ⟨hb.1, hb.2.1⟩ hb.2.2.2.2.1
             hb.2.2.2.2.2 hc hd))


theorem validUTF8_append (a b : List Nat) (ha : ValidUTF8 a) (hb : ValidUTF8 b) :
    ValidUTF8 (a ++ b) := by
  obtain ⟨ra, ha1, ha2⟩ := ha
  obtain ⟨rb, hb1, hb2⟩ := hb
  refine ⟨ra ++ rb, ?_, by rw [ha2, hb2, List.flatMap_append]⟩
  intro r hr
  rcases List.mem_append.1 hr with h | h
  · exact ha1 r h
  · exact hb1 r h

theorem validUTF8_of_ascii (l : List Nat) (h : ∀ b ∈ l, b < 0x80) : ValidUTF8 l := by
  induction l with
  | nil => exact ⟨[], by simp, rfl⟩
  | cons b t ih =>
    have hb : b < 0x80 := h b (List.mem_cons_self _ _)
    have h1 : ValidUTF8 [b] :=
      ⟨[(b : Int)], by
        intro r hr
        rw [List.mem_singleton.1 hr]
        exact ⟨by omega, by omega, by omega⟩, by simp [runeToString_ascii b hb]⟩
    exact validUTF8_append [b] t h1 (ih (fun x hx => h x (List.mem_cons_of_mem _ hx)))

theorem validUTF8_of_rune (r : Int) (h : isScalarValue r) : ValidUTF8 (runeToString r) :=
  ⟨[r], by intro x hx; rw [List.mem_singleton.1 hx]; exact h, by simp⟩

theorem validUTF8_of_image (html : Bool) (r : Int) (h : isScalarValue r) :
    ValidUTF8 (escapeImageHTML html r) := by
  by_cases hs : r < 160
  · obtain ⟨n, rfl⟩ := Int.eq_ofNat_of_zero_le h.1
    have hall := (escapeImageHTML_small html n (by omega)).1
    rw [List.all_eq_true] at hall
    apply validUTF8_of_ascii
    intro b hb
    have := hall b hb
    simp only [Bool.and_eq_true, decide_eq_true_eq] at this
    omega
  · rw [escapeImageHTML_large html r (Or.inr (by omega))]
    exact validUTF8_of_rune r h

theorem validUTF8_of_images (html : Bool) (runes : List Int) (h : ∀ r ∈ runes, isScalarValue r) :
    ValidUTF8 (runes.flatMap (escapeImageHTML html)) := by
  induction runes with
  | nil => exact ⟨[], by simp, rfl⟩
  | cons r t ih =>
    rw [List.flatMap_cons]
    exact validUTF8_append _ _ (validUTF8_of_image html r (h r (List.mem_cons_self _ _)))
      (ih (fun x hx => h x (List.mem_cons_of_mem _ hx)))

theorem runeToString_head (r : Int) : ∃ h t, runeToString r = h :: t ∧ h ≤ 0xF4 := by
  simp only [runeToString]
  split_ifs <;> exact ⟨_, _, rfl, by omega⟩

theorem not_beginsEncoding (b : Nat) (rest : List Nat) (h : 0xF4 < b) :
    ¬ BeginsEncoding (b :: rest) := by
  rintro ⟨r, t, _, he⟩
  obtain ⟨x, y, hxy, hx⟩ := runeToString_head r
  rw [hxy] at he
  injection he with he _
  omega

theorem rangeRunes_invalid (b : Nat) (rest : List Nat) (h : ¬ BeginsEncoding (b :: rest)) :
    rangeRunes (b :: rest) = RuneError :: rangeRunes rest := by
  unfold rangeRunes
  rw [rangeRunesFrom_zero_cons, DecodeRuneInString_invalid b rest h]
  rfl

theorem rangeRunes_valid (r : Int) (rest : List Nat) (h : isScalarValue r) :
    rangeRunes (runeToString r ++ rest) = r :: rangeRunes rest := by
  by_cases hl : 0x80 ≤ r
  · exact rangeRunesFrom_runeToString r h hl rest
  · obtain ⟨n, rfl⟩ := Int.eq_ofNat_of_zero_le h.1
    have hn : n < 0x80 := by omega
    unfold rangeRunes
    rw [runeToString_ascii n hn, List.singleton_append, rangeRunesFrom_zero_cons,
      DecodeRuneInString_ascii n rest hn]
    rfl

theorem StringAppender.appendRune_image (a : StringAppender) (out : List Nat) (r : Int)
    (h : isScalarValue r) :
    ∃ img, a.appendRune out r = out ++ img ∧
      (img = runeToString r ∨ stringEscapes.lookup r = some img ∨
        (a.EscapeHTML = true ∧ stringEscapesHTML.lookup r = some img)) := by
  have hs : ¬ (r ≥ 0xd800 ∧ r < 0xe000) := fun hc => h.2.2 ⟨hc.1, hc.2⟩
  unfold StringAppender.appendRune
  cases h1 : stringEscapes.lookup r with
  | some esc => exact ⟨esc, rfl, Or.inr (Or.inl rfl)⟩
  | none =>
    by_cases hh : a.EscapeHTML = true
    · simp only [hh, if_true]
      cases h2 : stringEscapesHTML.lookup r with
      | some esc => exact ⟨esc, rfl, Or.inr (Or.inr ⟨trivial, rfl⟩)⟩
      | none =>
        simp only [if_neg hs]
        exact ⟨_, rfl, Or.inl rfl⟩
    · simp only [hh, if_neg hs]
      exact ⟨_, rfl, Or.inl rfl⟩

/-- C34: for every byte sequence given as the string, valid UTF-8 or not, the output
of `StringAppender.Append` is valid UTF-8. The loop visits only Unicode scalar
values. At a byte where no UTF-8 encoding of a scalar value begins, the loop yields
U+FFFD, advances by that one byte, and the body writes the three bytes EF BF BD.
At the encoding of a scalar value the loop yields that value, advances past the
encoding, and the body writes either an entry of one of the two escape tables or
the UTF-8 encoding of the value itself. -/
theorem StringAppender.output_valid_utf8 (a : StringAppender) (out : List Nat) :
    ValidUTF8 (a.Append []) ∧ a.Append out = out ++ a.Append [] ∧
    a.Append out = (rangeRunes a.Value).foldl a.appendRune (out ++ [0x22]) ++ [0x22] ∧
    (∀ r ∈ rangeRunes a.Value, isScalarValue r) ∧
    (∀ (b : Nat) (rest : List Nat), ¬ BeginsEncoding (b :: rest) →
      rangeRunes (b :: rest) = RuneError :: rangeRunes rest ∧
        a.appendRune out RuneError = out ++ [0xEF, 0xBF, 0xBD]) ∧
    (∀ (r : Int) (rest : List Nat), isScalarValue r →
      rangeRunes (runeToString r ++ rest) = r :: rangeRunes rest ∧
        ∃ img, a.appendRune out r = out ++ img ∧
          (img = runeToString r ∨ stringEscapes.lookup r = some img ∨
            (a.EscapeHTML = true ∧ stringEscapesHTML.lookup r = some img))) := by
  have hsc : ∀ r ∈ rangeRunes a.Value, isScalarValue r := rangeRunesFrom_scalar a.Value 0
  have hfe : isScalarValue RuneError := by
    unfold isScalarValue RuneError; omega
  refine ⟨?_, ?_, rfl, hsc, ?_, ?_⟩
  · rw [StringAppender.append_eq_flatMap]
    have hq : ValidUTF8 [0x22] := validUTF8_of_ascii _ (by simp)
    exact validUTF8_append _ _ (validUTF8_append _ _ (validUTF8_append _ _ ⟨[], by simp, rfl⟩ hq)
      (validUTF8_of_images _ _ hsc)) hq
  · rw [StringAppender.append_eq_flatMap, StringAppender.append_eq_flatMap a []]
    simp
  · intro b rest hb
    refine ⟨rangeRunes_invalid b rest hb, ?_⟩
    rw [StringAppender.appendRune_eq a out RuneError hfe.2.2,
      escapeImageHTML_large _ _ (Or.inr (by unfold RuneError; omega))]
    rfl
  · intro r rest hr
    exact ⟨rangeRunes_valid r rest hr, StringAppender.appendRune_image a out r hr⟩

/-- Witness of C34: the byte FF in front of the letter a. -/
theorem StringAppender.output_valid_utf8_witness :
    rangeRunes (0xFF :: ascii "a") = RuneError :: rangeRunes (ascii "a") ∧
      StringAppender.appendRune { Value := 0xFF :: ascii "a", EscapeHTML := false } [0x22] RuneError =
        [0x22] ++ [0xEF, 0xBF, 0xBD] :=
  (StringAppender.output_valid_utf8 { Value := 0xFF :: ascii "a", EscapeHTML := false } [0x22]).2.2.2.2.1
    0xFF (ascii "a") (not_beginsEncoding 0xFF (ascii "a") (by decide))

/-! ## Parsing a format -/

/-- C35: for every receiver and every input, `Parse` and `UnmarshalText` return an
error and leave the receiver at a value for which `IsValid` is false. `MarshalText`
of `Compact`, `OneLine` and `MultiLine` returns `compact`, `oneLine` and `multiLine`,
and unmarshalling that text does not give the format back, although each of the
three is valid. -/
theorem Format.parse_never_restores (f : Format) (input : List Nat) :
    (∃ err, (f.Parse input).2 = some err) ∧ (f.Parse input).1.IsValid = false ∧
    (∃ err, (f.UnmarshalText input).2 = some err) ∧ (f.UnmarshalText input).1.IsValid = false ∧
    Format.Compact.MarshalText = (ascii "compact", none) ∧
    Format.OneLine.MarshalText = (ascii "oneLine", none) ∧
    Format.MultiLine.MarshalText = (ascii "multiLine", none) ∧
    (f.UnmarshalText Format.Compact.MarshalText.1).1 ≠ Format.Compact ∧
    (f.UnmarshalText Format.OneLine.MarshalText.1).1 ≠ Format.OneLine ∧
    (f.UnmarshalText Format.MultiLine.MarshalText.1).1 ≠ Format.MultiLine ∧
    Format.Compact.IsValid = true ∧ Format.OneLine.IsValid = true ∧
    Format.MultiLine.IsValid = true := by
  have hne : ∀ x : Format, x.val < 3 → (f.UnmarshalText x.MarshalText.1).1 ≠ x := by
    intro x hv he
    have : (255 : Nat) = x.val := congrArg Format.val he
    omega
  exact ⟨⟨_, rfl⟩, rfl, ⟨_, rfl⟩, rfl, by decide, by decide, by decide, hne _ (by decide),
    hne _ (by decide), hne _ (by decide), rfl, rfl, rfl⟩

end GoEmitter
